import Mathlib

/-!
Shallow embedding of the `verystochastic/json_parser` repository
(`src/main.rs`): the `JsonValue` model, the recursive-descent parser
(`Parser::parse` and its helpers) and the serializer
(`impl fmt::Display for JsonValue`), together with proofs about them.

Numbers: the Rust code stores `f64` and converts the lexed candidate text
with `str::parse::<f64>()`; the embedding models the numeric domain as `ℚ`
with the exact decimal semantics of the candidate text.  Strings are
modelled as `List Char` (Rust iterates over `char`s).  `HashMap` objects
are modelled as association lists whose insert overwrites an existing key
(last write wins), which is `HashMap::insert`'s observable behaviour.
-/

namespace JsonParser

/-- The characters accepted by Rust's `char::is_whitespace` (the Unicode
`White_Space` property), which is what `Parser::skip_whitespace` tests. -/
def rustIsWhitespace (c : Char) : Bool :=
  c == ' ' || c == '\t' || c == '\n' || c == '\r' ||
  c.toNat == 11 || c.toNat == 12 || c.toNat == 133 || c.toNat == 160 ||
  c.toNat == 5760 || (8192 ≤ c.toNat && c.toNat ≤ 8202) ||
  c.toNat == 8232 || c.toNat == 8233 || c.toNat == 8239 ||
  c.toNat == 8287 || c.toNat == 12288

/-- The four whitespace characters of the JSON grammar (space, tab,
newline, carriage return). -/
def jsonWs (c : Char) : Bool :=
  c == ' ' || c == '\t' || c == '\n' || c == '\r'

/-- `enum JsonValue` from `src/main.rs` (numbers as exact rationals,
strings as char sequences, objects as association lists). -/
inductive JsonValue : Type where
  | null : JsonValue
  | boolean : Bool → JsonValue
  | number : ℚ → JsonValue
  | string : List Char → JsonValue
  | array : List JsonValue → JsonValue
  | object : List (List Char × JsonValue) → JsonValue

/-- `struct ParseError { message, position }`. -/
instance : Inhabited JsonValue := ⟨JsonValue.null⟩

structure ParseError : Type where
  message : String
  position : Nat
deriving DecidableEq

/-- `struct Parser { input: Vec<char>, position: usize }`. -/
structure Parser : Type where
  input : List Char
  position : Nat
deriving DecidableEq

namespace Parser

/-- `Parser::new`. -/
def new (input : List Char) : Parser := ⟨input, 0⟩

/-- The input characters not yet consumed (`input[position..]`). -/
def rem (s : Parser) : List Char := s.input.drop s.position

/-- `self.input.get(self.position).copied()`. -/
def peek_char (s : Parser) : Option Char := s.input.get? s.position

/-- Advance the cursor by `n` characters. -/
def advanceBy (s : Parser) (n : Nat) : Parser := ⟨s.input, s.position + n⟩

/-- `Parser::next_char`: read the character under the cursor and advance
by one if there is one. -/
def next_char (s : Parser) : Option Char × Parser :=
  match peek_char s with
  | some c => (some c, advanceBy s 1)
  | none => (none, s)

/-- `Parser::error`: a `ParseError` at the current position. -/
def mkError (s : Parser) (message : String) : ParseError :=
  ⟨message, s.position⟩

/-- `Parser::skip_whitespace`: advance while the current character
satisfies `char::is_whitespace`; equivalently, advance past the maximal
whitespace prefix of the remaining input. -/
def skip_whitespace (s : Parser) : Parser :=
  advanceBy s ((rem s).takeWhile rustIsWhitespace).length

/-- An apostrophe character, used by several error messages. -/
def sq : String := String.singleton (Char.ofNat 39)

/-- A character wrapped in apostrophes, as `format!("'{}'", c)` does. -/
def quoted (c : Char) : String := sq ++ String.singleton c ++ sq

/-- `Parser::consume_str`: match the expected characters one at a time;
on a mismatch or end of input report the expected character and what was
found. -/
def consume_str (s : Parser) : List Char → Except ParseError Parser
  | [] => .ok s
  | e :: es =>
    match next_char s with
    | (some c, s') =>
      if c = e then consume_str s' es
      else .error (mkError s' ("Expected " ++ quoted e ++ ", found " ++ quoted c))
    | (none, s') =>
      .error (mkError s' ("Expected " ++ quoted e ++ ", found end of input"))

/-- The single-character escapes of `Parser::parse_string`'s match on the
character after a backslash. -/
def escMap (c : Char) : Option Char :=
  if c = '"' then some '"'
  else if c = '\\' then some '\\'
  else if c = '/' then some '/'
  else if c = 'b' then some (Char.ofNat 8)
  else if c = 'f' then some (Char.ofNat 12)
  else if c = 'n' then some '\n'
  else if c = 'r' then some '\r'
  else if c = 't' then some '\t'
  else none

/-- Outcome of the `while let` loop of `Parser::parse_string`, over the
input after the opening quote: the decoded content, or the failure kind,
together with the number of characters the loop consumed. -/
inductive StrOut : Type where
  | done : List Char → Nat → StrOut
  | badEsc : Char → Nat → StrOut
  | escEnd : Nat → StrOut
  | noEnd : Nat → StrOut

/-- The character-consuming loop of `Parser::parse_string`: a closing
quote terminates, a backslash consumes one more character and decodes it
through `escMap`, anything else is copied verbatim. -/
def strLoop : List Char → StrOut
  | [] => .noEnd 0
  | c :: cs =>
    if c = '"' then .done [] 1
    else if c = '\\' then
      match cs with
      | [] => .escEnd 1
      | e :: cs' =>
        match escMap e with
        | some d =>
          match strLoop cs' with
          | .done content n => .done (d :: content) (n + 2)
          | .badEsc b n => .badEsc b (n + 2)
          | .escEnd n => .escEnd (n + 2)
          | .noEnd n => .noEnd (n + 2)
        | none => .badEsc e 2
    else
      match strLoop cs with
      | .done content n => .done (c :: content) (n + 1)
      | .badEsc b n => .badEsc b (n + 1)
      | .escEnd n => .escEnd (n + 1)
      | .noEnd n => .noEnd (n + 1)

/-- `Parser::parse_string`: consume the opening quote unconditionally,
then run the loop; errors are positioned where the Rust code raises them
(after the characters consumed so far). -/
def parse_string (s : Parser) : Except ParseError (JsonValue × Parser) :=
  let s0 := (next_char s).2
  match strLoop (rem s0) with
  | .done content n => .ok (.string content, advanceBy s0 n)
  | .badEsc b n =>
    .error ⟨"invalid escape sequence: \\" ++ String.singleton b, s0.position + n⟩
  | .escEnd n => .error ⟨"unterminated escape sequence", s0.position + n⟩
  | .noEnd n => .error ⟨"Unterminated string", s0.position + n⟩

/-- Digit test used by the number lexer (`char::is_ascii_digit`). -/
def isDigit (c : Char) : Bool := '0' ≤ c && c ≤ '9'

/-- Numeric value of an ASCII digit. -/
def digitVal (c : Char) : Nat := c.toNat - 48

/-- Value of a digit string, most significant first. -/
def digitsVal (cs : List Char) : Nat :=
  cs.foldl (fun acc c => 10 * acc + digitVal c) 0

/-- The value `m * 10 ^ e` as a rational, computed with `mkRat`. -/
def decRat (m : ℤ) (e : ℤ) : ℚ :=
  if 0 ≤ e then mkRat (m * ((10 : ℕ) ^ e.toNat : ℕ)) 1
  else mkRat m ((10 : ℕ) ^ (-e).toNat)

/-- The value of a decomposed float text: signed mantissa digits times
ten to the exponent minus the number of fractional digits. -/
def ratNumFin (neg : Bool) (intDigits fracDigits : List Char) (expVal : ℤ) : ℚ :=
  decRat
    (if neg then -(digitsVal (intDigits ++ fracDigits) : ℤ)
     else (digitsVal (intDigits ++ fracDigits) : ℤ))
    (expVal - (fracDigits.length : ℤ))

/-- Exponent clause of the float grammar accepted by
`str::parse::<f64>`: nothing, or `e`/`E`, an optional sign and at least
one digit ending the text. -/
def ratNumExpPhase (neg : Bool) (intDigits fracDigits : List Char) :
    List Char → Option ℚ
  | [] => some (ratNumFin neg intDigits fracDigits 0)
  | c :: rest =>
    if c = 'e' ∨ c = 'E' then
      let (esgn, rest1) : ℤ × List Char :=
        match rest with
        | c2 :: r =>
          if c2 = '+' then (1, r)
          else if c2 = '-' then (-1, r)
          else (1, rest)
        | [] => (1, rest)
      let eds := rest1.takeWhile isDigit
      if eds.isEmpty then none
      else if rest1.drop eds.length ≠ [] then none
      else some (ratNumFin neg intDigits fracDigits (esgn * (digitsVal eds : ℤ)))
    else none

/-- Fraction clause of the float grammar accepted by
`str::parse::<f64>`. -/
def ratNumFracPhase (neg : Bool) (intDigits : List Char) :
    List Char → Option ℚ
  | [] => ratNumExpPhase neg intDigits [] []
  | c :: rest =>
    if c = '.' then
      let ds := rest.takeWhile isDigit
      if ds.isEmpty then none
      else ratNumExpPhase neg intDigits ds (rest.drop ds.length)
    else ratNumExpPhase neg intDigits [] (c :: rest)

/-- Exact numeric semantics of `str::parse::<f64>` on the candidate text
built by `Parser::parse_number` (sign, digits, optional fraction,
optional exponent), as a rational: `none` on text outside the float
grammar.  The Rust conversion rounds to the nearest `f64`; the model
keeps the exact value. -/
def ratOfNumStr (cs : List Char) : Option ℚ :=
  let (neg, cs1) : Bool × List Char :=
    match cs with
    | c :: rest => if c = '-' then (true, rest) else (false, cs)
    | [] => (false, cs)
  let intDigits := cs1.takeWhile isDigit
  if intDigits.isEmpty then none
  else ratNumFracPhase neg intDigits (cs1.drop intDigits.length)

/-- `Parser::parse_number`: optional minus sign; integer part (a lone `0`,
or a run of digits); optional fraction; optional exponent; finally the
collected candidate text is converted to a number.  Errors are raised at
the positions where the Rust code raises them. -/
def parse_number (s : Parser) : Except ParseError (JsonValue × Parser) :=
  let start := s.position
  let (sgnChars, s1) : List Char × Parser :=
    match peek_char s with
    | some c => if c = '-' then (['-'], advanceBy s 1) else ([], s)
    | none => ([], s)
  parse_number_int start sgnChars s1
where
  /-- Integer part of `Parser::parse_number`: a lone `0`, or a digit
  run. -/
  parse_number_int (start : Nat) (sgnChars : List Char) (s1 : Parser) :
      Except ParseError (JsonValue × Parser) :=
    match peek_char s1 with
    | some c =>
      if c = '0' then
        parse_number_rest start (sgnChars ++ ['0']) (advanceBy s1 1)
      else if isDigit c then
        let ds := (rem s1).takeWhile isDigit
        parse_number_rest start (sgnChars ++ ds) (advanceBy s1 ds.length)
      else .error (mkError s1 "expected digit after minus sign or invalid number")
    | none => .error (mkError s1 "expected digit after minus sign or invalid number")
  /-- Fraction part, exponent part and final conversion of
  `Parser::parse_number`, after the integer part. -/
  parse_number_rest (start : Nat) (acc : List Char) (s2 : Parser) :
      Except ParseError (JsonValue × Parser) :=
    match peek_char s2 with
    | some c =>
      if c = '.' then
        let s3 := advanceBy s2 1
        let ds := (rem s3).takeWhile isDigit
        if ds.isEmpty then
          .error (mkError s3 "expected digit after decimal point")
        else
          parse_number_exp start (acc ++ ['.'] ++ ds) (advanceBy s3 ds.length)
      else parse_number_exp start acc s2
    | none => parse_number_exp start acc s2
  /-- Exponent part and final conversion of `Parser::parse_number`. -/
  parse_number_exp (start : Nat) (acc : List Char) (s4 : Parser) :
      Except ParseError (JsonValue × Parser) :=
    match peek_char s4 with
    | some c =>
      if c = 'e' ∨ c = 'E' then
        let s5 := advanceBy s4 1
        let (sgn2, s6) : List Char × Parser :=
          match peek_char s5 with
          | some c2 =>
            if c2 = '+' ∨ c2 = '-' then ([c2], advanceBy s5 1) else ([], s5)
          | none => ([], s5)
        let ds := (rem s6).takeWhile isDigit
        if ds.isEmpty then
          .error (mkError s6 "expected digit in exponent")
        else
          parse_number_fin start (acc ++ [c] ++ sgn2 ++ ds) (advanceBy s6 ds.length)
      else parse_number_fin start acc s4
    | none => parse_number_fin start acc s4
  /-- The `number_str.parse::<f64>()` step of `Parser::parse_number`. -/
  parse_number_fin (start : Nat) (acc : List Char) (s7 : Parser) :
      Except ParseError (JsonValue × Parser) :=
    match ratOfNumStr acc with
    | some q => .ok (.number q, s7)
    | none =>
      .error ⟨"invalid number format: " ++ sq ++ String.mk acc ++ sq, start⟩

/-- Insert a key/value pair into an association-list object, overwriting
the value of an existing key (the observable behaviour of
`HashMap::insert`: last write wins). -/
def insertKV (entries : List (List Char × JsonValue)) (k : List Char)
    (v : JsonValue) : List (List Char × JsonValue) :=
  match entries with
  | [] => [(k, v)]
  | (k', v') :: rest =>
    if k' = k then (k', v) :: rest else (k', v') :: insertKV rest k v

/-- Request kind for the fueled recursive core: parse one value
(`Parser::parse_value`), or run the element loop of `Parser::parse_array`
or of the object parser with the elements accumulated so far. -/
inductive PReq : Type where
  | val : PReq
  | arrItems : List JsonValue → PReq
  | objItems : List (List Char × JsonValue) → PReq

/-- The mutually recursive core of the parser, with explicit fuel
(`none` = fuel exhausted; the top level supplies enough).

* `.val` is `Parser::parse_value`: skip whitespace and dispatch on the
  next character to the literal, string, number, array or object rules.
  The `[` case is the prefix of `Parser::parse_array` (consume `[`, skip
  whitespace, empty-array short-circuit) and the `{` case the analogous
  prefix of the object rule.
* `.arrItems` is the `loop` of `Parser::parse_array`: parse one value,
  skip whitespace, then `,` (with the trailing-comma check) or `]`.
* `.objItems` — modelled from the spec: `Parser::parse_object`'s body is
  `todo!()` in the snapshot, so the loop follows spec §4.2: expect a
  quoted string key, `:`, a value; insert with last-write-wins; then `,`
  (rejecting an immediate trailing `}` like the array rule) or `}`;
  mirror the array rule's structural errors, including an
  "unterminated object" error at end of input. -/
def runP : Nat → PReq → Parser → Option (Except ParseError (JsonValue × Parser))
  | 0, _, _ => none
  | fuel + 1, .val, s =>
    let s0 := skip_whitespace s
    match peek_char s0 with
    | none => some (.error (mkError s0 "unexpected end of input"))
    | some c =>
      if c = 'n' then
        some (match consume_str s0 ['n', 'u', 'l', 'l'] with
          | .ok s1 => .ok (.null, s1)
          | .error e => .error e)
      else if c = 't' then
        some (match consume_str s0 ['t', 'r', 'u', 'e'] with
          | .ok s1 => .ok (.boolean true, s1)
          | .error e => .error e)
      else if c = 'f' then
        some (match consume_str s0 ['f', 'a', 'l', 's', 'e'] with
          | .ok s1 => .ok (.boolean false, s1)
          | .error e => .error e)
      else if c = '"' then some (parse_string s0)
      else if isDigit c ∨ c = '-' then some (parse_number s0)
      else if c = '[' then
        let s1 := skip_whitespace (advanceBy s0 1)
        match peek_char s1 with
        | some c1 =>
          if c1 = ']' then some (.ok (.array [], advanceBy s1 1))
          else runP fuel (.arrItems []) s1
        | none => runP fuel (.arrItems []) s1
      else if c = '{' then
        let s1 := skip_whitespace (advanceBy s0 1)
        match peek_char s1 with
        | some c1 =>
          if c1 = '}' then some (.ok (.object [], advanceBy s1 1))
          else runP fuel (.objItems []) s1
        | none => runP fuel (.objItems []) s1
      else
        some (.error (mkError s0 ("unexpected character: " ++ String.singleton c)))
  | fuel + 1, .arrItems acc, s =>
    match runP fuel .val s with
    | none => none
    | some (.error e) => some (.error e)
    | some (.ok (v, s1)) =>
      let s2 := skip_whitespace s1
      match peek_char s2 with
      | some c =>
        if c = ',' then
          let s3 := skip_whitespace (advanceBy s2 1)
          match peek_char s3 with
          | some c1 =>
            if c1 = ']' then
              some (.error (mkError s3 "unexptected trailing comma in array"))
            else runP fuel (.arrItems (acc ++ [v])) s3
          | none => runP fuel (.arrItems (acc ++ [v])) s3
        else if c = ']' then some (.ok (.array (acc ++ [v]), advanceBy s2 1))
        else
          some (.error (mkError s2
            ("expected " ++ quoted ',' ++ " or " ++ quoted ']' ++
              " in array, found " ++ quoted c)))
      | none => some (.error (mkError s2 "unterminated array"))
  | fuel + 1, .objItems acc, s =>
    match peek_char s with
    | some c0 =>
      if c0 = '"' then
        match parse_string s with
        | .error e => some (.error e)
        | .ok (.string key, s1) =>
          let s2 := skip_whitespace s1
          match peek_char s2 with
          | some c =>
            if c = ':' then
              match runP fuel .val (advanceBy s2 1) with
              | none => none
              | some (.error e) => some (.error e)
              | some (.ok (v, s3)) =>
                let s4 := skip_whitespace s3
                match peek_char s4 with
                | some c1 =>
                  if c1 = ',' then
                    let s5 := skip_whitespace (advanceBy s4 1)
                    match peek_char s5 with
                    | some c2 =>
                      if c2 = '}' then
                        some (.error (mkError s5 "unexpected trailing comma in object"))
                      else runP fuel (.objItems (insertKV acc key v)) s5
                    | none => runP fuel (.objItems (insertKV acc key v)) s5
                  else if c1 = '}' then
                    some (.ok (.object (insertKV acc key v), advanceBy s4 1))
                  else
                    some (.error (mkError s4
                      ("expected comma or closing brace in object, found " ++ quoted c1)))
                | none => some (.error (mkError s4 "unterminated object"))
            else
              some (.error (mkError s2
                ("expected colon in object, found " ++ quoted c)))
          | none => some (.error (mkError s2 "unterminated object"))
        | .ok (_, s1) => some (.error (mkError s1 "expected string key in object"))
      else
        some (.error (mkError s ("expected string key in object, found " ++ quoted c0)))
    | none => some (.error (mkError s "unterminated object"))

/-- Fuel that always suffices for `runP` on the given parser state. -/
def topFuel (s : Parser) : Nat := 2 * s.input.length + 4

/-- `Parser::parse`: skip whitespace, parse one value, skip whitespace,
and fail if any character remains. -/
def parseP (s : Parser) : Except ParseError JsonValue :=
  let s0 := skip_whitespace s
  match runP (topFuel s) .val s0 with
  | none => .error (mkError s0 "fuel exhausted")
  | some (.error e) => .error e
  | some (.ok (v, s1)) =>
    let s2 := skip_whitespace s1
    match peek_char s2 with
    | some _ => .error (mkError s2 "unexpected trailing characters")
    | none => .ok v

end Parser

/-- The public entry point: parse a character sequence. -/
def parse (input : List Char) : Except ParseError JsonValue :=
  Parser.parseP (Parser.new input)

/-! ### The serializer (`impl fmt::Display for JsonValue`) -/

/-- Decimal digits of `n`, least significant first (empty for `0`); the
first argument is fuel (`n` itself suffices). -/
def natDigitsAux : Nat → Nat → List Char
  | 0, _ => []
  | fuel + 1, n =>
    if n = 0 then [] else Char.ofNat (48 + n % 10) :: natDigitsAux fuel (n / 10)

/-- Decimal rendering of a natural number, no leading zeros. -/
def natToChars (n : Nat) : List Char :=
  if n = 0 then ['0'] else (natDigitsAux n n).reverse

/-- The smallest `j` with `k ≤ j < k + fuel` such that `d` divides
`10 ^ j`, if any. -/
def firstDiv (d : Nat) : Nat → Nat → Option Nat
  | 0, _ => none
  | fuel + 1, k => if (10 : Nat) ^ k % d == 0 then some k else firstDiv d fuel (k + 1)

/-- Search bound for `firstDiv`: every `f64` denominator divides
`10 ^ 1074`, so `2000` is comfortably enough. -/
def kMax : Nat := 2000

/-- `write!(f, "{}", n)` on an `f64`: Rust prints the shortest decimal
string that reads back as the same float, never in exponent form.  On the
exact-rational model this is the exact decimal expansion with the minimal
number of fractional digits (and no `.0` for integral values).  Rationals
without a finite decimal expansion do not arise from `f64` values; for
them the function falls back to `'0'`. -/
def renderNum (q : ℚ) : List Char :=
  match firstDiv q.den kMax 0 with
  | none => ['0']
  | some k =>
    let n : Nat := q.num.natAbs * (10 : Nat) ^ k / q.den
    let sign : List Char := if q.num < 0 then ['-'] else []
    if k = 0 then sign ++ natToChars n
    else
      let fs := natToChars (n % (10 : Nat) ^ k)
      sign ++ natToChars (n / (10 : Nat) ^ k) ++
        '.' :: (List.replicate (k - fs.length) '0' ++ fs)

/-- The escaping of one character in the `String` arm of the `Display`
implementation: `"`, `\`, newline, carriage return, tab, backspace and
form feed become two-character escapes, everything else is verbatim. -/
def escapeChar (c : Char) : List Char :=
  if c = '"' then ['\\', '"']
  else if c = '\\' then ['\\', '\\']
  else if c = '\n' then ['\\', 'n']
  else if c = '\r' then ['\\', 'r']
  else if c = '\t' then ['\\', 't']
  else if c = Char.ofNat 8 then ['\\', 'b']
  else if c = Char.ofNat 12 then ['\\', 'f']
  else [c]

/-- Escape every character of a string body. -/
def escapeStr (s : List Char) : List Char := s.foldr (fun c acc => escapeChar c ++ acc) []

/-- Comma-space separation used by the `Array` and `Object` arms. -/
def joinComma (ls : List (List Char)) : List Char := List.intercalate [',', ' '] ls

mutual

/-- `impl fmt::Display for JsonValue`: `null`/`true`/`false` literally,
numbers through Rust's default float formatting, strings quoted with
escaping, arrays bracketed and comma-space separated, objects braced with
each key emitted verbatim between quotes (no escaping) followed by
`": "` and the value. -/
def render : JsonValue → List Char
  | .null => ['n', 'u', 'l', 'l']
  | .boolean b => if b then ['t', 'r', 'u', 'e'] else ['f', 'a', 'l', 's', 'e']
  | .number q => renderNum q
  | .string s => '"' :: escapeStr s ++ ['"']
  | .array items => '[' :: joinComma (renderItems items) ++ [']']
  | .object entries => '{' :: joinComma (renderEntries entries) ++ ['}']

/-- The rendered elements of an array. -/
def renderItems : List JsonValue → List (List Char)
  | [] => []
  | v :: vs => render v :: renderItems vs

/-- The rendered `"key": value` pairs of an object (key verbatim). -/
def renderEntries : List (List Char × JsonValue) → List (List Char)
  | [] => []
  | (k, v) :: rest => ('"' :: k ++ '"' :: ':' :: ' ' :: render v) :: renderEntries rest

end

/-! ### Side conditions for the round-trip statements -/

/-- A rational with a finite decimal expansion of at most `kMax`
fractional digits: exactly the values `renderNum` renders faithfully
(every `f64` satisfies this). -/
def decimalExact (q : ℚ) : Bool := (firstDiv q.den kMax 0).isSome

/-- An object key whose verbatim rendering reads back unchanged: no `"`
and no `\` (such characters would need the escaping that the `Display`
implementation does not apply to keys). -/
def safeKey (k : List Char) : Bool := k.all fun c => !(c = '"' || c = '\\')

/-- The keys of an association list, in order. -/
def keysOf (entries : List (List Char × JsonValue)) : List (List Char) :=
  entries.map Prod.fst

mutual

/-- Values for which the round trip `parse (render v) = v` can hold:
numbers have finite decimal expansions (true of every `f64`) and object
entry lists have distinct keys (true of every `HashMap`) that are safe to
emit verbatim. -/
def Renderable : JsonValue → Bool
  | .null => true
  | .boolean _ => true
  | .number q => decimalExact q
  | .string _ => true
  | .array items => RenderableItems items
  | .object entries => RenderableEntries entries && decide (keysOf entries).Nodup

/-- `Renderable` for every element of an array. -/
def RenderableItems : List JsonValue → Bool
  | [] => true
  | v :: vs => Renderable v && RenderableItems vs

/-- Safe keys and `Renderable` values in an object entry list. -/
def RenderableEntries : List (List Char × JsonValue) → Bool
  | [] => true
  | (k, v) :: rest => safeKey k && Renderable v && RenderableEntries rest

end

/-! ### Token-level view of inputs

For the whitespace-invariance and round-trip proofs, inputs are described
as a sequence of lexical tokens with whitespace in between; the parser's
behaviour is mirrored by a parser over token sequences and the two are
related by a simulation argument. -/

open Parser

/-- Well-formed content of a string literal, as consumed by the loop of
`Parser::parse_string`: no bare `"` (it would terminate early), every
backslash followed by a valid single-character escape. -/
def strBodyOk : List Char → Bool
  | [] => true
  | c :: cs =>
    if c = '"' then false
    else if c = '\\' then
      match cs with
      | [] => false
      | e :: cs' => (escMap e).isSome && strBodyOk cs'
    else strBodyOk cs

/-- The decoded content of a well-formed string body (junk elsewhere). -/
def strDecode : List Char → List Char
  | [] => []
  | c :: cs =>
    if c = '"' then []
    else if c = '\\' then
      match cs with
      | [] => []
      | e :: cs' => ((escMap e).getD e) :: strDecode cs'
    else c :: strDecode cs

/-- A character that would extend a just-lexed number if it immediately
followed it: a digit, `.`, `e` or `E`. -/
def numCont (c : Char) : Bool := isDigit c || c = '.' || c = 'e' || c = 'E'

/-- Exponent clause of a maximal number token: either nothing, or
`e`/`E`, an optional sign and at least one digit, ending the token. -/
def lexNumExp : List Char → Bool
  | [] => true
  | c :: r =>
    if c = 'e' ∨ c = 'E' then
      let r1 : List Char :=
        match r with
        | c2 :: r2 => if c2 = '+' ∨ c2 = '-' then r2 else r
        | [] => r
      let ds := r1.takeWhile isDigit
      !ds.isEmpty && r1.drop ds.length = []
    else false

/-- Fraction clause of a maximal number token. -/
def lexNumFrac : List Char → Bool
  | [] => lexNumExp []
  | c :: r =>
    if c = '.' then
      let ds := r.takeWhile isDigit
      !ds.isEmpty && lexNumExp (r.drop ds.length)
    else lexNumExp (c :: r)

/-- A maximal, well-formed number token exactly as `Parser::parse_number`
lexes it: optional `-`; either a single `0` or a run of digits starting
with a nonzero digit; optional fraction; optional exponent. -/
def lexNumOk (cs : List Char) : Bool :=
  let cs1 : List Char :=
    match cs with
    | c :: r => if c = '-' then r else cs
    | [] => cs
  match cs1 with
  | c :: _ =>
    if c = '0' then lexNumFrac cs1.tail
    else
      isDigit c && lexNumFrac (cs1.drop (cs1.takeWhile isDigit).length)
  | [] => false

/-- The lexical tokens of JSON text: punctuation, literals, a string
token carrying its raw body, a number token carrying its characters. -/
inductive Tok : Type where
  | lbrack : Tok
  | rbrack : Tok
  | lbrace : Tok
  | rbrace : Tok
  | comma : Tok
  | colon : Tok
  | tnull : Tok
  | ttrue : Tok
  | tfalse : Tok
  | tstr : List Char → Tok
  | tnum : List Char → Tok
deriving DecidableEq

/-- The characters of a token. -/
def tokChars : Tok → List Char
  | .lbrack => ['[']
  | .rbrack => [']']
  | .lbrace => ['{']
  | .rbrace => ['}']
  | .comma => [',']
  | .colon => [':']
  | .tnull => ['n', 'u', 'l', 'l']
  | .ttrue => ['t', 'r', 'u', 'e']
  | .tfalse => ['f', 'a', 'l', 's', 'e']
  | .tstr b => '"' :: b ++ ['"']
  | .tnum cs => cs

/-- Well-formedness of one token. -/
def tokOk : Tok → Bool
  | .tstr b => strBodyOk b
  | .tnum cs => lexNumOk cs
  | _ => true

/-- The first character of a token (used in error messages). -/
def headOf (t : Tok) : Char := (tokChars t).headD ' '

/-- When a token is followed with no intervening whitespace by another,
the lexer must not continue into the second: only a number token can
absorb a following character, so only that case is constrained. -/
def nomerge : Tok → Tok → Bool
  | .tnum _, t' =>
    match (tokChars t').head? with
    | some c => !numCont c
    | none => true
  | _, _ => true

/-- All characters of a whitespace block are whitespace. -/
def wsTok (w : List Char) : Bool := w.all rustIsWhitespace

/-- The character sequence of a token/whitespace interleaving: each
token's characters followed by its trailing whitespace block. -/
def buildL : List (Tok × List Char) → List Char
  | [] => []
  | (t, w) :: rest => tokChars t ++ w ++ buildL rest

/-- The token sequence of an interleaving. -/
def toksOf (L : List (Tok × List Char)) : List Tok := L.map Prod.fst

/-- A well-formed interleaving: every token well-formed, every
whitespace block whitespace, and adjacent tokens separated by whitespace
whenever the first could absorb the second's first character. -/
def WfL (L : List (Tok × List Char)) : Prop :=
  (∀ p ∈ L, tokOk p.1 = true ∧ wsTok p.2 = true) ∧
  L.Chain' fun p p' => p.2 = [] → nomerge p.1 p'.1 = true

instance : DecidablePred WfL := fun L =>
  inferInstanceAs (Decidable
    ((∀ p ∈ L, tokOk p.1 = true ∧ wsTok p.2 = true) ∧
      L.Chain' fun p p2 : Tok × List Char =>
        p.2 = [] → nomerge p.1 p2.1 = true))

/-- The numeric value of a number token (junk on ill-formed tokens). -/
def tokNumVal (cs : List Char) : ℚ := (ratOfNumStr cs).getD 0

/-- Token-level mirror of `runP`, the device of the simulation argument:
the same recursion and the same dispatch and error messages, over the
token sequence instead of the character sequence. -/
def runT : Nat → PReq → List Tok → Option (Except String (JsonValue × List Tok))
  | 0, _, _ => none
  | fuel + 1, .val, toks =>
    match toks with
    | [] => some (.error "unexpected end of input")
    | t :: rest =>
      match t with
      | .tnull => some (.ok (.null, rest))
      | .ttrue => some (.ok (.boolean true, rest))
      | .tfalse => some (.ok (.boolean false, rest))
      | .tstr b => some (.ok (.string (strDecode b), rest))
      | .tnum cs => some (.ok (.number (tokNumVal cs), rest))
      | .lbrack =>
        match rest with
        | t2 :: r2 =>
          if t2 = .rbrack then some (.ok (.array [], r2))
          else runT fuel (.arrItems []) (t2 :: r2)
        | [] => runT fuel (.arrItems []) []
      | .lbrace =>
        match rest with
        | t2 :: r2 =>
          if t2 = .rbrace then some (.ok (.object [], r2))
          else runT fuel (.objItems []) (t2 :: r2)
        | [] => runT fuel (.objItems []) []
      | _ => some (.error ("unexpected character: " ++ String.singleton (headOf t)))
  | fuel + 1, .arrItems acc, toks =>
    match runT fuel .val toks with
    | none => none
    | some (.error e) => some (.error e)
    | some (.ok (v, r1)) =>
      match r1 with
      | t2 :: r2 =>
        if t2 = .comma then
          match r2 with
          | t3 :: _ =>
            if t3 = .rbrack then some (.error "unexptected trailing comma in array")
            else runT fuel (.arrItems (acc ++ [v])) r2
          | [] => runT fuel (.arrItems (acc ++ [v])) r2
        else if t2 = .rbrack then some (.ok (.array (acc ++ [v]), r2))
        else
          some (.error ("expected " ++ quoted ',' ++ " or " ++ quoted ']' ++
            " in array, found " ++ quoted (headOf t2)))
      | [] => some (.error "unterminated array")
  | fuel + 1, .objItems acc, toks =>
    match toks with
    | .tstr b :: rest =>
      match rest with
      | t1 :: r2 =>
        if t1 = .colon then
          match runT fuel .val r2 with
          | none => none
          | some (.error e) => some (.error e)
          | some (.ok (v, r3)) =>
            match r3 with
            | t2 :: r4 =>
              if t2 = .comma then
                match r4 with
                | t3 :: _ =>
                  if t3 = .rbrace then
                    some (.error "unexpected trailing comma in object")
                  else runT fuel (.objItems (insertKV acc (strDecode b) v)) r4
                | [] => runT fuel (.objItems (insertKV acc (strDecode b) v)) r4
              else if t2 = .rbrace then
                some (.ok (.object (insertKV acc (strDecode b) v), r4))
              else
                some (.error ("expected comma or closing brace in object, found " ++
                  quoted (headOf t2)))
            | [] => some (.error "unterminated object")
        else
          some (.error ("expected colon in object, found " ++ quoted (headOf t1)))
      | [] => some (.error "unterminated object")
    | t :: _ =>
      some (.error ("expected string key in object, found " ++ quoted (headOf t)))
    | [] => some (.error "unterminated object")

/-- Last-write-wins accumulation of an entry list into an object. -/
def objFold (entries : List (List Char × JsonValue)) :
    List (List Char × JsonValue) :=
  entries.foldl (fun m p => insertKV m p.1 p.2) []

mutual

/-- The rendered text of a value, as a token/whitespace interleaving
(`buildL (renderToks v) = render v`). -/
def renderToks : JsonValue → List (Tok × List Char)
  | .null => [(.tnull, [])]
  | .boolean b => if b then [(.ttrue, [])] else [(.tfalse, [])]
  | .number q => [(.tnum (renderNum q), [])]
  | .string s => [(.tstr (escapeStr s), [])]
  | .array items =>
    (.lbrack, []) :: renderToksItems items ++ [(.rbrack, [])]
  | .object entries =>
    (.lbrace, []) :: renderToksEntries entries ++ [(.rbrace, [])]

/-- Token interleaving of comma-space separated array elements. -/
def renderToksItems : List JsonValue → List (Tok × List Char)
  | [] => []
  | [v] => renderToks v
  | v :: vs => renderToks v ++ (.comma, [' ']) :: renderToksItems vs

/-- Token interleaving of comma-space separated object entries, keys
verbatim. -/
def renderToksEntries : List (List Char × JsonValue) → List (Tok × List Char)
  | [] => []
  | [(k, v)] => (.tstr k, []) :: (.colon, [' ']) :: renderToks v
  | (k, v) :: rest =>
    (.tstr k, []) :: (.colon, [' ']) :: renderToks v ++
      (.comma, [' ']) :: renderToksEntries rest

end

/-- Canonical well-formed JSON object text over the given entries: keys
rendered with full string escaping, values rendered by the serializer,
comma-space separated between braces. -/
def objText (entries : List (List Char × JsonValue)) : List Char :=
  '{' :: joinComma (entries.map fun p =>
    '"' :: escapeStr p.1 ++ '"' :: ':' :: ' ' :: render p.2) ++ ['}']

/-- One parser state is reachable from another by consuming part of the
remaining input: same buffer, offset advanced by at most what remains.
This packages the cursor invariant of the spec: the offset never
decreases and never exceeds the input length. -/
def Advances (s s' : Parser) : Prop :=
  s'.input = s.input ∧
    ∃ n, n ≤ (Parser.rem s).length ∧ s'.position = s.position + n

/-- The number of characters a string-lexing loop outcome consumed. -/
def usedOf : StrOut → Nat
  | .done _ n => n
  | .badEsc _ n => n
  | .escEnd n => n
  | .noEnd n => n

/-- Alignment of a parser state with a residual token interleaving: the
remaining input is some whitespace (the consumed token's trailing block)
followed by the interleaving's characters. -/
def Align (s' : Parser) (rest : List Tok) : Prop :=
  ∃ w L', wsTok w = true ∧ WfL L' ∧ rem s' = w ++ buildL L' ∧ rest = toksOf L'

/-- Correspondence of a character-level and a token-level outcome: both
out of fuel, or errors with the same message, or the same value with
aligned residues. -/
def simRes (r : Option (Except ParseError (JsonValue × Parser)))
    (rt : Option (Except String (JsonValue × List Tok))) : Prop :=
  match r, rt with
  | none, none => True
  | some (.error e), some (.error m) => e.message = m
  | some (.ok (v, s')), some (.ok (v', rest)) => v = v' ∧ Align s' rest
  | _, _ => False

/-- Token interleaving of `objText`. -/
def objTextToks (entries : List (List Char × JsonValue)) :
    List (Tok × List Char) :=
  (.lbrace, []) :: objTextToksEntries entries ++ [(.rbrace, [])]
where
  /-- The entries' part of `objTextToks`. -/
  objTextToksEntries : List (List Char × JsonValue) → List (Tok × List Char)
    | [] => []
    | [(k, v)] => (.tstr (escapeStr k), []) :: (.colon, [' ']) :: renderToks v
    | (k, v) :: rest =>
      (.tstr (escapeStr k), []) :: (.colon, [' ']) :: renderToks v ++
        (.comma, [' ']) :: objTextToksEntries rest

/-! ## Basic state lemmas -/

theorem input_advanceBy (s : Parser) (n : Nat) : (advanceBy s n).input = s.input := rfl

theorem position_advanceBy (s : Parser) (n : Nat) :
    (advanceBy s n).position = s.position + n := rfl

theorem advanceBy_advanceBy (s : Parser) (n m : Nat) :
    advanceBy (advanceBy s n) m = advanceBy s (n + m) := by
  simp [advanceBy, Nat.add_assoc]

theorem rem_advanceBy (s : Parser) (n : Nat) :
    rem (advanceBy s n) = (rem s).drop n := by
  simp [rem, advanceBy, List.drop_drop, Nat.add_comm]

theorem peek_eq_head (s : Parser) : peek_char s = (rem s).head? := by
  simp [peek_char, rem, List.head?_drop]

theorem peek_some_lt (s : Parser) {c : Char} (h : peek_char s = some c) :
    s.position < s.input.length := by
  by_contra hlt
  have : s.input.get? s.position = none := List.get?_eq_none.2 (by omega)
  rw [peek_char] at h
  rw [this] at h
  exact Option.noConfusion h

theorem rem_length (s : Parser) : (rem s).length = s.input.length - s.position := by
  simp [rem]

/-- `drop` past the `takeWhile` prefix is `dropWhile`. -/
theorem drop_length_takeWhile (p : Char → Bool) (l : List Char) :
    l.drop (l.takeWhile p).length = l.dropWhile p := by
  induction l with
  | nil => rfl
  | cons c cs ih =>
    by_cases h : p c
    · simpa [List.takeWhile_cons, List.dropWhile_cons, h] using ih
    · simp [List.takeWhile_cons, List.dropWhile_cons, h]

theorem skip_input (s : Parser) : (skip_whitespace s).input = s.input := rfl

theorem skip_pos_le (s : Parser) : s.position ≤ (skip_whitespace s).position := by
  simp [skip_whitespace, position_advanceBy]

theorem skip_pos_bound (s : Parser) (h : s.position ≤ s.input.length) :
    (skip_whitespace s).position ≤ s.input.length := by
  have h1 : ((rem s).takeWhile rustIsWhitespace).length ≤ (rem s).length :=
    (List.takeWhile_sublist _).length_le
  have h2 := rem_length s
  simp only [skip_whitespace, position_advanceBy]
  omega

theorem rem_skip (s : Parser) :
    rem (skip_whitespace s) = (rem s).dropWhile rustIsWhitespace := by
  rw [skip_whitespace, rem_advanceBy, drop_length_takeWhile]

/-- Skipped characters form the maximal whitespace prefix. -/
theorem skip_consumed_ws (s : Parser) :
    ∀ c ∈ (rem s).takeWhile rustIsWhitespace, rustIsWhitespace c = true := by
  intro c hc
  exact List.mem_takeWhile_imp hc

/-- Dropping whitespace across a whitespace block stops exactly at a
non-whitespace continuation. -/
theorem dropWhile_ws_boundary (w rest : List Char) (hw : wsTok w = true)
    (hrest : ∀ c, rest.head? = some c → rustIsWhitespace c = false) :
    (w ++ rest).dropWhile rustIsWhitespace = rest := by
  induction w with
  | nil =>
    cases rest with
    | nil => rfl
    | cons c cs =>
      have := hrest c rfl
      simp [List.dropWhile_cons, this]
  | cons c cs ih =>
    have hc : rustIsWhitespace c = true := by
      have := (List.all_eq_true.1 hw) c (by simp)
      simpa using this
    have hcs : wsTok cs = true := by
      refine List.all_eq_true.2 ?_
      intro x hx
      exact (List.all_eq_true.1 hw) x (by simp [hx])
    simp [List.dropWhile_cons, hc, ih hcs]

/-- Skipping whitespace from a state aligned at a whitespace block lands
exactly at the following suffix, provided it does not begin with
whitespace. -/
theorem rem_skip_boundary (s : Parser) (w rest : List Char) (hw : wsTok w = true)
    (h : rem s = w ++ rest)
    (hrest : ∀ c, rest.head? = some c → rustIsWhitespace c = false) :
    rem (skip_whitespace s) = rest := by
  rw [rem_skip, h, dropWhile_ws_boundary w rest hw hrest]

/-! ## `consume_str` lemmas -/

theorem consume_str_exact (w : List Char) :
    ∀ (s : Parser) (rest : List Char), rem s = w ++ rest →
      consume_str s w = .ok (advanceBy s w.length) := by
  induction w with
  | nil =>
    intro s rest h
    simp [consume_str, advanceBy]
  | cons c cs ih =>
    intro s rest h
    have hpeek : peek_char s = some c := by
      rw [peek_eq_head, h]; rfl
    have hrem : rem (advanceBy s 1) = cs ++ rest := by
      rw [rem_advanceBy, h]; rfl
    have := ih (advanceBy s 1) rest hrem
    simp only [consume_str, next_char, hpeek, if_pos rfl, this,
      advanceBy_advanceBy]
    norm_num [Nat.add_comm]

theorem consume_str_ok_state (w : List Char) :
    ∀ (s s' : Parser), consume_str s w = .ok s' →
      s'.input = s.input ∧ s.position ≤ s'.position ∧
        s'.position ≤ s.input.length ∨ (w = [] ∧ s' = s) := by
  induction w with
  | nil =>
    intro s s' h
    right
    simp only [consume_str] at h
    exact ⟨rfl, (Except.ok.inj h).symm⟩
  | cons c cs ih =>
    intro s s' h
    left
    cases hpeek : peek_char s with
    | none =>
      simp only [consume_str, next_char, hpeek] at h
      exact Except.noConfusion h
    | some d =>
      simp only [consume_str, next_char, hpeek] at h
      by_cases hd : d = c
      · rw [if_pos hd] at h
        have hlt := peek_some_lt s hpeek
        rcases ih (advanceBy s 1) s' h with ⟨hi, hle, hb⟩ | ⟨hw, hs⟩
        · refine ⟨by rw [hi]; rfl, ?_, by rwa [input_advanceBy] at hb⟩
          have := position_advanceBy s 1
          omega
        · subst hs
          refine ⟨rfl, by simp [position_advanceBy], ?_⟩
          simp only [input_advanceBy, position_advanceBy]
          omega
      · rw [if_neg hd] at h
        exact Except.noConfusion h

/-! ## String lexer lemmas -/

theorem strLoop_cons (c : Char) (cs : List Char) :
    strLoop (c :: cs) =
      (if c = '"' then .done [] 1
       else if c = '\\' then
         match cs with
         | [] => .escEnd 1
         | e :: cs' =>
           match escMap e with
           | some d =>
             match strLoop cs' with
             | .done content n => .done (d :: content) (n + 2)
             | .badEsc b n => .badEsc b (n + 2)
             | .escEnd n => .escEnd (n + 2)
             | .noEnd n => .noEnd (n + 2)
           | none => .badEsc e 2
       else
         match strLoop cs with
         | .done content n => .done (c :: content) (n + 1)
         | .badEsc b n => .badEsc b (n + 1)
         | .escEnd n => .escEnd (n + 1)
         | .noEnd n => .noEnd (n + 1)) := by
  rw [strLoop.eq_def]

theorem strBodyOk_cons (c : Char) (cs : List Char) :
    strBodyOk (c :: cs) =
      (if c = '"' then false
       else if c = '\\' then
         match cs with
         | [] => false
         | e :: cs' => (escMap e).isSome && strBodyOk cs'
       else strBodyOk cs) := by
  rw [strBodyOk.eq_def]

theorem strDecode_cons (c : Char) (cs : List Char) :
    strDecode (c :: cs) =
      (if c = '"' then []
       else if c = '\\' then
         match cs with
         | [] => []
         | e :: cs' => ((escMap e).getD e) :: strDecode cs'
       else c :: strDecode cs) := by
  rw [strDecode.eq_def]

theorem strLoop_used_le : ∀ cs : List Char, usedOf (strLoop cs) ≤ cs.length
  | [] => by simp [strLoop, usedOf]
  | c :: cs => by
    rw [strLoop_cons]
    by_cases h1 : c = '"'
    · simp [h1, usedOf]
    · by_cases h2 : c = '\\'
      · rw [if_neg h1, if_pos h2]
        cases cs with
        | nil => simp [usedOf]
        | cons e cs' =>
          cases hm : escMap e with
          | none => simp [hm, usedOf]
          | some d =>
            have hrec := strLoop_used_le cs'
            simp only [hm]
            cases hout : strLoop cs' <;>
              (rw [hout] at hrec; simp only [usedOf] at hrec ⊢;
               simp only [List.length_cons]; omega)
      · rw [if_neg h1, if_neg h2]
        have hrec := strLoop_used_le cs
        cases hout : strLoop cs <;>
          (rw [hout] at hrec; simp only [usedOf] at hrec ⊢;
           simp only [List.length_cons]; omega)

theorem strLoop_exact : ∀ b : List Char, strBodyOk b = true →
    ∀ rest : List Char, strLoop (b ++ '"' :: rest) = .done (strDecode b) (b.length + 1)
  | [], _, rest => by
    rw [List.nil_append, strLoop_cons]
    simp [strDecode]
  | c :: b, hb, rest => by
    rw [strBodyOk_cons] at hb
    by_cases h1 : c = '"'
    · rw [if_pos h1] at hb
      exact Bool.noConfusion hb
    · by_cases h2 : c = '\\'
      · rw [if_neg h1, if_pos h2] at hb
        cases b with
        | nil => simp at hb
        | cons e b' =>
          have hesc : (escMap e).isSome = true ∧ strBodyOk b' = true := by
            simpa using hb
          obtain ⟨d, hd⟩ := Option.isSome_iff_exists.1 hesc.1
          have ih := strLoop_exact b' hesc.2 rest
          rw [List.cons_append, strLoop_cons, strDecode_cons]
          simp only [if_neg h1, if_pos h2, List.cons_append, hd, ih,
            Option.getD_some, List.length_cons]
      · rw [if_neg h1, if_neg h2] at hb
        have ih := strLoop_exact b hb rest
        rw [List.cons_append, strLoop_cons, strDecode_cons]
        simp only [if_neg h1, if_neg h2, ih, List.length_cons]

theorem parse_string_exact (s : Parser) (b rest : List Char)
    (hb : strBodyOk b = true) (h : rem s = '"' :: b ++ '"' :: rest) :
    parse_string s = .ok (.string (strDecode b), advanceBy s (b.length + 2)) := by
  have hpeek : peek_char s = some '"' := by rw [peek_eq_head, h]; rfl
  have hrem : rem (advanceBy s 1) = b ++ '"' :: rest := by
    rw [rem_advanceBy, h]; rfl
  simp only [parse_string, next_char, hpeek, hrem, strLoop_exact b hb rest,
    advanceBy_advanceBy]
  refine congrArg _ (congrArg₂ _ rfl (congrArg _ ?_))
  omega

theorem parse_string_ok_state (s s' : Parser) (v : JsonValue)
    (h : parse_string s = .ok (v, s')) :
    s'.input = s.input ∧ s.position < s'.position ∧ s'.position ≤ s.input.length := by
  cases hpeek : peek_char s with
  | none =>
    have h0 : rem s = [] := by
      rw [peek_eq_head] at hpeek
      exact List.head?_eq_none_iff.1 hpeek
    simp only [parse_string, next_char, hpeek, h0, strLoop] at h
    exact Except.noConfusion h
  | some c =>
    have hlt := peek_some_lt s hpeek
    simp only [parse_string, next_char, hpeek] at h
    cases hout : strLoop (rem (advanceBy s 1)) with
    | done content n =>
      rw [hout] at h
      have hn : n ≤ (rem (advanceBy s 1)).length := by
        have := strLoop_used_le (rem (advanceBy s 1))
        rw [hout] at this
        simpa [usedOf] using this
      have hrl : (rem (advanceBy s 1)).length = s.input.length - (s.position + 1) := by
        rw [rem_length, input_advanceBy, position_advanceBy]
      have hs' : advanceBy s (1 + n) = s' := by
        rw [← advanceBy_advanceBy]
        exact (Prod.mk.inj (Except.ok.inj h)).2
      subst hs'
      refine ⟨rfl, ?_, ?_⟩ <;> (simp only [position_advanceBy, input_advanceBy]; omega)
    | badEsc b n => rw [hout] at h; exact Except.noConfusion h
    | escEnd n => rw [hout] at h; exact Except.noConfusion h
    | noEnd n => rw [hout] at h; exact Except.noConfusion h

/-! ## Number lexer lemmas -/

theorem takeWhile_boundary (p : Char → Bool) (ds rest : List Char)
    (hds : ∀ c ∈ ds, p c = true)
    (hrest : ∀ c, rest.head? = some c → p c = false) :
    (ds ++ rest).takeWhile p = ds := by
  induction ds with
  | nil =>
    cases rest with
    | nil => rfl
    | cons c cs => simp [List.takeWhile_cons, hrest c rfl]
  | cons c cs ih =>
    have hc := hds c (by simp)
    simp [List.takeWhile_cons, hc, ih fun x hx => hds x (by simp [hx])]

theorem drop_boundary (p : Char → Bool) (ds rest : List Char)
    (hds : ∀ c ∈ ds, p c = true)
    (hrest : ∀ c, rest.head? = some c → p c = false) :
    (ds ++ rest).drop ((ds ++ rest).takeWhile p).length = rest := by
  rw [takeWhile_boundary p ds rest hds hrest, List.drop_left]

/-- The number lexer's exponent phase consumes exactly a well-formed
exponent clause. -/
theorem parse_number_exp_phase (start : Nat) (acc : List Char) (s4 : Parser)
    (ep rest : List Char) (h : rem s4 = ep ++ rest)
    (hep : ep = [] ∨ ∃ e0 sg eds, ep = e0 :: (sg ++ eds) ∧ (e0 = 'e' ∨ e0 = 'E') ∧
      (sg = [] ∨ sg = ['+'] ∨ sg = ['-']) ∧ eds ≠ [] ∧ ∀ c ∈ eds, isDigit c = true)
    (hrest : ∀ c, rest.head? = some c → numCont c = false) :
    Parser.parse_number.parse_number_exp start acc s4 =
      Parser.parse_number.parse_number_fin start (acc ++ ep) (advanceBy s4 ep.length) := by
  rcases hep with hep | ⟨e0, sg, eds, hepEq, he0, hsg, hne, hdig⟩
  · subst hep
    rw [List.nil_append] at h
    rw [Parser.parse_number.parse_number_exp]
    cases hpeek : peek_char s4 with
    | none => simp [List.append_nil, advanceBy, hpeek]
    | some c =>
      have hc : rest.head? = some c := by rw [peek_eq_head, h] at hpeek; exact hpeek
      have hnc := hrest c hc
      have hne2 : ¬(c = 'e' ∨ c = 'E') := by
        rintro (rfl | rfl) <;> simp [numCont] at hnc
      simp [hpeek, hne2, List.append_nil, advanceBy]
  · subst hepEq
    obtain ⟨d, eds', rfl⟩ : ∃ d eds', eds = d :: eds' := by
      cases eds with
      | nil => exact absurd rfl hne
      | cons d eds' => exact ⟨d, eds', rfl⟩
    have hd : isDigit d = true := hdig d (by simp)
    have hrb : ∀ c, rest.head? = some c → isDigit c = false := by
      intro c hc
      have hx := hrest c hc
      simp only [numCont, Bool.or_eq_false_iff] at hx
      exact hx.1.1.1
    have hpeek : peek_char s4 = some e0 := by rw [peek_eq_head, h]; rfl
    rw [Parser.parse_number.parse_number_exp, hpeek]
    simp only [if_pos he0]
    have hrem5 : rem (advanceBy s4 1) = sg ++ ((d :: eds') ++ rest) := by
      rw [rem_advanceBy, h]; simp
    have htw : ((d :: eds') ++ rest).takeWhile isDigit = d :: eds' :=
      takeWhile_boundary isDigit _ rest hdig hrb
    have hemp : (d :: eds').isEmpty = false := rfl
    rcases hsg with rfl | rfl | rfl
    · rw [List.nil_append] at hrem5
      have hpeek5 : peek_char (advanceBy s4 1) = some d := by
        rw [peek_eq_head, hrem5]; rfl
      have hdsign : ¬(d = '+' ∨ d = '-') := by
        rintro (rfl | rfl) <;> simp [isDigit] at hd
      simp only [hpeek5]
      rw [if_neg hdsign]
      simp only [hrem5, htw, List.isEmpty_cons]
      rw [if_neg Bool.false_ne_true, advanceBy_advanceBy]
      simp [advanceBy, Nat.add_assoc, Nat.add_comm, Nat.add_left_comm]
    · have hpeek5 : peek_char (advanceBy s4 1) = some '+' := by
        rw [peek_eq_head, hrem5]; rfl
      simp only [hpeek5, true_or, if_true]
      have hrem6 : rem (advanceBy (advanceBy s4 1) 1) = (d :: eds') ++ rest := by
        rw [rem_advanceBy, hrem5]; simp
      simp only [hrem6, htw, List.isEmpty_cons]
      rw [if_neg Bool.false_ne_true, advanceBy_advanceBy, advanceBy_advanceBy]
      simp [advanceBy, Nat.add_assoc, Nat.add_comm, Nat.add_left_comm]
    · have hpeek5 : peek_char (advanceBy s4 1) = some '-' := by
        rw [peek_eq_head, hrem5]; rfl
      simp only [hpeek5, or_true, if_true]
      have hrem6 : rem (advanceBy (advanceBy s4 1) 1) = (d :: eds') ++ rest := by
        rw [rem_advanceBy, hrem5]; simp
      simp only [hrem6, htw, List.isEmpty_cons]
      rw [if_neg Bool.false_ne_true, advanceBy_advanceBy, advanceBy_advanceBy]
      simp [advanceBy, Nat.add_assoc, Nat.add_comm, Nat.add_left_comm]

theorem numCont_false_elim (c : Char) (h : numCont c = false) :
    isDigit c = false ∧ ¬c = '.' ∧ ¬c = 'e' ∧ ¬c = 'E' := by
  simp only [numCont, Bool.or_eq_false_iff] at h
  refine ⟨h.1.1.1, ?_, ?_, ?_⟩ <;>
    (intro hc; subst hc; simp_all)

/-- The number lexer's fraction-and-onwards phase consumes exactly a
well-formed fraction clause followed by a well-formed exponent clause. -/
theorem parse_number_rest_phase (start : Nat) (acc : List Char) (s2 : Parser)
    (fp ep rest : List Char) (h : rem s2 = fp ++ ep ++ rest)
    (hfp : fp = [] ∨ ∃ ds, fp = '.' :: ds ∧ ds ≠ [] ∧ ∀ c ∈ ds, isDigit c = true)
    (hep : ep = [] ∨ ∃ e0 sg eds, ep = e0 :: (sg ++ eds) ∧ (e0 = 'e' ∨ e0 = 'E') ∧
      (sg = [] ∨ sg = ['+'] ∨ sg = ['-']) ∧ eds ≠ [] ∧ ∀ c ∈ eds, isDigit c = true)
    (hrest : ∀ c, rest.head? = some c → numCont c = false) :
    Parser.parse_number.parse_number_rest start acc s2 =
      Parser.parse_number.parse_number_fin start (acc ++ fp ++ ep)
        (advanceBy s2 (fp.length + ep.length)) := by
  rcases hfp with rfl | ⟨ds, rfl, hne, hdig⟩
  · rw [List.nil_append] at h
    rw [Parser.parse_number.parse_number_rest]
    have hexp := parse_number_exp_phase start acc s2 ep rest h hep hrest
    cases hpeek : peek_char s2 with
    | none =>
      simp only [hpeek]
      rw [hexp]
      simp [List.append_nil]
    | some c =>
      have hcdot : ¬c = '.' := by
        rcases hep with rfl | ⟨e0, sg, eds, rfl, he0, _, _, _⟩
        · rw [List.nil_append] at h
          have hc : rest.head? = some c := by rw [peek_eq_head, h] at hpeek; exact hpeek
          exact (numCont_false_elim c (hrest c hc)).2.1
        · have hc : c = e0 := by
            rw [peek_eq_head, h] at hpeek
            exact (Option.some.inj hpeek).symm
          subst hc
          rcases he0 with rfl | rfl <;> simp
      simp only [hpeek]
      rw [if_neg hcdot, hexp]
      simp [List.append_nil]
  · have hpeek : peek_char s2 = some '.' := by rw [peek_eq_head, h]; rfl
    rw [Parser.parse_number.parse_number_rest]
    simp only [hpeek, if_true]
    have hrem3 : rem (advanceBy s2 1) = ds ++ (ep ++ rest) := by
      rw [rem_advanceBy, h]; simp
    have hdb : ∀ c, (ep ++ rest).head? = some c → isDigit c = false := by
      intro c hc
      rcases hep with rfl | ⟨e0, sg, eds, rfl, he0, _, _, _⟩
      · rw [List.nil_append] at hc
        exact (numCont_false_elim c (hrest c hc)).1
      · have : c = e0 := (Option.some.inj hc).symm
        subst this
        rcases he0 with rfl | rfl <;> rfl
    have htw : (ds ++ (ep ++ rest)).takeWhile isDigit = ds :=
      takeWhile_boundary isDigit ds (ep ++ rest) hdig hdb
    obtain ⟨d0, ds', rfl⟩ : ∃ d0 ds', ds = d0 :: ds' := by
      cases ds with
      | nil => exact absurd rfl hne
      | cons d0 ds' => exact ⟨d0, ds', rfl⟩
    simp only [hrem3, htw, List.isEmpty_cons]
    rw [if_neg Bool.false_ne_true]
    have hrem4 : rem (advanceBy (advanceBy s2 1) (d0 :: ds').length) = ep ++ rest := by
      rw [rem_advanceBy, hrem3, List.drop_left]
    have hexp := parse_number_exp_phase start (acc ++ ['.'] ++ (d0 :: ds'))
      (advanceBy (advanceBy s2 1) (d0 :: ds').length) ep rest hrem4 hep hrest
    rw [hexp, advanceBy_advanceBy, advanceBy_advanceBy]
    congr 1
    · simp
    · congr 1
      simp only [List.length_cons, List.length_append]
      omega

theorem lexNumExp_decomp (r : List Char) (h : lexNumExp r = true) :
    r = [] ∨ ∃ e0 sg eds, r = e0 :: (sg ++ eds) ∧ (e0 = 'e' ∨ e0 = 'E') ∧
      (sg = [] ∨ sg = ['+'] ∨ sg = ['-']) ∧ eds ≠ [] ∧ ∀ c ∈ eds, isDigit c = true := by
  cases r with
  | nil => exact Or.inl rfl
  | cons c r' =>
    right
    rw [lexNumExp.eq_def] at h
    simp only [] at h
    by_cases he : c = 'e' ∨ c = 'E'
    · rw [if_pos he] at h
      cases r' with
      | nil =>
        simp at h
      | cons c2 r2 =>
        by_cases hsgn : c2 = '+' ∨ c2 = '-'
        · simp only [if_pos hsgn, Bool.and_eq_true, Bool.not_eq_true',
            decide_eq_true_eq] at h
          have hr2 : r2 = r2.takeWhile isDigit := by
            have := List.takeWhile_append_dropWhile (p := isDigit) (l := r2)
            rw [drop_length_takeWhile] at h
            rw [h.2, List.append_nil] at this
            exact this.symm
          refine ⟨c, [c2], r2.takeWhile isDigit, ?_, he, ?_, ?_, ?_⟩
          · rw [← hr2]; rfl
          · rcases hsgn with rfl | rfl
            · exact Or.inr (Or.inl rfl)
            · exact Or.inr (Or.inr rfl)
          · intro hemp
            rw [hemp] at h
            simp at h
          · intro x hx
            exact List.mem_takeWhile_imp hx
        · simp only [if_neg hsgn, Bool.and_eq_true, Bool.not_eq_true',
            decide_eq_true_eq] at h
          have hr1 : c2 :: r2 = (c2 :: r2).takeWhile isDigit := by
            have := List.takeWhile_append_dropWhile (p := isDigit) (l := c2 :: r2)
            rw [drop_length_takeWhile] at h
            rw [h.2, List.append_nil] at this
            exact this.symm
          refine ⟨c, [], (c2 :: r2).takeWhile isDigit, ?_, he, Or.inl rfl, ?_, ?_⟩
          · rw [List.nil_append, ← hr1]
          · intro hemp
            rw [hemp] at h
            simp at h
          · intro x hx
            exact List.mem_takeWhile_imp hx
    · rw [if_neg he] at h
      exact Bool.noConfusion h

theorem lexNumFrac_decomp (r : List Char) (h : lexNumFrac r = true) :
    (∃ ds rest2, r = '.' :: (ds ++ rest2) ∧ ds ≠ [] ∧ (∀ c ∈ ds, isDigit c = true) ∧
      lexNumExp rest2 = true) ∨
    (lexNumExp r = true ∧ ∀ c, r.head? = some c → ¬c = '.') := by
  cases r with
  | nil => exact Or.inr ⟨h, by intro c hc; exact Option.noConfusion hc⟩
  | cons c r' =>
    rw [lexNumFrac] at h
    by_cases hc : c = '.'
    · subst hc
      rw [if_pos rfl] at h
      simp only [Bool.and_eq_true, Bool.not_eq_true'] at h
      left
      refine ⟨r'.takeWhile isDigit, r'.dropWhile isDigit, ?_, ?_, ?_, ?_⟩
      · rw [List.takeWhile_append_dropWhile]
      · intro hemp
        rw [hemp] at h
        simp at h
      · intro x hx
        exact List.mem_takeWhile_imp hx
      · rw [drop_length_takeWhile] at h
        exact h.2
    · rw [if_neg hc] at h
      exact Or.inr ⟨h, by
        intro x hx
        rw [List.head?_cons] at hx
        rw [Option.some.inj hx] at hc
        exact hc⟩

theorem lexNumOk_decomp (cs : List Char) (h : lexNumOk cs = true) :
    ∃ sgn ip fp ep, cs = sgn ++ ip ++ fp ++ ep ∧
      (sgn = [] ∨ sgn = ['-']) ∧
      (ip = ['0'] ∨ ∃ d ds, ip = d :: ds ∧ ¬d = '0' ∧ ∀ c ∈ ip, isDigit c = true) ∧
      (fp = [] ∨ ∃ ds, fp = '.' :: ds ∧ ds ≠ [] ∧ ∀ c ∈ ds, isDigit c = true) ∧
      (ep = [] ∨ ∃ e0 sg eds, ep = e0 :: (sg ++ eds) ∧ (e0 = 'e' ∨ e0 = 'E') ∧
        (sg = [] ∨ sg = ['+'] ∨ sg = ['-']) ∧ eds ≠ [] ∧ ∀ c ∈ eds, isDigit c = true) := by
  rw [lexNumOk.eq_def] at h
  have main : ∀ cs1 : List Char,
      (match cs1 with
        | c :: _ =>
          if c = '0' then lexNumFrac cs1.tail
          else isDigit c && lexNumFrac (cs1.drop (cs1.takeWhile isDigit).length)
        | [] => false) = true →
      ∃ ip fp ep, cs1 = ip ++ fp ++ ep ∧
        (ip = ['0'] ∨ ∃ d ds, ip = d :: ds ∧ ¬d = '0' ∧ ∀ c ∈ ip, isDigit c = true) ∧
        (fp = [] ∨ ∃ ds, fp = '.' :: ds ∧ ds ≠ [] ∧ ∀ c ∈ ds, isDigit c = true) ∧
        (ep = [] ∨ ∃ e0 sg eds, ep = e0 :: (sg ++ eds) ∧ (e0 = 'e' ∨ e0 = 'E') ∧
          (sg = [] ∨ sg = ['+'] ∨ sg = ['-']) ∧ eds ≠ [] ∧
          ∀ c ∈ eds, isDigit c = true) := by
    intro cs1 h1
    cases cs1 with
    | nil => exact Bool.noConfusion h1
    | cons c1 r1 =>
      simp only [] at h1
      by_cases hc1 : c1 = '0'
      · rw [if_pos hc1] at h1
        simp only [List.tail_cons] at h1
        rcases lexNumFrac_decomp r1 h1 with
          ⟨ds, rest2, hr1, hne, hdig, hexp⟩ | ⟨hexp, _⟩
        · rcases lexNumExp_decomp rest2 hexp with rfl | hep
          · exact ⟨['0'], '.' :: ds, [], by simp [hc1, hr1], Or.inl rfl,
              Or.inr ⟨ds, rfl, hne, hdig⟩, Or.inl rfl⟩
          · exact ⟨['0'], '.' :: ds, rest2, by simp [hc1, hr1], Or.inl rfl,
              Or.inr ⟨ds, rfl, hne, hdig⟩, Or.inr hep⟩
        · rcases lexNumExp_decomp r1 hexp with rfl | hep
          · exact ⟨['0'], [], [], by simp [hc1], Or.inl rfl, Or.inl rfl, Or.inl rfl⟩
          · exact ⟨['0'], [], r1, by simp [hc1], Or.inl rfl, Or.inl rfl, Or.inr hep⟩
      · rw [if_neg hc1] at h1
        simp only [Bool.and_eq_true] at h1
        obtain ⟨hdig1, hfrac⟩ := h1
        rw [drop_length_takeWhile] at hfrac
        have hsplit := List.takeWhile_append_dropWhile (p := isDigit) (l := c1 :: r1)
        have hipne : (c1 :: r1).takeWhile isDigit = c1 :: r1.takeWhile isDigit := by
          rw [List.takeWhile_cons, if_pos hdig1]
        rcases lexNumFrac_decomp _ hfrac with
          ⟨ds, rest2, hr1, hne, hdig, hexp⟩ | ⟨hexp, _⟩
        · rcases lexNumExp_decomp rest2 hexp with rfl | hep
          · refine ⟨(c1 :: r1).takeWhile isDigit, '.' :: ds, [],
              ?_, ?_, Or.inr ⟨ds, rfl, hne, hdig⟩, Or.inl rfl⟩
            · conv_lhs => rw [← hsplit, hr1]
              simp
            · exact Or.inr ⟨c1, r1.takeWhile isDigit, hipne, hc1,
                fun x hx => List.mem_takeWhile_imp hx⟩
          · refine ⟨(c1 :: r1).takeWhile isDigit, '.' :: ds, rest2,
              ?_, ?_, Or.inr ⟨ds, rfl, hne, hdig⟩, Or.inr hep⟩
            · conv_lhs => rw [← hsplit, hr1]
              simp
            · exact Or.inr ⟨c1, r1.takeWhile isDigit, hipne, hc1,
                fun x hx => List.mem_takeWhile_imp hx⟩
        · rcases lexNumExp_decomp _ hexp with hnil | hep
          · refine ⟨(c1 :: r1).takeWhile isDigit, [], [],
              ?_, ?_, Or.inl rfl, Or.inl rfl⟩
            · conv_lhs => rw [← hsplit, hnil]
              simp
            · exact Or.inr ⟨c1, r1.takeWhile isDigit, hipne, hc1,
                fun x hx => List.mem_takeWhile_imp hx⟩
          · refine ⟨(c1 :: r1).takeWhile isDigit, [], (c1 :: r1).dropWhile isDigit,
              ?_, ?_, Or.inl rfl, Or.inr hep⟩
            · conv_lhs => rw [← hsplit]
              simp
            · exact Or.inr ⟨c1, r1.takeWhile isDigit, hipne, hc1,
                fun x hx => List.mem_takeWhile_imp hx⟩
  cases cs with
  | nil => exact Bool.noConfusion h
  | cons c0 cs' =>
    simp only [] at h
    by_cases hm : c0 = '-'
    · rw [if_pos hm] at h
      obtain ⟨ip, fp, ep, heq, hip, hfp, hep⟩ := main cs' h
      exact ⟨['-'], ip, fp, ep, by simp [hm, heq], Or.inr rfl, hip, hfp, hep⟩
    · rw [if_neg hm] at h
      obtain ⟨ip, fp, ep, heq, hip, hfp, hep⟩ := main (c0 :: cs') h
      exact ⟨[], ip, fp, ep, by simpa using heq, Or.inl rfl, hip, hfp, hep⟩

theorem dot_not_digit : isDigit '.' = false := rfl

theorem expHead_not_digit (e0 : Char) (he0 : e0 = 'e' ∨ e0 = 'E') :
    isDigit e0 = false := by
  rcases he0 with rfl | rfl <;> rfl

theorem takeWhile_all (p : Char → Bool) (l : List Char)
    (hl : ∀ c ∈ l, p c = true) : l.takeWhile p = l := by
  have := takeWhile_boundary p l [] hl (by intro c hc; exact Option.noConfusion hc)
  simpa using this

theorem ratNumExpPhase_isSome (neg : Bool) (iD fD ep : List Char)
    (hep : ep = [] ∨ ∃ e0 sg eds, ep = e0 :: (sg ++ eds) ∧ (e0 = 'e' ∨ e0 = 'E') ∧
      (sg = [] ∨ sg = ['+'] ∨ sg = ['-']) ∧ eds ≠ [] ∧ ∀ c ∈ eds, isDigit c = true) :
    (ratNumExpPhase neg iD fD ep).isSome = true := by
  rcases hep with rfl | ⟨e0, sg, eds, rfl, he0, hsg, hne, hdig⟩
  · rfl
  · obtain ⟨d, eds', rfl⟩ : ∃ d eds', eds = d :: eds' := by
      cases eds with
      | nil => exact absurd rfl hne
      | cons d eds' => exact ⟨d, eds', rfl⟩
    have hd : isDigit d = true := hdig d (by simp)
    have htw : (d :: eds').takeWhile isDigit = d :: eds' := takeWhile_all _ _ hdig
    have hdp : ¬d = '+' := by rintro rfl; simp [isDigit] at hd
    have hdm : ¬d = '-' := by rintro rfl; simp [isDigit] at hd
    rcases he0 with rfl | rfl <;> rcases hsg with rfl | rfl | rfl <;>
      simp [ratNumExpPhase, htw, hdp, hdm, List.drop_length]

theorem ratNumFracPhase_isSome (neg : Bool) (iD fp ep : List Char)
    (hfp : fp = [] ∨ ∃ ds, fp = '.' :: ds ∧ ds ≠ [] ∧ ∀ c ∈ ds, isDigit c = true)
    (hep : ep = [] ∨ ∃ e0 sg eds, ep = e0 :: (sg ++ eds) ∧ (e0 = 'e' ∨ e0 = 'E') ∧
      (sg = [] ∨ sg = ['+'] ∨ sg = ['-']) ∧ eds ≠ [] ∧ ∀ c ∈ eds, isDigit c = true) :
    (ratNumFracPhase neg iD (fp ++ ep)).isSome = true := by
  have hepb : ∀ c, ep.head? = some c → isDigit c = false := by
    intro c hc
    rcases hep with rfl | ⟨e0, sg, eds, rfl, he0, _, _, _⟩
    · exact Option.noConfusion hc
    · rw [List.head?_cons] at hc
      rw [← Option.some.inj hc]
      exact expHead_not_digit e0 he0
  rcases hfp with rfl | ⟨ds, rfl, hne, hdig⟩
  · rw [List.nil_append]
    rcases hep with rfl | ⟨e0, sg, eds, rfl, he0, hsg, hne, hdig⟩
    · rfl
    · rw [ratNumFracPhase]
      have he0dot : ¬e0 = '.' := by
        rcases he0 with rfl | rfl <;> simp
      rw [if_neg he0dot]
      exact ratNumExpPhase_isSome neg iD [] _
        (Or.inr ⟨e0, sg, eds, rfl, he0, hsg, hne, hdig⟩)
  · obtain ⟨d, ds', rfl⟩ : ∃ d ds', ds = d :: ds' := by
      cases ds with
      | nil => exact absurd rfl hne
      | cons d ds' => exact ⟨d, ds', rfl⟩
    rw [List.cons_append, ratNumFracPhase, if_pos rfl]
    have htw : ((d :: ds') ++ ep).takeWhile isDigit = d :: ds' :=
      takeWhile_boundary isDigit _ ep hdig hepb
    simp only [htw, List.isEmpty_cons, Bool.false_eq_true, if_false,
      List.drop_left]
    exact ratNumExpPhase_isSome neg iD (d :: ds') ep hep

theorem ratOfNumStr_isSome (cs : List Char) (hok : lexNumOk cs = true) :
    (ratOfNumStr cs).isSome = true := by
  obtain ⟨sgn, ip, fp, ep, rfl, hsgn, hip, hfp, hep⟩ := lexNumOk_decomp cs hok
  have hipdig : ∀ c ∈ ip, isDigit c = true := by
    rcases hip with rfl | ⟨d, ds, rfl, _, hdig⟩
    · intro c hc
      simp at hc
      subst hc
      rfl
    · exact hdig
  have hipne : ip ≠ [] := by
    rcases hip with rfl | ⟨d, ds, rfl, _, _⟩ <;> simp
  have hfpepb : ∀ c, (fp ++ ep).head? = some c → isDigit c = false := by
    intro c hc
    rcases hfp with rfl | ⟨ds, rfl, _, _⟩
    · rw [List.nil_append] at hc
      rcases hep with rfl | ⟨e0, sg, eds, rfl, he0, _, _, _⟩
      · exact Option.noConfusion hc
      · rw [List.head?_cons] at hc
        rw [← Option.some.inj hc]
        exact expHead_not_digit e0 he0
    · rw [List.cons_append, List.head?_cons] at hc
      rw [← Option.some.inj hc]
      rfl
  have htw : (ip ++ (fp ++ ep)).takeWhile isDigit = ip :=
    takeWhile_boundary isDigit ip (fp ++ ep) hipdig hfpepb
  have hdrop : (ip ++ (fp ++ ep)).drop ip.length = fp ++ ep := List.drop_left ip _
  obtain ⟨i0, ip', rfl⟩ : ∃ i0 ip', ip = i0 :: ip' := by
    cases ip with
    | nil => exact absurd rfl hipne
    | cons i0 ip' => exact ⟨i0, ip', rfl⟩
  have hi0 : isDigit i0 = true := hipdig i0 (by simp)
  have hi0m : ¬i0 = '-' := by rintro rfl; simp [isDigit] at hi0
  rcases hsgn with rfl | rfl
  · rw [ratOfNumStr.eq_def]
    simp only [List.nil_append, List.cons_append, List.append_assoc] at htw hdrop ⊢
    rw [if_neg hi0m]
    simp only [htw, hdrop, List.isEmpty_cons, Bool.false_eq_true, if_false]
    exact ratNumFracPhase_isSome false (i0 :: ip') fp ep hfp hep
  · rw [ratOfNumStr.eq_def]
    simp only [List.nil_append, List.cons_append, List.append_assoc] at htw hdrop ⊢
    simp only [if_true, htw, hdrop, List.isEmpty_cons, Bool.false_eq_true, if_false]
    exact ratNumFracPhase_isSome true (i0 :: ip') fp ep hfp hep

/-- `Parser::parse_number` consumes exactly a maximal well-formed number
token and produces its exact value. -/
theorem parse_number_exact (s : Parser) (cs rest : List Char)
    (hok : lexNumOk cs = true) (h : rem s = cs ++ rest)
    (hrest : ∀ c, rest.head? = some c → numCont c = false) :
    parse_number s = .ok (.number (tokNumVal cs), advanceBy s cs.length) := by
  have hfin : ∀ s7 : Parser,
      Parser.parse_number.parse_number_fin s.position cs s7 =
        .ok (.number (tokNumVal cs), s7) := by
    intro s7
    obtain ⟨q, hq⟩ := Option.isSome_iff_exists.1 (ratOfNumStr_isSome cs hok)
    rw [Parser.parse_number.parse_number_fin]
    simp only [hq, tokNumVal]
    rfl
  obtain ⟨sgn, ip, fp, ep, hcs, hsgn, hip, hfp, hep⟩ := lexNumOk_decomp cs hok
  have hipdig : ∀ c ∈ ip, isDigit c = true := by
    rcases hip with rfl | ⟨d, ds, rfl, _, hdig⟩
    · intro c hc; simp at hc; subst hc; rfl
    · exact hdig
  have hfpepb : ∀ c, (fp ++ (ep ++ rest)).head? = some c → isDigit c = false := by
    intro c hc
    rcases hfp with rfl | ⟨ds, rfl, _, _⟩
    · rw [List.nil_append] at hc
      rcases hep with rfl | ⟨e0, sg, eds, rfl, he0, _, _, _⟩
      · rw [List.nil_append] at hc
        exact (numCont_false_elim c (hrest c hc)).1
      · rw [List.cons_append, List.head?_cons] at hc
        rw [← Option.some.inj hc]
        exact expHead_not_digit e0 he0
    · rw [List.cons_append, List.head?_cons] at hc
      rw [← Option.some.inj hc]
      rfl
  have intStep : ∀ (s1 : Parser) (sgnChars : List Char),
      rem s1 = ip ++ (fp ++ (ep ++ rest)) →
      Parser.parse_number.parse_number_int s.position sgnChars s1 =
        Parser.parse_number.parse_number_fin s.position
          (sgnChars ++ ip ++ fp ++ ep)
          (advanceBy s1 (ip.length + (fp.length + ep.length))) := by
    intro s1 sgnChars h1
    have hrem2 : rem (advanceBy s1 ip.length) = fp ++ ep ++ rest := by
      rw [rem_advanceBy, h1, List.drop_left, List.append_assoc]
    have hphase := parse_number_rest_phase s.position (sgnChars ++ ip)
      (advanceBy s1 ip.length) fp ep rest hrem2 hfp hep hrest
    rcases hip with rfl | ⟨i0, ip', hipEq, hi0z, _⟩
    · have h1' : rem s1 = '0' :: (fp ++ (ep ++ rest)) := by simpa using h1
      have hpeek1 : peek_char s1 = some '0' := by rw [peek_eq_head, h1']; rfl
      simp only [List.length_singleton] at hphase
      rw [Parser.parse_number.parse_number_int]
      simp only [hpeek1, if_true]
      rw [hphase, advanceBy_advanceBy]
      simp
    · subst hipEq
      have h1' : rem s1 = i0 :: (ip' ++ (fp ++ (ep ++ rest))) := by simpa using h1
      have hpeek1 : peek_char s1 = some i0 := by rw [peek_eq_head, h1']; rfl
      have hi0 : isDigit i0 = true := hipdig i0 (by simp)
      have htw : (rem s1).takeWhile isDigit = i0 :: ip' := by
        rw [h1, takeWhile_boundary isDigit _ _ hipdig hfpepb]
      rw [Parser.parse_number.parse_number_int]
      simp only [hpeek1, if_neg hi0z, hi0, if_true, htw]
      rw [hphase, advanceBy_advanceBy]
  rcases hsgn with rfl | rfl
  · rw [List.nil_append] at hcs
    have h1 : rem s = ip ++ (fp ++ (ep ++ rest)) := by
      rw [h, hcs]
      simp [List.append_assoc]
    obtain ⟨i0, ip', hipEq⟩ : ∃ i0 ip', ip = i0 :: ip' := by
      rcases hip with rfl | ⟨d, ds, rfl, _, _⟩
      · exact ⟨'0', [], rfl⟩
      · exact ⟨d, ds, rfl⟩
    have hi0 : isDigit i0 = true := hipdig i0 (by simp [hipEq])
    have hi0m : ¬i0 = '-' := by rintro rfl; simp [isDigit] at hi0
    have hpeek0 : peek_char s = some i0 := by
      rw [peek_eq_head, h1, hipEq]; rfl
    have hacc : ([] : List Char) ++ ip ++ fp ++ ep = cs := by
      rw [hcs]; simp
    have hlen : ip.length + (fp.length + ep.length) = cs.length := by
      rw [hcs]; simp only [List.length_append]; omega
    rw [parse_number.eq_def]
    simp only [hpeek0]
    rw [if_neg hi0m]
    simp only []
    rw [intStep s [] h1, hacc, hlen]
    exact hfin _
  · have h1 : rem (advanceBy s 1) = ip ++ (fp ++ (ep ++ rest)) := by
      rw [rem_advanceBy, h, hcs]
      simp [List.append_assoc]
    have hpeek0 : peek_char s = some '-' := by
      rw [peek_eq_head, h, hcs]; rfl
    have hacc : ['-'] ++ ip ++ fp ++ ep = cs := by
      rw [hcs]
    have hlen : 1 + (ip.length + (fp.length + ep.length)) = cs.length := by
      rw [hcs]; simp only [List.length_append, List.length_singleton]; omega
    rw [parse_number.eq_def]
    simp only [hpeek0, if_true]
    rw [intStep (advanceBy s 1) ['-'] h1, advanceBy_advanceBy, hlen]
    have hacc2 : ['-'] ++ ip ++ fp ++ ep = cs := hacc
    rw [hacc2]
    exact hfin _

/-! ## Cursor-advance lemmas (the spec's cursor invariant) -/

theorem advances_refl (s : Parser) : Advances s s :=
  ⟨rfl, 0, Nat.zero_le _, rfl⟩

theorem advances_trans {s s' s'' : Parser} (h1 : Advances s s')
    (h2 : Advances s' s'') : Advances s s'' := by
  obtain ⟨hi1, n1, hn1, hp1⟩ := h1
  obtain ⟨hi2, n2, hn2, hp2⟩ := h2
  refine ⟨hi2.trans hi1, n1 + n2, ?_, by omega⟩
  rw [rem_length] at hn1 hn2 ⊢
  rw [hi1, hp1] at hn2
  omega

theorem advances_mono {s s' : Parser} (h : Advances s s') :
    s.position ≤ s'.position := by
  obtain ⟨_, n, _, hp⟩ := h
  omega

theorem advances_input {s s' : Parser} (h : Advances s s') :
    s'.input = s.input := h.1

theorem advances_bound {s s' : Parser} (h : Advances s s')
    (hb : s.position ≤ s.input.length) : s'.position ≤ s.input.length := by
  obtain ⟨_, n, hn, hp⟩ := h
  rw [rem_length] at hn
  omega

theorem advanceBy_advances (s : Parser) (n : Nat) (h : n ≤ (rem s).length) :
    Advances s (advanceBy s n) := ⟨rfl, n, h, rfl⟩

theorem skip_advances (s : Parser) : Advances s (skip_whitespace s) :=
  ⟨rfl, ((rem s).takeWhile rustIsWhitespace).length,
    (List.takeWhile_sublist _).length_le, rfl⟩

theorem advances_of_facts {s s' : Parser} (hi : s'.input = s.input)
    (hm : s.position ≤ s'.position) (hb : s'.position ≤ s.input.length) :
    Advances s s' := by
  refine ⟨hi, s'.position - s.position, ?_, by omega⟩
  rw [rem_length]
  omega

theorem consume_str_advances (w : List Char) :
    ∀ s s' : Parser, consume_str s w = .ok s' → Advances s s' := by
  induction w with
  | nil =>
    intro s s' h
    simp only [consume_str] at h
    rw [← Except.ok.inj h]
    exact advances_refl s
  | cons c cs ih =>
    intro s s' h
    cases hpeek : peek_char s with
    | none =>
      simp only [consume_str, next_char, hpeek] at h
      exact Except.noConfusion h
    | some d =>
      simp only [consume_str, next_char, hpeek] at h
      by_cases hd : d = c
      · rw [if_pos hd] at h
        have hlt := peek_some_lt s hpeek
        refine advances_trans (advanceBy_advances s 1 ?_) (ih _ _ h)
        rw [rem_length]
        omega
      · rw [if_neg hd] at h
        exact Except.noConfusion h

theorem parse_string_advances (s s' : Parser) (v : JsonValue)
    (h : parse_string s = .ok (v, s')) :
    Advances s s' ∧ s.position < s'.position := by
  obtain ⟨hi, hlt, hb⟩ := parse_string_ok_state s s' v h
  have hble : s.position ≤ s.input.length := by omega
  exact ⟨advances_of_facts hi (by omega) hb, hlt⟩

theorem parse_number_fin_state (start : Nat) (acc : List Char) (s7 : Parser)
    (v : JsonValue) (s' : Parser)
    (h : Parser.parse_number.parse_number_fin start acc s7 = .ok (v, s')) :
    s' = s7 := by
  cases hout : ratOfNumStr acc with
  | none =>
    rw [Parser.parse_number.parse_number_fin, hout] at h
    exact Except.noConfusion h
  | some q =>
    rw [Parser.parse_number.parse_number_fin, hout] at h
    exact ((Prod.mk.inj (Except.ok.inj h)).2).symm

theorem parse_number_exp_advances (start : Nat) (acc : List Char) (s4 : Parser)
    (v : JsonValue) (s' : Parser)
    (h : Parser.parse_number.parse_number_exp start acc s4 = .ok (v, s')) :
    Advances s4 s' := by
  have tail : ∀ (s6 : Parser) (accq : List Char) (e : ParseError),
      Advances s4 s6 →
      (if ((rem s6).takeWhile isDigit).isEmpty = true then Except.error e
       else Parser.parse_number.parse_number_fin start accq
         (advanceBy s6 ((rem s6).takeWhile isDigit).length)) = .ok (v, s') →
      Advances s4 s' := by
    intro s6 accq e ha h6
    by_cases hemp : ((rem s6).takeWhile isDigit).isEmpty = true
    · rw [if_pos hemp] at h6
      exact Except.noConfusion h6
    · rw [if_neg hemp] at h6
      rw [parse_number_fin_state _ _ _ _ _ h6]
      exact advances_trans ha
        (advanceBy_advances s6 _ (List.takeWhile_sublist _).length_le)
  cases hpeek : peek_char s4 with
  | none =>
    rw [Parser.parse_number.parse_number_exp, hpeek] at h
    rw [parse_number_fin_state _ _ _ _ _ h]
    exact advances_refl s4
  | some c =>
    rw [Parser.parse_number.parse_number_exp] at h
    simp only [hpeek] at h
    by_cases he : c = 'e' ∨ c = 'E'
    · rw [if_pos he] at h
      have hlt := peek_some_lt s4 hpeek
      have hadv1 : Advances s4 (advanceBy s4 1) := by
        refine advanceBy_advances s4 1 ?_
        rw [rem_length]
        omega
      cases hpeek5 : peek_char (advanceBy s4 1) with
      | none =>
        simp only [hpeek5] at h
        exact tail _ _ _ hadv1 h
      | some c2 =>
        simp only [hpeek5] at h
        by_cases hsgn : c2 = '+' ∨ c2 = '-'
        · rw [if_pos hsgn] at h
          have hlt5 := peek_some_lt _ hpeek5
          refine tail _ _ _ (advances_trans hadv1 (advanceBy_advances _ 1 ?_)) h
          rw [rem_length]
          simp only [input_advanceBy, position_advanceBy] at hlt5 ⊢
          omega
        · rw [if_neg hsgn] at h
          exact tail _ _ _ hadv1 h
    · rw [if_neg he] at h
      rw [parse_number_fin_state _ _ _ _ _ h]
      exact advances_refl s4

theorem parse_number_rest_advances (start : Nat) (acc : List Char) (s2 : Parser)
    (v : JsonValue) (s' : Parser)
    (h : Parser.parse_number.parse_number_rest start acc s2 = .ok (v, s')) :
    Advances s2 s' := by
  cases hpeek : peek_char s2 with
  | none =>
    rw [Parser.parse_number.parse_number_rest, hpeek] at h
    exact parse_number_exp_advances _ _ _ _ _ h
  | some c =>
    rw [Parser.parse_number.parse_number_rest] at h
    simp only [hpeek] at h
    by_cases hdot : c = '.'
    · rw [if_pos hdot] at h
      have hlt := peek_some_lt s2 hpeek
      have hadv1 : Advances s2 (advanceBy s2 1) := by
        refine advanceBy_advances s2 1 ?_
        rw [rem_length]
        omega
      by_cases hemp : ((rem (advanceBy s2 1)).takeWhile isDigit).isEmpty = true
      · rw [if_pos hemp] at h
        exact Except.noConfusion h
      · rw [if_neg hemp] at h
        refine advances_trans (advances_trans hadv1
          (advanceBy_advances _ _ (List.takeWhile_sublist _).length_le))
          (parse_number_exp_advances _ _ _ _ _ h)
    · rw [if_neg hdot] at h
      exact parse_number_exp_advances _ _ _ _ _ h

theorem parse_number_int_advances (start : Nat) (sgnChars : List Char)
    (s1 : Parser) (v : JsonValue) (s' : Parser)
    (h : Parser.parse_number.parse_number_int start sgnChars s1 = .ok (v, s')) :
    Advances s1 s' ∧ s1.position < s'.position := by
  cases hpeek : peek_char s1 with
  | none =>
    rw [Parser.parse_number.parse_number_int, hpeek] at h
    exact Except.noConfusion h
  | some c =>
    rw [Parser.parse_number.parse_number_int] at h
    simp only [hpeek] at h
    have hlt := peek_some_lt s1 hpeek
    have hadv1 : Advances s1 (advanceBy s1 1) := by
      refine advanceBy_advances s1 1 ?_
      rw [rem_length]
      omega
    by_cases h0 : c = '0'
    · rw [if_pos h0] at h
      have := parse_number_rest_advances _ _ _ _ _ h
      refine ⟨advances_trans hadv1 this, ?_⟩
      have := advances_mono this
      simp only [position_advanceBy] at this
      omega
    · rw [if_neg h0] at h
      by_cases hd : isDigit c = true
      · rw [if_pos hd] at h
        have hrest := parse_number_rest_advances _ _ _ _ _ h
        have hne : ((rem s1).takeWhile isDigit).length ≥ 1 := by
          have hhead : (rem s1).head? = some c := by
            rw [← peek_eq_head]; exact hpeek
          cases hr : rem s1 with
          | nil => rw [hr] at hhead; exact Option.noConfusion hhead
          | cons x xs =>
            rw [hr] at hhead
            rw [List.head?_cons] at hhead
            have hx : x = c := Option.some.inj hhead
            rw [List.takeWhile_cons, hx, if_pos hd]
            simp
        refine ⟨advances_trans (advanceBy_advances s1 _
          (List.takeWhile_sublist _).length_le) hrest, ?_⟩
        have := advances_mono hrest
        simp only [position_advanceBy] at this
        omega
      · rw [if_neg hd] at h
        exact Except.noConfusion h

theorem parse_number_advances (s : Parser) (v : JsonValue) (s' : Parser)
    (h : parse_number s = .ok (v, s')) :
    Advances s s' ∧ s.position < s'.position := by
  rw [parse_number.eq_def] at h
  cases hpeek : peek_char s with
  | none =>
    simp only [hpeek] at h
    obtain ⟨ha, hlt⟩ := parse_number_int_advances _ _ _ _ _ h
    exact ⟨ha, hlt⟩
  | some c =>
    simp only [hpeek] at h
    by_cases hm : c = '-'
    · rw [if_pos hm] at h
      simp only [] at h
      have hlt := peek_some_lt s hpeek
      have hadv1 : Advances s (advanceBy s 1) := by
        refine advanceBy_advances s 1 ?_
        rw [rem_length]
        omega
      obtain ⟨ha, hlt2⟩ := parse_number_int_advances _ _ _ _ _ h
      refine ⟨advances_trans hadv1 ha, ?_⟩
      simp only [position_advanceBy] at hlt2
      omega
    · rw [if_neg hm] at h
      simp only [] at h
      exact parse_number_int_advances _ _ _ _ _ h

theorem advance1_advances (s : Parser) {c : Char} (h : peek_char s = some c) :
    Advances s (advanceBy s 1) := by
  refine advanceBy_advances s 1 ?_
  rw [rem_length]
  have := peek_some_lt s h
  omega

theorem consume_str_pos (c : Char) (cs : List Char) (s s' : Parser)
    (h : consume_str s (c :: cs) = .ok s') : s.position < s'.position := by
  cases hpeek : peek_char s with
  | none =>
    simp only [consume_str, next_char, hpeek] at h
    exact Except.noConfusion h
  | some d =>
    simp only [consume_str, next_char, hpeek] at h
    by_cases hd : d = c
    · rw [if_pos hd] at h
      have := advances_mono (consume_str_advances cs _ _ h)
      simp only [position_advanceBy] at this
      omega
    · rw [if_neg hd] at h
      exact Except.noConfusion h

/-- Every successful step of the core parser advances the cursor strictly
and keeps it inside the input. -/
theorem runP_advances : ∀ (fuel : Nat) (req : PReq) (s : Parser)
    (v : JsonValue) (s' : Parser),
    runP fuel req s = some (.ok (v, s')) →
    Advances s s' ∧ s.position < s'.position := by
  intro fuel
  induction fuel with
  | zero => intro req s v s' h; exact Option.noConfusion h
  | succ fuel ih =>
    intro req s v s' h
    cases req with
    | val =>
      simp only [runP] at h
      cases hpeek : peek_char (skip_whitespace s) with
      | none =>
        rw [hpeek] at h
        simp at h
      | some c =>
        rw [hpeek] at h
        simp only [] at h
        have hskip : Advances s (skip_whitespace s) := skip_advances s
        have hs0le : s.position ≤ (skip_whitespace s).position := skip_pos_le s
        by_cases hn : c = 'n'
        · rw [if_pos hn] at h
          have h2 := Option.some.inj h
          cases hcs : consume_str (skip_whitespace s) ['n', 'u', 'l', 'l'] with
          | error e => rw [hcs] at h2; exact Except.noConfusion h2
          | ok s1 =>
            rw [hcs] at h2
            have hs1 : s1 = s' := (Prod.mk.inj (Except.ok.inj h2)).2
            subst hs1
            have ha := consume_str_advances _ _ _ hcs
            have hp := consume_str_pos _ _ _ _ hcs
            exact ⟨advances_trans hskip ha, by omega⟩
        · rw [if_neg hn] at h
          by_cases ht : c = 't'
          · rw [if_pos ht] at h
            have h2 := Option.some.inj h
            cases hcs : consume_str (skip_whitespace s) ['t', 'r', 'u', 'e'] with
            | error e => rw [hcs] at h2; exact Except.noConfusion h2
            | ok s1 =>
              rw [hcs] at h2
              have hs1 : s1 = s' := (Prod.mk.inj (Except.ok.inj h2)).2
              subst hs1
              have ha := consume_str_advances _ _ _ hcs
              have hp := consume_str_pos _ _ _ _ hcs
              exact ⟨advances_trans hskip ha, by omega⟩
          · rw [if_neg ht] at h
            by_cases hf : c = 'f'
            · rw [if_pos hf] at h
              have h2 := Option.some.inj h
              cases hcs : consume_str (skip_whitespace s)
                  ['f', 'a', 'l', 's', 'e'] with
              | error e => rw [hcs] at h2; exact Except.noConfusion h2
              | ok s1 =>
                rw [hcs] at h2
                have hs1 : s1 = s' := (Prod.mk.inj (Except.ok.inj h2)).2
                subst hs1
                have ha := consume_str_advances _ _ _ hcs
                have hp := consume_str_pos _ _ _ _ hcs
                exact ⟨advances_trans hskip ha, by omega⟩
            · rw [if_neg hf] at h
              by_cases hq : c = '"'
              · rw [if_pos hq] at h
                have h2 := Option.some.inj h
                obtain ⟨ha, hp⟩ := parse_string_advances _ _ _ h2
                exact ⟨advances_trans hskip ha, by omega⟩
              · rw [if_neg hq] at h
                by_cases hnum : isDigit c = true ∨ c = '-'
                · rw [if_pos hnum] at h
                  have h2 := Option.some.inj h
                  obtain ⟨ha, hp⟩ := parse_number_advances _ _ _ h2
                  exact ⟨advances_trans hskip ha, by omega⟩
                · rw [if_neg hnum] at h
                  by_cases hbr : c = '['
                  · rw [if_pos hbr] at h
                    have hadv1 : Advances (skip_whitespace s)
                        (advanceBy (skip_whitespace s) 1) :=
                      advance1_advances _ hpeek
                    have hchain : Advances s
                        (skip_whitespace (advanceBy (skip_whitespace s) 1)) :=
                      advances_trans hskip (advances_trans hadv1 (skip_advances _))
                    have hposlt : s.position <
                        (skip_whitespace (advanceBy (skip_whitespace s) 1)).position := by
                      have h1 := skip_pos_le (advanceBy (skip_whitespace s) 1)
                      simp only [position_advanceBy] at h1
                      omega
                    cases hpeek1 : peek_char
                        (skip_whitespace (advanceBy (skip_whitespace s) 1)) with
                    | some c1 =>
                      rw [hpeek1] at h
                      simp only [] at h
                      by_cases hc1 : c1 = ']'
                      · rw [if_pos hc1] at h
                        have h2 := Option.some.inj h
                        have hs1 : advanceBy
                            (skip_whitespace (advanceBy (skip_whitespace s) 1)) 1 = s' :=
                          (Prod.mk.inj (Except.ok.inj h2)).2
                        rw [← hs1]
                        constructor
                        · exact advances_trans hchain (advance1_advances _ hpeek1)
                        · simp only [position_advanceBy]
                          omega
                      · rw [if_neg hc1] at h
                        obtain ⟨ha, hp⟩ := ih _ _ _ _ h
                        exact ⟨advances_trans hchain ha, by omega⟩
                    | none =>
                      rw [hpeek1] at h
                      obtain ⟨ha, hp⟩ := ih _ _ _ _ h
                      exact ⟨advances_trans hchain ha, by omega⟩
                  · rw [if_neg hbr] at h
                    by_cases hbc : c = '{'
                    · rw [if_pos hbc] at h
                      have hadv1 : Advances (skip_whitespace s)
                          (advanceBy (skip_whitespace s) 1) :=
                        advance1_advances _ hpeek
                      have hchain : Advances s
                          (skip_whitespace (advanceBy (skip_whitespace s) 1)) :=
                        advances_trans hskip (advances_trans hadv1 (skip_advances _))
                      have hposlt : s.position <
                          (skip_whitespace (advanceBy (skip_whitespace s) 1)).position := by
                        have h1 := skip_pos_le (advanceBy (skip_whitespace s) 1)
                        simp only [position_advanceBy] at h1
                        omega
                      cases hpeek1 : peek_char
                          (skip_whitespace (advanceBy (skip_whitespace s) 1)) with
                      | some c1 =>
                        rw [hpeek1] at h
                        simp only [] at h
                        by_cases hc1 : c1 = '}'
                        · rw [if_pos hc1] at h
                          have h2 := Option.some.inj h
                          have hs1 : advanceBy
                              (skip_whitespace (advanceBy (skip_whitespace s) 1)) 1 = s' :=
                            (Prod.mk.inj (Except.ok.inj h2)).2
                          rw [← hs1]
                          constructor
                          · exact advances_trans hchain (advance1_advances _ hpeek1)
                          · simp only [position_advanceBy]
                            omega
                        · rw [if_neg hc1] at h
                          obtain ⟨ha, hp⟩ := ih _ _ _ _ h
                          exact ⟨advances_trans hchain ha, by omega⟩
                      | none =>
                        rw [hpeek1] at h
                        obtain ⟨ha, hp⟩ := ih _ _ _ _ h
                        exact ⟨advances_trans hchain ha, by omega⟩
                    · rw [if_neg hbc] at h
                      simp at h
    | arrItems acc =>
      simp only [runP] at h
      cases hv : runP fuel .val s with
      | none => rw [hv] at h; exact Option.noConfusion h
      | some r =>
        rw [hv] at h
        cases r with
        | error e => simp at h
        | ok p =>
          obtain ⟨v1, s1⟩ := p
          obtain ⟨ha1, hp1⟩ := ih _ _ _ _ hv
          simp only [] at h
          cases hpeek : peek_char (skip_whitespace s1) with
          | none => rw [hpeek] at h; simp at h
          | some c =>
            rw [hpeek] at h
            simp only [] at h
            have hskip1 : Advances s1 (skip_whitespace s1) := skip_advances s1
            by_cases hcm : c = ','
            · rw [if_pos hcm] at h
              have hchain : Advances s
                  (skip_whitespace (advanceBy (skip_whitespace s1) 1)) :=
                advances_trans ha1 (advances_trans hskip1
                  (advances_trans (advance1_advances _ hpeek) (skip_advances _)))
              have hposlt : s.position <
                  (skip_whitespace (advanceBy (skip_whitespace s1) 1)).position := by
                have h1 := skip_pos_le (advanceBy (skip_whitespace s1) 1)
                have h2 := skip_pos_le s1
                simp only [position_advanceBy] at h1
                omega
              cases hpeek3 : peek_char
                  (skip_whitespace (advanceBy (skip_whitespace s1) 1)) with
              | some c1 =>
                rw [hpeek3] at h
                simp only [] at h
                by_cases hc1 : c1 = ']'
                · rw [if_pos hc1] at h
                  simp at h
                · rw [if_neg hc1] at h
                  obtain ⟨ha, hp⟩ := ih _ _ _ _ h
                  exact ⟨advances_trans hchain ha, by omega⟩
              | none =>
                rw [hpeek3] at h
                obtain ⟨ha, hp⟩ := ih _ _ _ _ h
                exact ⟨advances_trans hchain ha, by omega⟩
            · rw [if_neg hcm] at h
              by_cases hcb : c = ']'
              · rw [if_pos hcb] at h
                have h2 := Option.some.inj h
                have hs1 : advanceBy (skip_whitespace s1) 1 = s' :=
                  (Prod.mk.inj (Except.ok.inj h2)).2
                rw [← hs1]
                have h3 := skip_pos_le s1
                refine ⟨advances_trans ha1 (advances_trans hskip1
                  (advance1_advances _ hpeek)), ?_⟩
                simp only [position_advanceBy]
                omega
              · rw [if_neg hcb] at h
                simp at h
    | objItems acc =>
      simp only [runP] at h
      cases hpeek : peek_char s with
      | none => rw [hpeek] at h; simp at h
      | some c0 =>
        rw [hpeek] at h
        simp only [] at h
        by_cases hq : c0 = '"'
        · rw [if_pos hq] at h
          cases hps : parse_string s with
          | error e => rw [hps] at h; simp at h
          | ok p =>
            obtain ⟨vk, s1⟩ := p
            rw [hps] at h
            cases vk with
            | string key =>
              simp only [] at h
              obtain ⟨ha1, hp1⟩ := parse_string_advances _ _ _ hps
              cases hpeek2 : peek_char (skip_whitespace s1) with
              | none => rw [hpeek2] at h; simp at h
              | some c =>
                rw [hpeek2] at h
                simp only [] at h
                by_cases hcol : c = ':'
                · rw [if_pos hcol] at h
                  have hchain1 : Advances s
                      (advanceBy (skip_whitespace s1) 1) :=
                    advances_trans ha1 (advances_trans (skip_advances s1)
                      (advance1_advances _ hpeek2))
                  cases hv : runP fuel .val (advanceBy (skip_whitespace s1) 1) with
                  | none => rw [hv] at h; exact Option.noConfusion h
                  | some r =>
                    rw [hv] at h
                    cases r with
                    | error e => simp at h
                    | ok p2 =>
                      obtain ⟨v2, s3⟩ := p2
                      obtain ⟨ha3, hp3⟩ := ih _ _ _ _ hv
                      simp only [] at h
                      cases hpeek4 : peek_char (skip_whitespace s3) with
                      | none => rw [hpeek4] at h; simp at h
                      | some c1 =>
                        rw [hpeek4] at h
                        simp only [] at h
                        by_cases hc1 : c1 = ','
                        · rw [if_pos hc1] at h
                          have hchain : Advances s
                              (skip_whitespace (advanceBy (skip_whitespace s3) 1)) :=
                            advances_trans hchain1 (advances_trans ha3
                              (advances_trans (skip_advances s3)
                                (advances_trans (advance1_advances _ hpeek4)
                                  (skip_advances _))))
                          have hposlt : s.position <
                              (skip_whitespace
                                (advanceBy (skip_whitespace s3) 1)).position := by
                            have h1 := skip_pos_le (advanceBy (skip_whitespace s3) 1)
                            have h2 := skip_pos_le s3
                            have h4 := advances_mono ha3
                            have h5 := advances_mono hchain1
                            have h6 := skip_pos_le s1
                            simp only [position_advanceBy] at h1 h4 h5 ⊢
                            omega
                          cases hpeek5 : peek_char
                              (skip_whitespace (advanceBy (skip_whitespace s3) 1)) with
                          | some c2 =>
                            rw [hpeek5] at h
                            simp only [] at h
                            by_cases hc2 : c2 = '}'
                            · rw [if_pos hc2] at h
                              simp at h
                            · rw [if_neg hc2] at h
                              obtain ⟨ha, hp⟩ := ih _ _ _ _ h
                              exact ⟨advances_trans hchain ha, by omega⟩
                          | none =>
                            rw [hpeek5] at h
                            obtain ⟨ha, hp⟩ := ih _ _ _ _ h
                            exact ⟨advances_trans hchain ha, by omega⟩
                        · rw [if_neg hc1] at h
                          by_cases hc2 : c1 = '}'
                          · rw [if_pos hc2] at h
                            have h2 := Option.some.inj h
                            have hs1 : advanceBy (skip_whitespace s3) 1 = s' :=
                              (Prod.mk.inj (Except.ok.inj h2)).2
                            rw [← hs1]
                            have h3 := skip_pos_le s3
                            have h5 := advances_mono hchain1
                            have h4 := advances_mono ha3
                            have h6 := skip_pos_le s1
                            refine ⟨advances_trans hchain1 (advances_trans ha3
                              (advances_trans (skip_advances s3)
                                (advance1_advances _ hpeek4))), ?_⟩
                            simp only [position_advanceBy] at h4 h5 ⊢
                            omega
                          · rw [if_neg hc2] at h
                            simp at h
                · rw [if_neg hcol] at h
                  simp at h
            | null => simp at h
            | boolean b => simp at h
            | number q => simp at h
            | array items => simp at h
            | object entries => simp at h
        · rw [if_neg hq] at h
          simp at h

/-! ## Character-class facts -/

theorem digit_ne (c : Char) (h : isDigit c = true) :
    ¬c = 'n' ∧ ¬c = 't' ∧ ¬c = 'f' ∧ ¬c = '"' ∧ ¬c = ',' ∧ ¬c = ']' ∧
      ¬c = ':' ∧ ¬c = '}' ∧ ¬c = '-' ∧ ¬c = '{' ∧ ¬c = '[' := by
  refine ⟨?_, ?_, ?_, ?_, ?_, ?_, ?_, ?_, ?_, ?_, ?_⟩ <;>
    (rintro rfl; exact absurd h (by decide))

theorem digit_toNat (c : Char) (h : isDigit c = true) :
    48 ≤ c.toNat ∧ c.toNat ≤ 57 := by
  simp only [isDigit, Bool.and_eq_true, decide_eq_true_eq] at h
  exact ⟨h.1, h.2⟩

theorem digit_not_ws (c : Char) (h : isDigit c = true) :
    rustIsWhitespace c = false := by
  obtain ⟨h1, h2⟩ := digit_toNat c h
  simp only [rustIsWhitespace, Bool.or_eq_false_iff]
  refine ⟨⟨⟨⟨⟨⟨⟨⟨⟨⟨⟨⟨⟨⟨?_, ?_⟩, ?_⟩, ?_⟩, ?_⟩, ?_⟩, ?_⟩, ?_⟩, ?_⟩, ?_⟩, ?_⟩,
    ?_⟩, ?_⟩, ?_⟩, ?_⟩ <;>
  first
  | (refine beq_eq_false_iff_ne.2 ?_; rintro rfl; exact absurd h (by decide))
  | (refine beq_eq_false_iff_ne.2 ?_; omega)
  | (simp only [Bool.and_eq_false_iff, decide_eq_false_iff_not]; omega)

theorem ws_not_numCont (c : Char) (h : rustIsWhitespace c = true) :
    numCont c = false := by
  have hd : isDigit c = false := by
    by_cases hdc : isDigit c = true
    · rw [digit_not_ws c hdc] at h
      exact Bool.noConfusion h
    · exact Bool.eq_false_iff.2 hdc
  simp only [rustIsWhitespace, Bool.or_eq_true, beq_iff_eq, Bool.and_eq_true,
    decide_eq_true_eq] at h
  simp only [numCont, hd, Bool.false_or, Bool.or_eq_false_iff,
    decide_eq_false_iff_not]
  rcases h with ((((((((((((((h | h) | h) | h) | h) | h) | h) | h) | h) | h) |
    h) | h) | h) | h) | h) <;>
  refine ⟨⟨?_, ?_⟩, ?_⟩ <;>
  first
  | (subst h; decide)
  | (rintro rfl; revert h; decide)

theorem ws_ne_quote (c : Char) (h : rustIsWhitespace c = true) : ¬c = '"' := by
  rintro rfl
  exact absurd h (by decide)

/-! ## Token facts -/

theorem lexNumOk_head (cs : List Char) (h : lexNumOk cs = true) :
    ∃ c cs', cs = c :: cs' ∧ (c = '-' ∨ isDigit c = true) := by
  obtain ⟨sgn, ip, fp, ep, rfl, hsgn, hip, _, _⟩ := lexNumOk_decomp cs h
  rcases hsgn with rfl | rfl
  · rcases hip with rfl | ⟨d, ds, rfl, _, hdig⟩
    · exact ⟨'0', _, rfl, Or.inr rfl⟩
    · exact ⟨d, _, rfl, Or.inr (hdig d (by simp))⟩
  · exact ⟨'-', _, rfl, Or.inl rfl⟩

theorem tokChars_head (t : Tok) (h : tokOk t = true) :
    ∃ c cs, tokChars t = c :: cs ∧ rustIsWhitespace c = false := by
  cases t with
  | lbrack => exact ⟨'[', [], rfl, by decide⟩
  | rbrack => exact ⟨']', [], rfl, by decide⟩
  | lbrace => exact ⟨'{', [], rfl, by decide⟩
  | rbrace => exact ⟨'}', [], rfl, by decide⟩
  | comma => exact ⟨',', [], rfl, by decide⟩
  | colon => exact ⟨':', [], rfl, by decide⟩
  | tnull => exact ⟨'n', _, rfl, by decide⟩
  | ttrue => exact ⟨'t', _, rfl, by decide⟩
  | tfalse => exact ⟨'f', _, rfl, by decide⟩
  | tstr b => exact ⟨'"', _, rfl, by decide⟩
  | tnum cs =>
    obtain ⟨c, cs', hcs, hc⟩ := lexNumOk_head cs h
    refine ⟨c, cs', hcs, ?_⟩
    rcases hc with rfl | hc
    · decide
    · exact digit_not_ws c hc

theorem WfL_tail {p : Tok × List Char} {L : List (Tok × List Char)}
    (h : WfL (p :: L)) : WfL L := by
  obtain ⟨hall, hchain⟩ := h
  exact ⟨fun q hq => hall q (by simp [hq]), hchain.tail⟩

theorem WfL_head_tokOk {p : Tok × List Char} {L : List (Tok × List Char)}
    (h : WfL (p :: L)) : tokOk p.1 = true ∧ wsTok p.2 = true :=
  h.1 p (by simp)

/-- The first character of a built interleaving is a token head, so
skipping whitespace from an aligned state lands exactly at the tokens. -/
theorem rem_skip_build (s : Parser) (w : List Char) (L : List (Tok × List Char))
    (hw : wsTok w = true) (hL : WfL L) (h : rem s = w ++ buildL L) :
    rem (skip_whitespace s) = buildL L := by
  refine rem_skip_boundary s w (buildL L) hw h ?_
  intro c hc
  cases L with
  | nil => exact absurd hc (by simp [buildL])
  | cons p L' =>
    obtain ⟨t, wt⟩ := p
    obtain ⟨c0, cs0, hc0, hnws⟩ := tokChars_head t (WfL_head_tokOk hL).1
    rw [buildL, hc0] at hc
    simp only [List.cons_append, List.head?_cons] at hc
    rw [← Option.some.inj hc]
    exact hnws

/-! ## Fuel lemmas for the token-level parser -/

theorem runT_mono : ∀ (f : Nat) (req : PReq) (toks : List Tok)
    (r : Except String (JsonValue × List Tok)),
    runT f req toks = some r → ∀ f', f ≤ f' → runT f' req toks = some r := by
  intro f
  induction f with
  | zero => intro req toks r h; exact Option.noConfusion h
  | succ f ih =>
    intro req toks r h f' hf'
    cases f' with
    | zero => omega
    | succ f'' =>
      have hff : f ≤ f'' := by omega
      cases req with
      | val =>
        cases toks with
        | nil => simpa only [runT] using h
        | cons t rest =>
          cases t with
          | lbrack =>
            simp only [runT] at h ⊢
            cases rest with
            | nil => exact ih _ _ _ h _ hff
            | cons t2 r2 =>
              simp only [] at h ⊢
              by_cases h2 : t2 = .rbrack
              · rw [if_pos h2] at h ⊢; exact h
              · rw [if_neg h2] at h ⊢; exact ih _ _ _ h _ hff
          | lbrace =>
            simp only [runT] at h ⊢
            cases rest with
            | nil => exact ih _ _ _ h _ hff
            | cons t2 r2 =>
              simp only [] at h ⊢
              by_cases h2 : t2 = .rbrace
              · rw [if_pos h2] at h ⊢; exact h
              · rw [if_neg h2] at h ⊢; exact ih _ _ _ h _ hff
          | _ => simpa only [runT] using h
      | arrItems acc =>
        simp only [runT] at h ⊢
        cases hv : runT f .val toks with
        | none => rw [hv] at h; exact Option.noConfusion h
        | some rv =>
          rw [hv] at h
          rw [ih _ _ _ hv _ hff]
          cases rv with
          | error e => exact h
          | ok p =>
            obtain ⟨v, r1⟩ := p
            simp only [] at h ⊢
            cases r1 with
            | nil => exact h
            | cons t2 r2 =>
              simp only [] at h ⊢
              by_cases hc : t2 = .comma
              · rw [if_pos hc] at h ⊢
                cases r2 with
                | nil => exact ih _ _ _ h _ hff
                | cons t3 r3 =>
                  simp only [] at h ⊢
                  by_cases hb : t3 = .rbrack
                  · rw [if_pos hb] at h ⊢; exact h
                  · rw [if_neg hb] at h ⊢; exact ih _ _ _ h _ hff
              · rw [if_neg hc] at h ⊢
                by_cases hb : t2 = .rbrack
                · rw [if_pos hb] at h ⊢; exact h
                · rw [if_neg hb] at h ⊢; exact h
      | objItems acc =>
        cases toks with
        | nil => simpa only [runT] using h
        | cons t rest =>
          cases t with
          | tstr b =>
            simp only [runT] at h ⊢
            cases rest with
            | nil => exact h
            | cons t1 r2 =>
              simp only [] at h ⊢
              by_cases hcol : t1 = .colon
              · rw [if_pos hcol] at h ⊢
                cases hv : runT f .val r2 with
                | none => rw [hv] at h; exact Option.noConfusion h
                | some rv =>
                  rw [hv] at h
                  rw [ih _ _ _ hv _ hff]
                  cases rv with
                  | error e => exact h
                  | ok p =>
                    obtain ⟨v, r3⟩ := p
                    simp only [] at h ⊢
                    cases r3 with
                    | nil => exact h
                    | cons t2 r4 =>
                      simp only [] at h ⊢
                      by_cases hc : t2 = .comma
                      · rw [if_pos hc] at h ⊢
                        cases r4 with
                        | nil => exact ih _ _ _ h _ hff
                        | cons t3 r5 =>
                          simp only [] at h ⊢
                          by_cases hb : t3 = .rbrace
                          · rw [if_pos hb] at h ⊢; exact h
                          · rw [if_neg hb] at h ⊢; exact ih _ _ _ h _ hff
                      · rw [if_neg hc] at h ⊢
                        by_cases hb : t2 = .rbrace
                        · rw [if_pos hb] at h ⊢; exact h
                        · rw [if_neg hb] at h ⊢; exact h
              · rw [if_neg hcol] at h ⊢
                exact h
          | _ => simpa only [runT] using h

theorem runT_consume : ∀ (f : Nat) (req : PReq) (toks : List Tok)
    (v : JsonValue) (rest : List Tok),
    runT f req toks = some (.ok (v, rest)) → rest.length < toks.length := by
  intro f
  induction f with
  | zero => intro req toks v rest h; exact Option.noConfusion h
  | succ f ih =>
    intro req toks v rest h
    cases req with
    | val =>
      cases toks with
      | nil =>
        simp only [runT] at h
        exact absurd (Option.some.inj h) (by simp)
      | cons t rst =>
        cases t with
        | lbrack =>
          simp only [runT] at h
          cases rst with
          | nil =>
            have := ih _ _ _ _ h
            simp at this
          | cons t2 r2 =>
            simp only [] at h
            by_cases h2 : t2 = .rbrack
            · rw [if_pos h2] at h
              have := Option.some.inj h
              have hr : r2 = rest := (Prod.mk.inj (Except.ok.inj this)).2
              subst hr
              simp only [List.length_cons]
              omega
            · rw [if_neg h2] at h
              have := ih _ _ _ _ h
              simp only [List.length_cons] at this ⊢
              omega
        | lbrace =>
          simp only [runT] at h
          cases rst with
          | nil =>
            have := ih _ _ _ _ h
            simp at this
          | cons t2 r2 =>
            simp only [] at h
            by_cases h2 : t2 = .rbrace
            · rw [if_pos h2] at h
              have := Option.some.inj h
              have hr : r2 = rest := (Prod.mk.inj (Except.ok.inj this)).2
              subst hr
              simp only [List.length_cons]
              omega
            · rw [if_neg h2] at h
              have := ih _ _ _ _ h
              simp only [List.length_cons] at this ⊢
              omega
        | tstr b =>
          simp only [runT] at h
          have := Option.some.inj h
          have hr : rst = rest := (Prod.mk.inj (Except.ok.inj this)).2
          subst hr
          simp
        | tnum cs =>
          simp only [runT] at h
          have := Option.some.inj h
          have hr : rst = rest := (Prod.mk.inj (Except.ok.inj this)).2
          subst hr
          simp
        | tnull =>
          simp only [runT] at h
          have := Option.some.inj h
          have hr : rst = rest := (Prod.mk.inj (Except.ok.inj this)).2
          subst hr
          simp
        | ttrue =>
          simp only [runT] at h
          have := Option.some.inj h
          have hr : rst = rest := (Prod.mk.inj (Except.ok.inj this)).2
          subst hr
          simp
        | tfalse =>
          simp only [runT] at h
          have := Option.some.inj h
          have hr : rst = rest := (Prod.mk.inj (Except.ok.inj this)).2
          subst hr
          simp
        | rbrack => simp only [runT] at h; exact absurd (Option.some.inj h) (by simp)
        | rbrace => simp only [runT] at h; exact absurd (Option.some.inj h) (by simp)
        | comma => simp only [runT] at h; exact absurd (Option.some.inj h) (by simp)
        | colon => simp only [runT] at h; exact absurd (Option.some.inj h) (by simp)
    | arrItems acc =>
      simp only [runT] at h
      cases hv : runT f .val toks with
      | none => rw [hv] at h; exact Option.noConfusion h
      | some rv =>
        rw [hv] at h
        cases rv with
        | error e => exact absurd (Option.some.inj h) (by simp)
        | ok p =>
          obtain ⟨v1, r1⟩ := p
          have hlt1 := ih _ _ _ _ hv
          simp only [] at h
          cases r1 with
          | nil => exact absurd (Option.some.inj h) (by simp)
          | cons t2 r2 =>
            simp only [] at h
            simp only [List.length_cons] at hlt1
            by_cases hc : t2 = .comma
            · rw [if_pos hc] at h
              cases r2 with
              | nil =>
                have := ih _ _ _ _ h
                simp at this
              | cons t3 r3 =>
                simp only [] at h
                by_cases hb : t3 = .rbrack
                · rw [if_pos hb] at h
                  exact absurd (Option.some.inj h) (by simp)
                · rw [if_neg hb] at h
                  have := ih _ _ _ _ h
                  simp only [List.length_cons] at this hlt1 ⊢
                  omega
            · rw [if_neg hc] at h
              by_cases hb : t2 = .rbrack
              · rw [if_pos hb] at h
                have := Option.some.inj h
                have hr : r2 = rest := (Prod.mk.inj (Except.ok.inj this)).2
                subst hr
                omega
              · rw [if_neg hb] at h
                exact absurd (Option.some.inj h) (by simp)
    | objItems acc =>
      cases toks with
      | nil =>
        simp only [runT] at h
        exact absurd (Option.some.inj h) (by simp)
      | cons t rst =>
        cases t with
        | tstr b =>
          simp only [runT] at h
          cases rst with
          | nil => exact absurd (Option.some.inj h) (by simp)
          | cons t1 r2 =>
            simp only [] at h
            by_cases hcol : t1 = .colon
            · rw [if_pos hcol] at h
              cases hv : runT f .val r2 with
              | none => rw [hv] at h; exact Option.noConfusion h
              | some rv =>
                rw [hv] at h
                cases rv with
                | error e => exact absurd (Option.some.inj h) (by simp)
                | ok p =>
                  obtain ⟨v1, r3⟩ := p
                  have hlt1 := ih _ _ _ _ hv
                  simp only [] at h
                  cases r3 with
                  | nil => exact absurd (Option.some.inj h) (by simp)
                  | cons t2 r4 =>
                    simp only [] at h
                    simp only [List.length_cons] at hlt1
                    by_cases hc : t2 = .comma
                    · rw [if_pos hc] at h
                      cases r4 with
                      | nil =>
                        have := ih _ _ _ _ h
                        simp at this
                      | cons t3 r5 =>
                        simp only [] at h
                        by_cases hb : t3 = .rbrace
                        · rw [if_pos hb] at h
                          exact absurd (Option.some.inj h) (by simp)
                        · rw [if_neg hb] at h
                          have := ih _ _ _ _ h
                          simp only [List.length_cons] at this hlt1 ⊢
                          omega
                    · rw [if_neg hc] at h
                      by_cases hb : t2 = .rbrace
                      · rw [if_pos hb] at h
                        have := Option.some.inj h
                        have hr : r4 = rest := (Prod.mk.inj (Except.ok.inj this)).2
                        subst hr
                        simp only [List.length_cons]
                        omega
                      · rw [if_neg hb] at h
                        exact absurd (Option.some.inj h) (by simp)
            · rw [if_neg hcol] at h
              exact absurd (Option.some.inj h) (by simp)
        | lbrack => simp only [runT] at h; exact absurd (Option.some.inj h) (by simp)
        | rbrack => simp only [runT] at h; exact absurd (Option.some.inj h) (by simp)
        | lbrace => simp only [runT] at h; exact absurd (Option.some.inj h) (by simp)
        | rbrace => simp only [runT] at h; exact absurd (Option.some.inj h) (by simp)
        | comma => simp only [runT] at h; exact absurd (Option.some.inj h) (by simp)
        | colon => simp only [runT] at h; exact absurd (Option.some.inj h) (by simp)
        | tnull => simp only [runT] at h; exact absurd (Option.some.inj h) (by simp)
        | ttrue => simp only [runT] at h; exact absurd (Option.some.inj h) (by simp)
        | tfalse => simp only [runT] at h; exact absurd (Option.some.inj h) (by simp)
        | tnum cs => simp only [runT] at h; exact absurd (Option.some.inj h) (by simp)

/-- Fuel needed by the token-level parser. -/
def needT (req : PReq) (toks : List Tok) : Nat :=
  match req with
  | .val => 2 * toks.length + 2
  | _ => 2 * toks.length + 3

theorem runT_suff : ∀ (f : Nat) (req : PReq) (toks : List Tok),
    needT req toks ≤ f → runT f req toks ≠ none := by
  intro f
  induction f with
  | zero => intro req toks hn; cases req <;> simp [needT] at hn
  | succ f ih =>
    intro req toks hn
    cases req with
    | val =>
      cases toks with
      | nil => simp [runT]
      | cons t rst =>
        simp only [needT, List.length_cons] at hn
        cases t with
        | lbrack =>
          simp only [runT]
          cases rst with
          | nil =>
            refine ih _ _ ?_
            simp only [needT, List.length_nil]
            omega
          | cons t2 r2 =>
            simp only []
            by_cases h2 : t2 = .rbrack
            · rw [if_pos h2]; simp
            · rw [if_neg h2]
              refine ih _ _ ?_
              simp only [needT, List.length_cons] at hn ⊢
              omega
        | lbrace =>
          simp only [runT]
          cases rst with
          | nil =>
            refine ih _ _ ?_
            simp only [needT, List.length_nil]
            omega
          | cons t2 r2 =>
            simp only []
            by_cases h2 : t2 = .rbrace
            · rw [if_pos h2]; simp
            · rw [if_neg h2]
              refine ih _ _ ?_
              simp only [needT, List.length_cons] at hn ⊢
              omega
        | tstr b => simp [runT]
        | tnum cs => simp [runT]
        | tnull => simp [runT]
        | ttrue => simp [runT]
        | tfalse => simp [runT]
        | rbrack => simp [runT]
        | rbrace => simp [runT]
        | comma => simp [runT]
        | colon => simp [runT]
    | arrItems acc =>
      simp only [needT] at hn
      simp only [runT]
      cases hv : runT f .val toks with
      | none =>
        exact absurd hv (ih _ _ (by simp only [needT]; omega))
      | some rv =>
        cases rv with
        | error e => simp
        | ok p =>
          obtain ⟨v1, r1⟩ := p
          have hlt1 := runT_consume f .val toks v1 r1 hv
          simp only []
          cases r1 with
          | nil => simp
          | cons t2 r2 =>
            simp only [List.length_cons] at hlt1
            simp only []
            by_cases hc : t2 = .comma
            · rw [if_pos hc]
              cases r2 with
              | nil =>
                refine ih _ _ ?_
                simp only [needT, List.length_nil]
                omega
              | cons t3 r3 =>
                simp only []
                by_cases hb : t3 = .rbrack
                · rw [if_pos hb]; simp
                · rw [if_neg hb]
                  refine ih _ _ ?_
                  simp only [needT, List.length_cons] at hlt1 ⊢
                  omega
            · rw [if_neg hc]
              by_cases hb : t2 = .rbrack
              · rw [if_pos hb]; simp
              · rw [if_neg hb]; simp
    | objItems acc =>
      simp only [needT] at hn
      cases toks with
      | nil => simp [runT]
      | cons t rst =>
        simp only [List.length_cons] at hn
        cases t with
        | tstr b =>
          simp only [runT]
          cases rst with
          | nil => simp
          | cons t1 r2 =>
            simp only []
            by_cases hcol : t1 = .colon
            · rw [if_pos hcol]
              cases hv : runT f .val r2 with
              | none =>
                refine absurd hv (ih _ _ ?_)
                simp only [needT, List.length_cons] at hn ⊢
                omega
              | some rv =>
                cases rv with
                | error e => simp
                | ok p =>
                  obtain ⟨v1, r3⟩ := p
                  have hlt1 := runT_consume f .val r2 v1 r3 hv
                  simp only []
                  cases r3 with
                  | nil => simp
                  | cons t2 r4 =>
                    simp only [List.length_cons] at hlt1 hn
                    simp only []
                    by_cases hc : t2 = .comma
                    · rw [if_pos hc]
                      cases r4 with
                      | nil =>
                        refine ih _ _ ?_
                        simp only [needT, List.length_nil]
                        omega
                      | cons t3 r5 =>
                        simp only []
                        by_cases hb : t3 = .rbrace
                        · rw [if_pos hb]; simp
                        · rw [if_neg hb]
                          refine ih _ _ ?_
                          simp only [needT, List.length_cons] at hlt1 ⊢
                          omega
                    · rw [if_neg hc]
                      by_cases hb : t2 = .rbrace
                      · rw [if_pos hb]; simp
                      · rw [if_neg hb]; simp
            · rw [if_neg hcol]; simp
        | lbrack => simp [runT]
        | rbrack => simp [runT]
        | lbrace => simp [runT]
        | rbrace => simp [runT]
        | comma => simp [runT]
        | colon => simp [runT]
        | tnull => simp [runT]
        | ttrue => simp [runT]
        | tfalse => simp [runT]
        | tnum cs => simp [runT]

/-! ## Interleaving helpers for the simulation -/

theorem buildL_cons (t : Tok) (w : List Char) (L : List (Tok × List Char)) :
    buildL ((t, w) :: L) = tokChars t ++ (w ++ buildL L) := by
  rw [buildL, List.append_assoc]

theorem toksOf_cons (t : Tok) (w : List Char) (L : List (Tok × List Char)) :
    toksOf ((t, w) :: L) = t :: toksOf L := rfl

theorem toksOf_nil : toksOf [] = [] := rfl

theorem wsTok_nil : wsTok [] = true := rfl

theorem WfL_nil : WfL [] :=
  ⟨fun p hp => absurd hp (List.not_mem_nil p), List.chain'_nil⟩

theorem peek_build (s : Parser) (t : Tok) (w : List Char)
    (L : List (Tok × List Char)) (c : Char) (cs : List Char)
    (h : rem s = buildL ((t, w) :: L)) (hc : tokChars t = c :: cs) :
    peek_char s = some c := by
  rw [peek_eq_head, h, buildL_cons, hc]; rfl

theorem headOf_eq (t : Tok) (c : Char) (cs : List Char)
    (hc : tokChars t = c :: cs) : headOf t = c := by
  rw [headOf, hc]; rfl

theorem rem_advance_tok (s : Parser) (t : Tok) (w : List Char)
    (L : List (Tok × List Char)) (n : Nat) (h : rem s = buildL ((t, w) :: L))
    (hlen : (tokChars t).length = n) :
    rem (advanceBy s n) = w ++ buildL L := by
  rw [rem_advanceBy, h, buildL_cons, ← hlen, List.drop_left]

theorem align_state (s : Parser) (t : Tok) (wt : List Char)
    (L' : List (Tok × List Char)) (n : Nat) (h : rem s = buildL ((t, wt) :: L'))
    (hlen : (tokChars t).length = n) (hL : WfL ((t, wt) :: L')) :
    Align (advanceBy s n) (toksOf L') :=
  ⟨wt, L', (WfL_head_tokOk hL).2, WfL_tail hL,
    rem_advance_tok s t wt L' n h hlen, rfl⟩

/-- None of the structural punctuation characters can begin a token of a
different kind. -/
theorem head_punct (t : Tok) (h : tokOk t = true) (c : Char) (cs : List Char)
    (hc : tokChars t = c :: cs) :
    (¬t = Tok.rbrack → ¬c = ']') ∧ (¬t = Tok.rbrace → ¬c = '}') ∧
    (¬t = Tok.comma → ¬c = ',') ∧ (¬t = Tok.colon → ¬c = ':') ∧
    ((∀ b, ¬t = Tok.tstr b) → ¬c = '"') := by
  cases t with
  | tnum ds =>
    obtain ⟨c0, cs0, hds, hc0⟩ := lexNumOk_head ds h
    rw [tokChars, hds] at hc
    obtain ⟨h1, -⟩ := List.cons.inj hc
    subst h1
    rcases hc0 with rfl | hdig
    · exact ⟨fun _ => by decide, fun _ => by decide, fun _ => by decide,
        fun _ => by decide, fun _ => by decide⟩
    · obtain ⟨-, -, -, h4, h5, h6, h7, h8, -⟩ := digit_ne c0 hdig
      exact ⟨fun _ => h6, fun _ => h8, fun _ => h5, fun _ => h7, fun _ => h4⟩
  | tstr b =>
    simp only [tokChars, List.cons_append] at hc
    obtain ⟨h1, -⟩ := List.cons.inj hc
    subst h1
    exact ⟨fun _ => by decide, fun _ => by decide, fun _ => by decide,
      fun _ => by decide, fun hne => absurd rfl (hne b)⟩
  | _ =>
    simp only [tokChars] at hc
    obtain ⟨h1, -⟩ := List.cons.inj hc
    subst h1
    refine ⟨fun hne => ?_, fun hne => ?_, fun hne => ?_, fun hne => ?_,
      fun hne => ?_⟩ <;>
    first
    | decide
    | exact absurd rfl hne

/-- The character right after a well-placed number token cannot continue
the number: either it is whitespace, or the next token's no-merge side
condition excludes it. -/
theorem num_boundary (cs wt : List Char) (L' : List (Tok × List Char))
    (hL : WfL ((Tok.tnum cs, wt) :: L')) :
    ∀ c, (wt ++ buildL L').head? = some c → numCont c = false := by
  intro c hc
  cases wt with
  | cons c0 wt' =>
    simp only [List.cons_append, List.head?_cons] at hc
    obtain rfl := Option.some.inj hc
    have hws : rustIsWhitespace c0 = true := by
      have := (List.all_eq_true.1 (WfL_head_tokOk hL).2) c0 (by simp)
      simpa using this
    exact ws_not_numCont c0 hws
  | nil =>
    simp only [List.nil_append] at hc
    cases L' with
    | nil => exact absurd hc (by simp [buildL])
    | cons p L2 =>
      obtain ⟨t2, w2⟩ := p
      obtain ⟨c2, cs2, hc2, -⟩ :=
        tokChars_head t2 (WfL_head_tokOk (WfL_tail hL)).1
      rw [buildL_cons, hc2] at hc
      simp only [List.cons_append, List.head?_cons] at hc
      obtain rfl := Option.some.inj hc
      have hnm : nomerge (Tok.tnum cs) t2 = true :=
        (List.chain'_cons.1 hL.2).1 rfl
      rw [nomerge, hc2] at hnm
      simp only [List.head?_cons] at hnm
      simpa using hnm

/-- Case analysis on the simulation relation. -/
theorem simRes_elim {r : Option (Except ParseError (JsonValue × Parser))}
    {rt : Option (Except String (JsonValue × List Tok))} (h : simRes r rt) :
    (r = none ∧ rt = none) ∨
    (∃ e m, r = some (Except.error e) ∧ rt = some (Except.error m) ∧
      ParseError.message e = m) ∨
    (∃ v s1 rest, r = some (Except.ok (v, s1)) ∧
      rt = some (Except.ok (v, rest)) ∧ Align s1 rest) := by
  match r, rt with
  | none, none => exact Or.inl ⟨rfl, rfl⟩
  | none, some (.error m) => exact h.elim
  | none, some (.ok p) => exact h.elim
  | some (.error e), none => exact h.elim
  | some (.error e), some (.error m) => exact Or.inr (Or.inl ⟨e, m, rfl, rfl, h⟩)
  | some (.error e), some (.ok p) => exact h.elim
  | some (.ok p), none => exact h.elim
  | some (.ok p), some (.error m) => exact h.elim
  | some (.ok (v, s1)), some (.ok (v2, rest)) =>
    obtain ⟨rfl, hal⟩ := h
    exact Or.inr (Or.inr ⟨v, s1, rest, rfl, rfl, hal⟩)

/-- Forward simulation: on an input that is whitespace followed by a
well-formed token interleaving, the character-level parser behaves
exactly as the token-level parser on the token sequence — same fuel
outcome, same error message, or the same value with aligned residues. -/
theorem runP_simT : ∀ (fuel : Nat) (req : PReq) (s : Parser) (w : List Char)
    (L : List (Tok × List Char)), wsTok w = true → WfL L →
    rem s = w ++ buildL L → (∀ acc, req = PReq.objItems acc → w = []) →
    simRes (runP fuel req s) (runT fuel req (toksOf L)) := by
  intro fuel
  induction fuel with
  | zero =>
    intro req s w L _ _ _ _
    exact trivial
  | succ f ih =>
    intro req s w L hw hL hrem hobj
    cases req with
    | val =>
      have hrem0 : rem (skip_whitespace s) = buildL L :=
        rem_skip_build s w L hw hL hrem
      cases L with
      | nil =>
        have hpeek : peek_char (skip_whitespace s) = none := by
          rw [peek_eq_head, hrem0]; rfl
        simp only [runP, runT, toksOf_nil, hpeek]
        exact rfl
      | cons p L' =>
        obtain ⟨t, wt⟩ := p
        have htok := WfL_head_tokOk hL
        have hL' := WfL_tail hL
        have hwt : wsTok wt = true := htok.2
        cases t with
        | tnull =>
          have hform : rem (skip_whitespace s) =
              ['n', 'u', 'l', 'l'] ++ (wt ++ buildL L') := by
            rw [hrem0, buildL_cons]; rfl
          have hpeek : peek_char (skip_whitespace s) = some 'n' :=
            peek_build _ _ _ _ _ _ hrem0 rfl
          have hcs := consume_str_exact ['n', 'u', 'l', 'l'] (skip_whitespace s)
            (wt ++ buildL L') hform
          simp only [runP, runT, toksOf_cons, hpeek, hcs]
          exact ⟨rfl, align_state _ _ _ _ 4 hrem0 rfl hL⟩
        | ttrue =>
          have hform : rem (skip_whitespace s) =
              ['t', 'r', 'u', 'e'] ++ (wt ++ buildL L') := by
            rw [hrem0, buildL_cons]; rfl
          have hpeek : peek_char (skip_whitespace s) = some 't' :=
            peek_build _ _ _ _ _ _ hrem0 rfl
          have hcs := consume_str_exact ['t', 'r', 'u', 'e'] (skip_whitespace s)
            (wt ++ buildL L') hform
          simp only [runP, runT, toksOf_cons, hpeek, hcs]
          exact ⟨rfl, align_state _ _ _ _ 4 hrem0 rfl hL⟩
        | tfalse =>
          have hform : rem (skip_whitespace s) =
              ['f', 'a', 'l', 's', 'e'] ++ (wt ++ buildL L') := by
            rw [hrem0, buildL_cons]; rfl
          have hpeek : peek_char (skip_whitespace s) = some 'f' :=
            peek_build _ _ _ _ _ _ hrem0 rfl
          have hcs := consume_str_exact ['f', 'a', 'l', 's', 'e']
            (skip_whitespace s) (wt ++ buildL L') hform
          simp only [runP, runT, toksOf_cons, hpeek, hcs]
          exact ⟨rfl, align_state _ _ _ _ 5 hrem0 rfl hL⟩
        | tstr b =>
          have hbody : strBodyOk b = true := htok.1
          have hform : rem (skip_whitespace s) =
              '"' :: b ++ '"' :: (wt ++ buildL L') := by
            rw [hrem0, buildL_cons, tokChars]
            simp [List.append_assoc]
          have hpeek : peek_char (skip_whitespace s) = some '"' :=
            peek_build _ _ _ _ _ _ hrem0 rfl
          have hps := parse_string_exact (skip_whitespace s) b
            (wt ++ buildL L') hbody hform
          simp only [runP, runT, toksOf_cons, hpeek, hps]
          exact ⟨rfl, align_state _ _ _ _ (b.length + 2) hrem0
            (by rw [tokChars]; simp) hL⟩
        | tnum cs =>
          have hok : lexNumOk cs = true := htok.1
          obtain ⟨c0, cs0, hcs0, hc0⟩ := lexNumOk_head cs hok
          have hform : rem (skip_whitespace s) = cs ++ (wt ++ buildL L') := by
            rw [hrem0, buildL_cons, tokChars]
          have hpeek : peek_char (skip_whitespace s) = some c0 :=
            peek_build _ _ _ _ _ _ hrem0 (by rw [tokChars, hcs0])
          have hbd : ∀ c, (wt ++ buildL L').head? = some c → numCont c = false :=
            num_boundary cs wt L' hL
          have hpn := parse_number_exact (skip_whitespace s) cs
            (wt ++ buildL L') hok hform hbd
          have hnall : ¬c0 = 'n' ∧ ¬c0 = 't' ∧ ¬c0 = 'f' ∧ ¬c0 = '"' := by
            rcases hc0 with rfl | hdig
            · exact ⟨by decide, by decide, by decide, by decide⟩
            · obtain ⟨h1, h2, h3, h4, -⟩ := digit_ne c0 hdig
              exact ⟨h1, h2, h3, h4⟩
          have hpos : isDigit c0 = true ∨ c0 = '-' := by
            rcases hc0 with rfl | hdig
            · exact Or.inr rfl
            · exact Or.inl hdig
          simp only [runP, runT, toksOf_cons, hpeek]
          rw [if_neg hnall.1, if_neg hnall.2.1, if_neg hnall.2.2.1,
            if_neg hnall.2.2.2, if_pos hpos, hpn]
          exact ⟨rfl, align_state _ _ _ _ cs.length hrem0 (by rw [tokChars]) hL⟩
        | lbrack =>
          have hpeek : peek_char (skip_whitespace s) = some '[' :=
            peek_build _ _ _ _ _ _ hrem0 rfl
          have hrem1 : rem (advanceBy (skip_whitespace s) 1) =
              wt ++ buildL L' :=
            rem_advance_tok _ _ _ _ 1 hrem0 rfl
          have hrem2 : rem (skip_whitespace (advanceBy (skip_whitespace s) 1)) =
              buildL L' :=
            rem_skip_build _ wt L' hwt hL' hrem1
          simp only [runP, runT, toksOf_cons, hpeek]
          cases L' with
          | nil =>
            have hpeek1 : peek_char
                (skip_whitespace (advanceBy (skip_whitespace s) 1)) = none := by
              rw [peek_eq_head, hrem2]; rfl
            simp only [toksOf_nil, hpeek1]
            exact ih (PReq.arrItems []) _ [] [] wsTok_nil WfL_nil hrem2
              (fun a ha => PReq.noConfusion ha)
          | cons p2 L'' =>
            obtain ⟨t2, w2⟩ := p2
            have htok2 := WfL_head_tokOk hL'
            by_cases hrb : t2 = Tok.rbrack
            · subst hrb
              have hpeek1 : peek_char
                  (skip_whitespace (advanceBy (skip_whitespace s) 1)) =
                    some ']' :=
                peek_build _ _ _ _ _ _ hrem2 rfl
              simp only [toksOf_cons, hpeek1]
              exact ⟨rfl, align_state _ _ _ _ 1 hrem2 rfl hL'⟩
            · obtain ⟨c2, cs2, hc2, -⟩ := tokChars_head t2 htok2.1
              have hpeek1 := peek_build _ _ _ _ _ _ hrem2 hc2
              have hne : ¬c2 = ']' := (head_punct t2 htok2.1 c2 cs2 hc2).1 hrb
              simp only [toksOf_cons, hpeek1]
              rw [if_neg hne, if_neg hrb]
              exact ih (PReq.arrItems []) _ [] ((t2, w2) :: L'') wsTok_nil hL'
                hrem2 (fun a ha => PReq.noConfusion ha)
        | lbrace =>
          have hpeek : peek_char (skip_whitespace s) = some '{' :=
            peek_build _ _ _ _ _ _ hrem0 rfl
          have hrem1 : rem (advanceBy (skip_whitespace s) 1) =
              wt ++ buildL L' :=
            rem_advance_tok _ _ _ _ 1 hrem0 rfl
          have hrem2 : rem (skip_whitespace (advanceBy (skip_whitespace s) 1)) =
              buildL L' :=
            rem_skip_build _ wt L' hwt hL' hrem1
          simp only [runP, runT, toksOf_cons, hpeek]
          cases L' with
          | nil =>
            have hpeek1 : peek_char
                (skip_whitespace (advanceBy (skip_whitespace s) 1)) = none := by
              rw [peek_eq_head, hrem2]; rfl
            simp only [toksOf_nil, hpeek1]
            exact ih (PReq.objItems []) _ [] [] wsTok_nil WfL_nil hrem2
              (fun a ha => rfl)
          | cons p2 L'' =>
            obtain ⟨t2, w2⟩ := p2
            have htok2 := WfL_head_tokOk hL'
            by_cases hrb : t2 = Tok.rbrace
            · subst hrb
              have hpeek1 : peek_char
                  (skip_whitespace (advanceBy (skip_whitespace s) 1)) =
                    some '}' :=
                peek_build _ _ _ _ _ _ hrem2 rfl
              simp only [toksOf_cons, hpeek1]
              exact ⟨rfl, align_state _ _ _ _ 1 hrem2 rfl hL'⟩
            · obtain ⟨c2, cs2, hc2, -⟩ := tokChars_head t2 htok2.1
              have hpeek1 := peek_build _ _ _ _ _ _ hrem2 hc2
              have hne : ¬c2 = '}' := (head_punct t2 htok2.1 c2 cs2 hc2).2.1 hrb
              simp only [toksOf_cons, hpeek1]
              rw [if_neg hne, if_neg hrb]
              exact ih (PReq.objItems []) _ [] ((t2, w2) :: L'') wsTok_nil hL'
                hrem2 (fun a ha => rfl)
        | rbrack =>
          have hpeek : peek_char (skip_whitespace s) = some ']' :=
            peek_build _ _ _ _ _ _ hrem0 rfl
          simp only [runP, runT, toksOf_cons, hpeek]
          exact rfl
        | rbrace =>
          have hpeek : peek_char (skip_whitespace s) = some '}' :=
            peek_build _ _ _ _ _ _ hrem0 rfl
          simp only [runP, runT, toksOf_cons, hpeek]
          exact rfl
        | comma =>
          have hpeek : peek_char (skip_whitespace s) = some ',' :=
            peek_build _ _ _ _ _ _ hrem0 rfl
          simp only [runP, runT, toksOf_cons, hpeek]
          exact rfl
        | colon =>
          have hpeek : peek_char (skip_whitespace s) = some ':' :=
            peek_build _ _ _ _ _ _ hrem0 rfl
          simp only [runP, runT, toksOf_cons, hpeek]
          exact rfl
    | arrItems acc =>
      have hsim := ih PReq.val s w L hw hL hrem (fun a ha => PReq.noConfusion ha)
      rcases simRes_elim hsim with ⟨hr, hrt⟩ | ⟨e, m, hr, hrt, hme⟩ |
        ⟨v, s1, rest1, hr, hrt, hal⟩
      · simp only [runP, runT, hr, hrt]
        exact trivial
      · simp only [runP, runT, hr, hrt]
        exact hme
      · obtain ⟨w1, L1, hw1, hL1, hrem1, hrest1⟩ := hal
        subst hrest1
        have hrem2 : rem (skip_whitespace s1) = buildL L1 :=
          rem_skip_build _ w1 L1 hw1 hL1 hrem1
        simp only [runP, runT, hr, hrt]
        cases L1 with
        | nil =>
          have hpeek : peek_char (skip_whitespace s1) = none := by
            rw [peek_eq_head, hrem2]; rfl
          simp only [toksOf_nil, hpeek]
          exact rfl
        | cons p1 L2 =>
          obtain ⟨t1, w1'⟩ := p1
          have htok1 := WfL_head_tokOk hL1
          have hL2 := WfL_tail hL1
          by_cases hcom : t1 = Tok.comma
          · subst hcom
            have hpeek : peek_char (skip_whitespace s1) = some ',' :=
              peek_build _ _ _ _ _ _ hrem2 rfl
            have hrem3 : rem (advanceBy (skip_whitespace s1) 1) =
                w1' ++ buildL L2 :=
              rem_advance_tok _ _ _ _ 1 hrem2 rfl
            have hrem4 : rem
                (skip_whitespace (advanceBy (skip_whitespace s1) 1)) =
                  buildL L2 :=
              rem_skip_build _ w1' L2 htok1.2 hL2 hrem3
            simp only [toksOf_cons, hpeek]
            cases L2 with
            | nil =>
              have hpeek2 : peek_char
                  (skip_whitespace (advanceBy (skip_whitespace s1) 1)) =
                    none := by
                rw [peek_eq_head, hrem4]; rfl
              simp only [toksOf_nil, hpeek2]
              exact ih (PReq.arrItems (acc ++ [v])) _ [] [] wsTok_nil WfL_nil
                hrem4 (fun a ha => PReq.noConfusion ha)
            | cons p2 L3 =>
              obtain ⟨t2, w2'⟩ := p2
              have htok2 := WfL_head_tokOk hL2
              by_cases hrb : t2 = Tok.rbrack
              · subst hrb
                have hpeek2 : peek_char
                    (skip_whitespace (advanceBy (skip_whitespace s1) 1)) =
                      some ']' :=
                  peek_build _ _ _ _ _ _ hrem4 rfl
                simp only [toksOf_cons, hpeek2]
                exact rfl
              · obtain ⟨c2, cs2, hc2, -⟩ := tokChars_head t2 htok2.1
                have hpeek2 := peek_build _ _ _ _ _ _ hrem4 hc2
                have hne2 : ¬c2 = ']' :=
                  (head_punct t2 htok2.1 c2 cs2 hc2).1 hrb
                simp only [toksOf_cons, hpeek2]
                rw [if_neg hne2, if_neg hrb]
                exact ih (PReq.arrItems (acc ++ [v])) _ [] ((t2, w2') :: L3)
                  wsTok_nil hL2 hrem4 (fun a ha => PReq.noConfusion ha)
          · by_cases hrb1 : t1 = Tok.rbrack
            · subst hrb1
              have hpeek : peek_char (skip_whitespace s1) = some ']' :=
                peek_build _ _ _ _ _ _ hrem2 rfl
              simp only [toksOf_cons, hpeek]
              exact ⟨rfl, align_state _ _ _ _ 1 hrem2 rfl hL1⟩
            · obtain ⟨c1, cs1, hc1, -⟩ := tokChars_head t1 htok1.1
              have hpeek := peek_build _ _ _ _ _ _ hrem2 hc1
              have hp := head_punct t1 htok1.1 c1 cs1 hc1
              have hhd := headOf_eq t1 c1 cs1 hc1
              simp only [toksOf_cons, hpeek, hhd]
              rw [if_neg (hp.2.2.1 hcom), if_neg (hp.1 hrb1), if_neg hcom,
                if_neg hrb1]
              exact rfl
    | objItems acc =>
      have hwnil : w = [] := hobj acc rfl
      subst hwnil
      rw [List.nil_append] at hrem
      cases L with
      | nil =>
        have hpeek : peek_char s = none := by
          rw [peek_eq_head, hrem]; rfl
        simp only [runP, runT, toksOf_nil, hpeek]
        exact rfl
      | cons p L' =>
        obtain ⟨t, wt⟩ := p
        have htok := WfL_head_tokOk hL
        have hL' := WfL_tail hL
        have hwt : wsTok wt = true := htok.2
        cases t with
        | tstr b =>
          have hbody : strBodyOk b = true := htok.1
          have hform : rem s = '"' :: b ++ '"' :: (wt ++ buildL L') := by
            rw [hrem, buildL_cons, tokChars]
            simp [List.append_assoc]
          have hpeek : peek_char s = some '"' :=
            peek_build _ _ _ _ _ _ hrem rfl
          have hps := parse_string_exact s b (wt ++ buildL L') hbody hform
          have hrem1 : rem (advanceBy s (b.length + 2)) = wt ++ buildL L' :=
            rem_advance_tok s _ wt L' (b.length + 2) hrem
              (by rw [tokChars]; simp)
          have hrem2 : rem (skip_whitespace (advanceBy s (b.length + 2))) =
              buildL L' :=
            rem_skip_build _ wt L' hwt hL' hrem1
          simp only [runP, runT, toksOf_cons, hpeek, hps]
          cases L' with
          | nil =>
            have hpeek2 : peek_char
                (skip_whitespace (advanceBy s (b.length + 2))) = none := by
              rw [peek_eq_head, hrem2]; rfl
            simp only [toksOf_nil, hpeek2]
            exact rfl
          | cons p1 L2 =>
            obtain ⟨t1, w1⟩ := p1
            have htok1 := WfL_head_tokOk hL'
            have hL2 := WfL_tail hL'
            by_cases hcol : t1 = Tok.colon
            · subst hcol
              have hpeek2 : peek_char
                  (skip_whitespace (advanceBy s (b.length + 2))) = some ':' :=
                peek_build _ _ _ _ _ _ hrem2 rfl
              have hrem3 : rem (advanceBy
                  (skip_whitespace (advanceBy s (b.length + 2))) 1) =
                    w1 ++ buildL L2 :=
                rem_advance_tok _ _ _ _ 1 hrem2 rfl
              have hsim := ih PReq.val
                (advanceBy (skip_whitespace (advanceBy s (b.length + 2))) 1)
                w1 L2 htok1.2 hL2 hrem3 (fun a ha => PReq.noConfusion ha)
              simp only [toksOf_cons, hpeek2]
              rcases simRes_elim hsim with ⟨hr, hrt⟩ | ⟨e, m, hr, hrt, hme⟩ |
                ⟨v, s3, rest3, hr, hrt, hal⟩
              · simp only [hr, hrt]
                exact trivial
              · simp only [hr, hrt]
                exact hme
              · obtain ⟨w3, L3, hw3, hL3, hrem4, hrest3⟩ := hal
                subst hrest3
                have hrem5 : rem (skip_whitespace s3) = buildL L3 :=
                  rem_skip_build _ w3 L3 hw3 hL3 hrem4
                simp only [hr, hrt]
                cases L3 with
                | nil =>
                  have hpeek3 : peek_char (skip_whitespace s3) = none := by
                    rw [peek_eq_head, hrem5]; rfl
                  simp only [toksOf_nil, hpeek3]
                  exact rfl
                | cons p2 L4 =>
                  obtain ⟨t2, w2⟩ := p2
                  have htok2 := WfL_head_tokOk hL3
                  have hL4 := WfL_tail hL3
                  by_cases hcom : t2 = Tok.comma
                  · subst hcom
                    have hpeek3 : peek_char (skip_whitespace s3) = some ',' :=
                      peek_build _ _ _ _ _ _ hrem5 rfl
                    have hrem6 : rem (advanceBy (skip_whitespace s3) 1) =
                        w2 ++ buildL L4 :=
                      rem_advance_tok _ _ _ _ 1 hrem5 rfl
                    have hrem7 : rem
                        (skip_whitespace (advanceBy (skip_whitespace s3) 1)) =
                          buildL L4 :=
                      rem_skip_build _ w2 L4 htok2.2 hL4 hrem6
                    simp only [toksOf_cons, hpeek3]
                    cases L4 with
                    | nil =>
                      have hpeek4 : peek_char
                          (skip_whitespace (advanceBy (skip_whitespace s3) 1)) =
                            none := by
                        rw [peek_eq_head, hrem7]; rfl
                      simp only [toksOf_nil, hpeek4]
                      exact ih (PReq.objItems (insertKV acc (strDecode b) v)) _
                        [] [] wsTok_nil WfL_nil hrem7 (fun a ha => rfl)
                    | cons p3 L5 =>
                      obtain ⟨t3, w3p⟩ := p3
                      have htok3 := WfL_head_tokOk hL4
                      by_cases hrb : t3 = Tok.rbrace
                      · subst hrb
                        have hpeek4 : peek_char (skip_whitespace
                            (advanceBy (skip_whitespace s3) 1)) = some '}' :=
                          peek_build _ _ _ _ _ _ hrem7 rfl
                        simp only [toksOf_cons, hpeek4]
                        exact rfl
                      · obtain ⟨c3, cs3, hc3, -⟩ := tokChars_head t3 htok3.1
                        have hpeek4 := peek_build _ _ _ _ _ _ hrem7 hc3
                        have hne3 : ¬c3 = '}' :=
                          (head_punct t3 htok3.1 c3 cs3 hc3).2.1 hrb
                        simp only [toksOf_cons, hpeek4]
                        rw [if_neg hne3, if_neg hrb]
                        exact ih (PReq.objItems (insertKV acc (strDecode b) v))
                          _ [] ((t3, w3p) :: L5) wsTok_nil hL4 hrem7
                          (fun a ha => rfl)
                  · by_cases hrb2 : t2 = Tok.rbrace
                    · subst hrb2
                      have hpeek3 : peek_char (skip_whitespace s3) = some '}' :=
                        peek_build _ _ _ _ _ _ hrem5 rfl
                      simp only [toksOf_cons, hpeek3]
                      exact ⟨rfl, align_state _ _ _ _ 1 hrem5 rfl hL3⟩
                    · obtain ⟨c2, cs2, hc2, -⟩ := tokChars_head t2 htok2.1
                      have hpeek3 := peek_build _ _ _ _ _ _ hrem5 hc2
                      have hp := head_punct t2 htok2.1 c2 cs2 hc2
                      have hhd := headOf_eq t2 c2 cs2 hc2
                      simp only [toksOf_cons, hpeek3, hhd]
                      rw [if_neg (hp.2.2.1 hcom), if_neg (hp.2.1 hrb2),
                        if_neg hcom, if_neg hrb2]
                      exact rfl
            · obtain ⟨c1, cs1, hc1, -⟩ := tokChars_head t1 htok1.1
              have hpeek2 := peek_build _ _ _ _ _ _ hrem2 hc1
              have hp := head_punct t1 htok1.1 c1 cs1 hc1
              have hhd := headOf_eq t1 c1 cs1 hc1
              simp only [toksOf_cons, hpeek2, hhd]
              rw [if_neg (hp.2.2.2.1 hcol), if_neg hcol]
              exact rfl
        | tnum ds =>
          obtain ⟨c0, cs0, hds, hc0⟩ := lexNumOk_head ds htok.1
          have hpeek : peek_char s = some c0 :=
            peek_build _ _ _ _ _ _ hrem (by rw [tokChars, hds])
          have hq : ¬c0 = '"' := by
            rcases hc0 with rfl | hdig
            · decide
            · exact (digit_ne c0 hdig).2.2.2.1
          have hhd : headOf (Tok.tnum ds) = c0 :=
            headOf_eq _ _ _ (by rw [tokChars, hds])
          simp only [runP, runT, toksOf_cons, hpeek, hhd]
          rw [if_neg hq]
          exact rfl
        | lbrack =>
          have hpeek : peek_char s = some '[' :=
            peek_build _ _ _ _ _ _ hrem rfl
          simp only [runP, runT, toksOf_cons, hpeek]
          exact rfl
        | rbrack =>
          have hpeek : peek_char s = some ']' :=
            peek_build _ _ _ _ _ _ hrem rfl
          simp only [runP, runT, toksOf_cons, hpeek]
          exact rfl
        | lbrace =>
          have hpeek : peek_char s = some '{' :=
            peek_build _ _ _ _ _ _ hrem rfl
          simp only [runP, runT, toksOf_cons, hpeek]
          exact rfl
        | rbrace =>
          have hpeek : peek_char s = some '}' :=
            peek_build _ _ _ _ _ _ hrem rfl
          simp only [runP, runT, toksOf_cons, hpeek]
          exact rfl
        | comma =>
          have hpeek : peek_char s = some ',' :=
            peek_build _ _ _ _ _ _ hrem rfl
          simp only [runP, runT, toksOf_cons, hpeek]
          exact rfl
        | colon =>
          have hpeek : peek_char s = some ':' :=
            peek_build _ _ _ _ _ _ hrem rfl
          simp only [runP, runT, toksOf_cons, hpeek]
          exact rfl
        | tnull =>
          have hpeek : peek_char s = some 'n' :=
            peek_build _ _ _ _ _ _ hrem rfl
          simp only [runP, runT, toksOf_cons, hpeek]
          exact rfl
        | ttrue =>
          have hpeek : peek_char s = some 't' :=
            peek_build _ _ _ _ _ _ hrem rfl
          simp only [runP, runT, toksOf_cons, hpeek]
          exact rfl
        | tfalse =>
          have hpeek : peek_char s = some 'f' :=
            peek_build _ _ _ _ _ _ hrem rfl
          simp only [runP, runT, toksOf_cons, hpeek]
          exact rfl

/-! ## Decimal rendering of naturals -/

theorem digit_ofNat (r : Nat) (h : r < 10) :
    digitVal (Char.ofNat (48 + r)) = r ∧ isDigit (Char.ofNat (48 + r)) = true ∧
      (r ≠ 0 → ¬Char.ofNat (48 + r) = '0') := by
  interval_cases r <;> refine ⟨by decide, by decide, fun h2 => ?_⟩ <;>
    first
    | exact absurd rfl h2
    | decide

theorem natDigitsAux_zero (fuel : Nat) : natDigitsAux fuel 0 = [] := by
  cases fuel <;> simp [natDigitsAux]

theorem digitsVal_append_one (l : List Char) (c : Char) :
    digitsVal (l ++ [c]) = 10 * digitsVal l + digitVal c := by
  simp [digitsVal, List.foldl_append]

theorem natDigitsAux_spec : ∀ fuel n, n ≤ fuel →
    (∀ c ∈ natDigitsAux fuel n, isDigit c = true) ∧
      digitsVal (natDigitsAux fuel n).reverse = n := by
  intro fuel
  induction fuel with
  | zero =>
    intro n h
    have h0 : n = 0 := by omega
    subst h0
    exact ⟨fun c hc => absurd hc (by simp [natDigitsAux]), rfl⟩
  | succ f ih =>
    intro n h
    by_cases h0 : n = 0
    · subst h0
      rw [natDigitsAux, if_pos rfl]
      exact ⟨fun c hc => absurd hc (by simp), rfl⟩
    · rw [natDigitsAux, if_neg h0]
      have hr : n % 10 < 10 := Nat.mod_lt _ (by norm_num)
      obtain ⟨hd1, hd2, -⟩ := digit_ofNat (n % 10) hr
      have hrec := ih (n / 10) (by omega)
      constructor
      · intro c hc
        rcases List.mem_cons.1 hc with rfl | hc
        · exact hd2
        · exact hrec.1 c hc
      · rw [List.reverse_cons, digitsVal_append_one, hrec.2, hd1]
        omega

theorem natDigitsAux_last : ∀ fuel n, 0 < n → n ≤ fuel →
    ∃ l d, natDigitsAux fuel n = l ++ [d] ∧ isDigit d = true ∧ ¬d = '0' := by
  intro fuel
  induction fuel with
  | zero => intro n h1 h2; omega
  | succ f ih =>
    intro n h1 h2
    rw [natDigitsAux, if_neg (by omega)]
    by_cases h10 : n / 10 = 0
    · rw [h10, natDigitsAux_zero]
      have hr : n % 10 < 10 := Nat.mod_lt _ (by norm_num)
      obtain ⟨-, hd2, hd3⟩ := digit_ofNat (n % 10) hr
      exact ⟨[], Char.ofNat (48 + n % 10), rfl, hd2, hd3 (by omega)⟩
    · obtain ⟨l, d, hl, hd1, hd2⟩ := ih (n / 10) (by omega) (by omega)
      exact ⟨Char.ofNat (48 + n % 10) :: l, d, by rw [hl]; rfl, hd1, hd2⟩

theorem natDigitsAux_len : ∀ fuel n k, n < 10 ^ k →
    (natDigitsAux fuel n).length ≤ k := by
  intro fuel
  induction fuel with
  | zero => intro n k h; simp [natDigitsAux]
  | succ f ih =>
    intro n k h
    by_cases h0 : n = 0
    · subst h0; simp [natDigitsAux]
    · rw [natDigitsAux, if_neg h0]
      cases k with
      | zero =>
        simp only [pow_zero] at h
        omega
      | succ k2 =>
        have hp : (10 : Nat) ^ (k2 + 1) = 10 ^ k2 * 10 := Nat.pow_succ 10 k2
        have hlt : n / 10 < 10 ^ k2 := by omega
        simp only [List.length_cons]
        have := ih (n / 10) k2 hlt
        omega

theorem natToChars_digits (n : Nat) : ∀ c ∈ natToChars n, isDigit c = true := by
  intro c hc
  rw [natToChars] at hc
  by_cases h0 : n = 0
  · rw [if_pos h0] at hc
    simp at hc
    subst hc
    rfl
  · rw [if_neg h0] at hc
    exact (natDigitsAux_spec n n le_rfl).1 c (List.mem_reverse.1 hc)

theorem digitsVal_natToChars (n : Nat) : digitsVal (natToChars n) = n := by
  rw [natToChars]
  by_cases h0 : n = 0
  · rw [if_pos h0, h0]; rfl
  · rw [if_neg h0]
    exact (natDigitsAux_spec n n le_rfl).2

theorem natToChars_shape (n : Nat) :
    natToChars n = ['0'] ∨
      ∃ d l, natToChars n = d :: l ∧ isDigit d = true ∧ ¬d = '0' := by
  by_cases h0 : n = 0
  · left
    rw [natToChars, if_pos h0]
  · right
    obtain ⟨l, d, hl, hd1, hd2⟩ := natDigitsAux_last n n (by omega) le_rfl
    refine ⟨d, l.reverse, ?_, hd1, hd2⟩
    rw [natToChars, if_neg h0, hl, List.reverse_append]
    rfl

theorem natToChars_ne_nil (n : Nat) : ¬natToChars n = [] := by
  rcases natToChars_shape n with h | ⟨d, l, h, -, -⟩ <;> (rw [h]; simp)

theorem natToChars_length_le (k n : Nat) (h : n < 10 ^ k) (hk : 0 < k) :
    (natToChars n).length ≤ k := by
  rw [natToChars]
  by_cases h0 : n = 0
  · rw [if_pos h0]
    simpa using hk
  · rw [if_neg h0, List.length_reverse]
    exact natDigitsAux_len n n k h

/-! ## Soundness of the decimal-denominator search -/

theorem firstDiv_dvd (d : Nat) : ∀ fuel k0 k, firstDiv d fuel k0 = some k →
    d ∣ 10 ^ k := by
  intro fuel
  induction fuel with
  | zero => intro k0 k h; exact Option.noConfusion h
  | succ f ih =>
    intro k0 k h
    rw [firstDiv] at h
    by_cases hm : ((10 : Nat) ^ k0 % d == 0) = true
    · rw [if_pos hm] at h
      obtain rfl := Option.some.inj h
      exact Nat.dvd_of_mod_eq_zero (beq_iff_eq.1 hm)
    · rw [if_neg hm] at h
      exact ih (k0 + 1) k h

/-! ## Digit-string values -/

theorem digitsVal_foldl (l : List Char) : ∀ acc : Nat,
    l.foldl (fun acc c => 10 * acc + digitVal c) acc =
      acc * 10 ^ l.length + digitsVal l := by
  induction l with
  | nil => intro acc; simp [digitsVal]
  | cons c cs ih =>
    intro acc
    rw [List.foldl_cons, ih (10 * acc + digitVal c)]
    have h2 : digitsVal (c :: cs) = digitVal c * 10 ^ cs.length + digitsVal cs := by
      rw [digitsVal, List.foldl_cons, ih (10 * 0 + digitVal c)]
      ring_nf
    rw [h2, List.length_cons]
    ring

theorem digitsVal_append (a b : List Char) :
    digitsVal (a ++ b) = digitsVal a * 10 ^ b.length + digitsVal b := by
  rw [digitsVal, List.foldl_append, digitsVal_foldl]
  rfl

theorem digitsVal_replicate (m : Nat) :
    digitsVal (List.replicate m '0') = 0 := by
  induction m with
  | zero => rfl
  | succ m ih => simpa [digitsVal, List.replicate_succ, digitVal] using ih

/-! ## Exact evaluation of the decimal model -/

theorem decRat_mkRat (m : ℤ) (k : Nat) :
    decRat m (0 - (k : ℤ)) = mkRat m ((10 : ℕ) ^ k) := by
  rw [decRat]
  by_cases hk : (0 : ℤ) ≤ 0 - (k : ℤ)
  · have hk0 : k = 0 := by omega
    subst hk0
    rw [if_pos hk]
    norm_num
  · rw [if_neg hk]
    have he : (-(0 - (k : ℤ))).toNat = k := by omega
    rw [he]

theorem mkRat_eq_self (q : ℚ) (m : ℤ) (k : Nat)
    (hm : m * (q.den : ℤ) = q.num * 10 ^ k) : mkRat m ((10 : ℕ) ^ k) = q := by
  have hd : ((q.den : ℚ)) ≠ 0 := by
    exact_mod_cast Rat.den_ne_zero q
  have h2 : (((10 : ℕ) ^ k : ℕ) : ℚ) ≠ 0 := by
    push_cast
    positivity
  rw [Rat.mkRat_eq_div]
  conv_rhs => rw [← Rat.num_div_den q]
  rw [div_eq_div_iff h2 hd]
  exact_mod_cast hm

/-! ## Lexing and evaluating a rendered decimal string -/

theorem ratNumFracPhase_nil (neg : Bool) (I : List Char) :
    ratNumFracPhase neg I [] = some (ratNumFin neg I [] 0) := rfl

theorem ratNumFracPhase_dot (neg : Bool) (I F : List Char) (hF : ¬F = [])
    (hFdig : ∀ c ∈ F, isDigit c = true) :
    ratNumFracPhase neg I ('.' :: F) = some (ratNumFin neg I F 0) := by
  rw [ratNumFracPhase]
  rw [if_pos rfl, takeWhile_all _ _ hFdig]
  cases F with
  | nil => exact absurd rfl hF
  | cons c cs =>
    rw [if_neg (by simp), List.drop_length]
    rfl

theorem lexNumFrac_nil : lexNumFrac [] = true := rfl

theorem lexNumFrac_dot (F : List Char) (hF : ¬F = [])
    (hFdig : ∀ c ∈ F, isDigit c = true) :
    lexNumFrac ('.' :: F) = true := by
  rw [lexNumFrac]
  rw [if_pos rfl, takeWhile_all _ _ hFdig]
  simp only [List.drop_length]
  cases F with
  | nil => exact absurd rfl hF
  | cons c cs =>
    simp only [List.isEmpty_cons, Bool.not_false, Bool.true_and]
    rfl

theorem ratOfNumStr_strip (I fp : List Char) (hInil : ¬I = [])
    (hIdig : ∀ c ∈ I, isDigit c = true)
    (hfp : ∀ c, fp.head? = some c → isDigit c = false) :
    ratOfNumStr (I ++ fp) = ratNumFracPhase false I fp ∧
      ratOfNumStr ('-' :: (I ++ fp)) = ratNumFracPhase true I fp := by
  cases I with
  | nil => exact absurd rfl hInil
  | cons c I' =>
    have hcd : isDigit c = true := hIdig c (by simp)
    have hcm : ¬c = '-' := (digit_ne c hcd).2.2.2.2.2.2.2.2.1
    have htw : ((c :: I') ++ fp).takeWhile isDigit = c :: I' :=
      takeWhile_boundary isDigit (c :: I') fp hIdig hfp
    constructor
    · rw [ratOfNumStr.eq_def]
      simp only [List.cons_append]
      rw [if_neg hcm]
      simp only [← List.cons_append, htw, List.drop_left,
        List.isEmpty_cons]
      rw [if_neg Bool.false_ne_true]
    · rw [ratOfNumStr.eq_def]
      simp only []
      rw [if_pos trivial]
      simp only [htw, List.drop_left, List.isEmpty_cons]
      rw [if_neg Bool.false_ne_true]

theorem lexNumOk_strip (I fp : List Char)
    (hI : I = ['0'] ∨ ∃ d l, I = d :: l ∧ isDigit d = true ∧ ¬d = '0')
    (hIdig : ∀ c ∈ I, isDigit c = true)
    (hfp : ∀ c, fp.head? = some c → isDigit c = false) :
    lexNumOk (I ++ fp) = lexNumFrac fp ∧
      lexNumOk ('-' :: (I ++ fp)) = lexNumFrac fp := by
  rcases hI with rfl | ⟨d, l, rfl, hd1, hd2⟩
  · constructor
    · rw [lexNumOk.eq_def]
      simp only [List.cons_append, List.nil_append]
      rw [if_neg (by decide)]
      rfl
    · rw [lexNumOk.eq_def]
      simp only [List.cons_append, List.nil_append]
      rw [if_pos trivial]
      rfl
  · have hdm : ¬d = '-' := (digit_ne d hd1).2.2.2.2.2.2.2.2.1
    have htw : ((d :: l) ++ fp).takeWhile isDigit = d :: l :=
      takeWhile_boundary isDigit (d :: l) fp hIdig hfp
    constructor
    · rw [lexNumOk.eq_def]
      simp only [List.cons_append]
      rw [if_neg hdm]
      simp only []
      rw [if_neg hd2]
      simp only [← List.cons_append, htw, List.drop_left]
      rw [hd1, Bool.true_and]
    · rw [lexNumOk.eq_def]
      simp only []
      rw [if_pos trivial]
      simp only [List.cons_append]
      rw [if_neg hd2]
      simp only [← List.cons_append, htw, List.drop_left]
      rw [hd1, Bool.true_and]

theorem ratNumFin_eq_pos (q : ℚ) (I F : List Char) (hq : 0 ≤ q.num)
    (hv : digitsVal (I ++ F) * q.den = q.num.natAbs * 10 ^ F.length) :
    ratNumFin false I F 0 = q := by
  rw [ratNumFin, if_neg Bool.false_ne_true, decRat_mkRat]
  apply mkRat_eq_self
  have hcast : (digitsVal (I ++ F) : ℤ) * (q.den : ℤ) =
      (q.num.natAbs : ℤ) * 10 ^ F.length := by
    exact_mod_cast hv
  rw [Int.natAbs_of_nonneg hq] at hcast
  exact hcast

theorem ratNumFin_eq_neg (q : ℚ) (I F : List Char) (hq : q.num < 0)
    (hv : digitsVal (I ++ F) * q.den = q.num.natAbs * 10 ^ F.length) :
    ratNumFin true I F 0 = q := by
  rw [ratNumFin, if_pos rfl, decRat_mkRat]
  apply mkRat_eq_self
  have hcast : (digitsVal (I ++ F) : ℤ) * (q.den : ℤ) =
      (q.num.natAbs : ℤ) * 10 ^ F.length := by
    exact_mod_cast hv
  have habs : (q.num.natAbs : ℤ) = -q.num := by omega
  rw [habs] at hcast
  calc -(digitsVal (I ++ F) : ℤ) * q.den
      = -((digitsVal (I ++ F) : ℤ) * q.den) := by ring
    _ = -(-q.num * 10 ^ F.length) := by rw [hcast]
    _ = q.num * 10 ^ F.length := by ring

/-- The decimal rendering of a finitely-representable rational lexes as
a number token and evaluates back to the same rational. -/
theorem renderNum_val (q : ℚ) (h : decimalExact q = true) :
    lexNumOk (renderNum q) = true ∧ ratOfNumStr (renderNum q) = some q := by
  rw [decimalExact] at h
  obtain ⟨k, hk⟩ := Option.isSome_iff_exists.1 h
  have hdvd : q.den ∣ 10 ^ k := firstDiv_dvd q.den kMax 0 k hk
  rw [renderNum.eq_def, hk]
  simp only []
  set n := q.num.natAbs * 10 ^ k / q.den with hndef
  have hn : n * q.den = q.num.natAbs * 10 ^ k :=
    Nat.div_mul_cancel (hdvd.mul_left _)
  by_cases hk0 : k = 0
  · subst hk0
    rw [if_pos rfl]
    have hI := natToChars_shape n
    have hIdig := natToChars_digits n
    have hInil := natToChars_ne_nil n
    have happ : natToChars n = natToChars n ++ [] := by simp
    have hv : digitsVal (natToChars n ++ []) * q.den =
        q.num.natAbs * 10 ^ ([] : List Char).length := by
      rw [List.append_nil, digitsVal_natToChars]
      simpa using hn
    by_cases hq : q.num < 0
    · rw [if_pos hq, List.singleton_append]
      constructor
      · rw [happ,
          (lexNumOk_strip _ [] hI hIdig (fun c hc => Option.noConfusion hc)).2]
        exact lexNumFrac_nil
      · rw [happ,
          (ratOfNumStr_strip _ [] hInil hIdig
            (fun c hc => Option.noConfusion hc)).2,
          ratNumFracPhase_nil]
        exact congrArg some (ratNumFin_eq_neg q _ [] hq hv)
    · rw [if_neg hq, List.nil_append]
      constructor
      · rw [happ,
          (lexNumOk_strip _ [] hI hIdig (fun c hc => Option.noConfusion hc)).1]
        exact lexNumFrac_nil
      · rw [happ,
          (ratOfNumStr_strip _ [] hInil hIdig
            (fun c hc => Option.noConfusion hc)).1,
          ratNumFracPhase_nil]
        exact congrArg some (ratNumFin_eq_pos q _ [] (by omega) hv)
  · rw [if_neg hk0]
    have hkpos : 0 < k := Nat.pos_of_ne_zero hk0
    set fs := natToChars (n % 10 ^ k) with hfsdef
    set F := List.replicate (k - fs.length) '0' ++ fs with hFdef
    have hfslen : fs.length ≤ k := by
      rw [hfsdef]
      exact natToChars_length_le k (n % 10 ^ k)
        (Nat.mod_lt _ (by positivity)) hkpos
    have hFlen : F.length = k := by
      rw [hFdef, List.length_append, List.length_replicate]
      omega
    have hFdig : ∀ c ∈ F, isDigit c = true := by
      intro c hc
      rw [hFdef] at hc
      rcases List.mem_append.1 hc with hc | hc
      · rw [List.eq_of_mem_replicate hc]
        rfl
      · rw [hfsdef] at hc
        exact natToChars_digits _ c hc
    have hFnil : ¬F = [] := by
      intro h0
      rw [h0] at hFlen
      simp at hFlen
      omega
    have hIdig := natToChars_digits (n / 10 ^ k)
    have hI := natToChars_shape (n / 10 ^ k)
    have hInil := natToChars_ne_nil (n / 10 ^ k)
    have hfp : ∀ c, ('.' :: F).head? = some c → isDigit c = false := by
      intro c hc
      obtain rfl := Option.some.inj hc
      rfl
    have hv : digitsVal (natToChars (n / 10 ^ k) ++ F) * q.den =
        q.num.natAbs * 10 ^ F.length := by
      rw [digitsVal_append, digitsVal_natToChars, hFlen]
      rw [hFdef, digitsVal_append, digitsVal_replicate, hfsdef,
        digitsVal_natToChars]
      have hsum : n / 10 ^ k * 10 ^ k +
          (0 * 10 ^ (natToChars (n % 10 ^ k)).length + n % 10 ^ k) = n := by
        have h1 := Nat.div_add_mod n (10 ^ k)
        have h2 : n / 10 ^ k * 10 ^ k = 10 ^ k * (n / 10 ^ k) :=
          Nat.mul_comm _ _
        simp only [Nat.zero_mul, Nat.zero_add]
        omega
      rw [hsum]
      exact hn
    by_cases hq : q.num < 0
    · rw [if_pos hq, List.singleton_append, List.cons_append]
      constructor
      · rw [(lexNumOk_strip _ _ hI hIdig hfp).2]
        exact lexNumFrac_dot F hFnil hFdig
      · rw [(ratOfNumStr_strip _ _ hInil hIdig hfp).2,
          ratNumFracPhase_dot _ _ _ hFnil hFdig]
        exact congrArg some (ratNumFin_eq_neg q _ F hq hv)
    · rw [if_neg hq, List.nil_append]
      constructor
      · rw [(lexNumOk_strip _ _ hI hIdig hfp).1]
        exact lexNumFrac_dot F hFnil hFdig
      · rw [(ratOfNumStr_strip _ _ hInil hIdig hfp).1,
          ratNumFracPhase_dot _ _ _ hFnil hFdig]
        exact congrArg some (ratNumFin_eq_pos q _ F (by omega) hv)

/-- The rendered number token evaluates to the rendered rational. -/
theorem tokNumVal_renderNum (q : ℚ) (h : decimalExact q = true) :
    tokNumVal (renderNum q) = q := by
  rw [tokNumVal, (renderNum_val q h).2]
  rfl

/-! ## The escaping round trip -/

theorem escapeStr_cons (c : Char) (s : List Char) :
    escapeStr (c :: s) = escapeChar c ++ escapeStr s := rfl

/-- The serializer escaping of any string is a well-formed string-literal
body that decodes back to that string. -/
theorem escapeStr_ok (s : List Char) :
    strBodyOk (escapeStr s) = true ∧ strDecode (escapeStr s) = s := by
  induction s with
  | nil => exact ⟨rfl, rfl⟩
  | cons c cs ih =>
    rw [escapeStr_cons, escapeChar]
    by_cases h1 : c = '"'
    · subst h1
      rw [if_pos rfl]
      simp only [List.cons_append, List.nil_append, strBodyOk_cons,
        strDecode_cons]
      exact ⟨by simp [escMap, ih.1], by simp [escMap, ih.2]⟩
    · rw [if_neg h1]
      by_cases h2 : c = '\\'
      · subst h2
        rw [if_pos rfl]
        simp only [List.cons_append, List.nil_append, strBodyOk_cons,
          strDecode_cons]
        exact ⟨by simp [escMap, ih.1], by simp [escMap, ih.2]⟩
      · rw [if_neg h2]
        by_cases h3 : c = '\n'
        · subst h3
          rw [if_pos rfl]
          simp only [List.cons_append, List.nil_append, strBodyOk_cons,
            strDecode_cons]
          exact ⟨by simp [escMap, ih.1], by simp [escMap, ih.2]⟩
        · rw [if_neg h3]
          by_cases h4 : c = '\r'
          · subst h4
            rw [if_pos rfl]
            simp only [List.cons_append, List.nil_append, strBodyOk_cons,
              strDecode_cons]
            exact ⟨by simp [escMap, ih.1], by simp [escMap, ih.2]⟩
          · rw [if_neg h4]
            by_cases h5 : c = '\t'
            · subst h5
              rw [if_pos rfl]
              simp only [List.cons_append, List.nil_append, strBodyOk_cons,
                strDecode_cons]
              exact ⟨by simp [escMap, ih.1], by simp [escMap, ih.2]⟩
            · rw [if_neg h5]
              by_cases h6 : c = Char.ofNat 8
              · subst h6
                rw [if_pos rfl]
                simp only [List.cons_append, List.nil_append, strBodyOk_cons,
                  strDecode_cons]
                exact ⟨by simp [escMap, ih.1], by simp [escMap, ih.2]⟩
              · rw [if_neg h6]
                by_cases h7 : c = Char.ofNat 12
                · subst h7
                  rw [if_pos rfl]
                  simp only [List.cons_append, List.nil_append, strBodyOk_cons,
                    strDecode_cons]
                  exact ⟨by simp [escMap, ih.1], by simp [escMap, ih.2]⟩
                · rw [if_neg h7]
                  simp only [List.cons_append, List.nil_append, strBodyOk_cons,
                    strDecode_cons]
                  refine ⟨?_, ?_⟩
                  · rw [if_neg h1, if_neg h2]
                    exact ih.1
                  · rw [if_neg h1, if_neg h2, ih.2]

/-- A safe key (no quote, no backslash) is its own well-formed
string-literal body and decodes to itself. -/
theorem safeKey_ok (k : List Char) (h : safeKey k = true) :
    strBodyOk k = true ∧ strDecode k = k := by
  induction k with
  | nil => exact ⟨rfl, rfl⟩
  | cons c cs ih =>
    have hc : ¬c = '"' ∧ ¬c = '\\' := by
      have := (List.all_eq_true.1 h) c (by simp)
      simp only [Bool.not_eq_true', Bool.or_eq_false_iff,
        decide_eq_false_iff_not] at this
      exact this
    have hcs : safeKey cs = true := by
      refine List.all_eq_true.2 ?_
      intro x hx
      exact (List.all_eq_true.1 h) x (by simp [hx])
    obtain ⟨ih1, ih2⟩ := ih hcs
    rw [strBodyOk_cons, strDecode_cons, if_neg hc.1, if_neg hc.2,
      if_neg hc.1, if_neg hc.2]
    exact ⟨ih1, by rw [ih2]⟩

/-! ## Objects as association lists -/

theorem RenderableEntries_mem (ps : List (List Char × JsonValue))
    (h : RenderableEntries ps = true) :
    ∀ p ∈ ps, safeKey p.1 = true ∧ Renderable p.2 = true := by
  induction ps with
  | nil => intro p hp; exact absurd hp (List.not_mem_nil p)
  | cons q ps ih =>
    intro p hp
    obtain ⟨k, v⟩ := q
    rw [RenderableEntries] at h
    simp only [Bool.and_eq_true] at h
    rcases List.mem_cons.1 hp with rfl | hp
    · exact ⟨h.1.1, h.1.2⟩
    · exact ih h.2 p hp

theorem insertKV_notMem (acc : List (List Char × JsonValue)) (k : List Char)
    (v : JsonValue) (h : ¬k ∈ keysOf acc) : insertKV acc k v = acc ++ [(k, v)] := by
  induction acc with
  | nil => rfl
  | cons p rest ih =>
    obtain ⟨k2, v2⟩ := p
    have hmem : ¬(k = k2 ∨ k ∈ keysOf rest) := by
      intro h2
      apply h
      simp only [keysOf, List.map_cons, List.mem_cons]
      rcases h2 with h2 | h2
      · exact Or.inl h2
      · exact Or.inr (by simpa [keysOf] using h2)
    rw [insertKV, if_neg (fun hh => hmem (Or.inl hh.symm)),
      ih (fun hh => hmem (Or.inr hh))]
    rfl

theorem foldl_insert_eq (ps : List (List Char × JsonValue)) :
    ∀ acc, (∀ k ∈ keysOf ps, ¬k ∈ keysOf acc) → (keysOf ps).Nodup →
    (∀ p ∈ ps, strDecode p.1 = p.1) →
    ps.foldl (fun m p => insertKV m (strDecode p.1) p.2) acc = acc ++ ps := by
  induction ps with
  | nil => intro acc _ _ _; simp
  | cons p ps ih =>
    intro acc hdisj hnd hdec
    obtain ⟨k, v⟩ := p
    rw [List.foldl_cons]
    have hdk : strDecode (k, v).1 = k := hdec (k, v) (by simp)
    have hkn : ¬k ∈ keysOf acc := hdisj k (by simp [keysOf])
    have hknd : ¬k ∈ keysOf ps := by
      have := hnd
      simp only [keysOf, List.map_cons, List.nodup_cons] at this
      simpa [keysOf] using this.1
    rw [show insertKV acc (strDecode (k, v).1) (k, v).2 = acc ++ [(k, v)] by
      rw [hdk]; exact insertKV_notMem acc k v hkn]
    rw [ih (acc ++ [(k, v)]) ?_ ?_ ?_]
    · simp
    · intro k2 hk2
      have hk2ps : k2 ∈ keysOf ps := hk2
      have h1 : ¬k2 ∈ keysOf acc := hdisj k2 (by simp [keysOf]; right; simpa [keysOf] using hk2)
      have h2 : ¬k2 = k := by
        intro hh
        subst hh
        exact hknd hk2ps
      intro hc
      simp only [keysOf, List.map_append, List.map_cons, List.map_nil,
        List.mem_append, List.mem_singleton] at hc
      rcases hc with hc | hc
      · exact h1 (by simpa [keysOf] using hc)
      · exact h2 hc
    · have := hnd
      simp only [keysOf, List.map_cons, List.nodup_cons] at this
      simpa [keysOf] using this.2
    · intro p hp
      exact hdec p (by simp [hp])

theorem toksOf_append (a b : List (Tok × List Char)) :
    toksOf (a ++ b) = toksOf a ++ toksOf b := List.map_append _ _ _

/-! ## Shapes of rendered token streams -/

theorem renderToks_head (v : JsonValue) :
    ∃ t w r, renderToks v = (t, w) :: r ∧ ¬t = Tok.rbrack ∧ ¬t = Tok.rbrace ∧
      ¬t = Tok.comma ∧ ¬t = Tok.colon := by
  cases v with
  | null =>
    exact ⟨.tnull, [], [], rfl, by decide, by decide, by decide, by decide⟩
  | boolean b =>
    cases b
    · exact ⟨.tfalse, [], [], rfl, by decide, by decide, by decide, by decide⟩
    · exact ⟨.ttrue, [], [], rfl, by decide, by decide, by decide, by decide⟩
  | number q =>
    exact ⟨.tnum (renderNum q), [], [], rfl, nofun, nofun, nofun, nofun⟩
  | string s =>
    exact ⟨.tstr (escapeStr s), [], [], rfl, nofun, nofun, nofun, nofun⟩
  | array items =>
    refine ⟨.lbrack, [], renderToksItems items ++ [(.rbrack, [])], ?_,
      by decide, by decide, by decide, by decide⟩
    simp [renderToks]
  | object entries =>
    refine ⟨.lbrace, [], renderToksEntries entries ++ [(.rbrace, [])], ?_,
      by decide, by decide, by decide, by decide⟩
    simp [renderToks]

theorem renderToksItems_shape (v0 : JsonValue) (vs : List JsonValue) :
    ∃ tl, renderToksItems (v0 :: vs) = renderToks v0 ++ tl := by
  cases vs with
  | nil => exact ⟨[], by simp [renderToksItems]⟩
  | cons v1 vs2 => exact ⟨(Tok.comma, [' ']) :: renderToksItems (v1 :: vs2), rfl⟩

theorem renderToksEntries_shape (k : List Char) (v : JsonValue)
    (ps : List (List Char × JsonValue)) :
    ∃ tl, renderToksEntries ((k, v) :: ps) =
      (Tok.tstr k, ([] : List Char)) :: (Tok.colon, [' ']) ::
        (renderToks v ++ tl) := by
  cases ps with
  | nil => exact ⟨[], by simp [renderToksEntries]⟩
  | cons p1 ps2 =>
    exact ⟨(Tok.comma, [' ']) :: renderToksEntries (p1 :: ps2), rfl⟩

/-! ## The token-level parser accepts every rendered value -/

theorem runT_render_all : ∀ n : Nat,
    (∀ v : JsonValue, sizeOf v ≤ n → Renderable v = true →
      ∀ rest : List Tok, ∃ f, runT f PReq.val (toksOf (renderToks v) ++ rest) =
        some (.ok (v, rest))) ∧
    (∀ items : List JsonValue, sizeOf items ≤ n →
      RenderableItems items = true → ¬items = [] →
      ∀ (acc : List JsonValue) (rest : List Tok), ∃ f,
        runT f (PReq.arrItems acc)
            (toksOf (renderToksItems items) ++ (Tok.rbrack :: rest)) =
          some (.ok (.array (acc ++ items), rest))) ∧
    (∀ ps : List (List Char × JsonValue), sizeOf ps ≤ n →
      (∀ p ∈ ps, Renderable p.2 = true) → ¬ps = [] →
      ∀ (acc : List (List Char × JsonValue)) (rest : List Tok), ∃ f,
        runT f (PReq.objItems acc)
            (toksOf (renderToksEntries ps) ++ (Tok.rbrace :: rest)) =
          some (.ok (.object
            (ps.foldl (fun m p => insertKV m (strDecode p.1) p.2) acc),
            rest))) := by
  intro n
  induction n with
  | zero =>
    refine ⟨?_, ?_, ?_⟩
    · intro v hv
      exact absurd hv (by cases v <;> simp)
    · intro items hi
      exact absurd hi (by cases items <;> simp)
    · intro ps hp
      exact absurd hp (by cases ps <;> simp)
  | succ n ihn =>
    obtain ⟨ih1, ih2, ih3⟩ := ihn
    refine ⟨?_, ?_, ?_⟩
    · intro v hsz hr rest
      cases v with
      | null => exact ⟨1, rfl⟩
      | boolean b => cases b <;> exact ⟨1, rfl⟩
      | number q =>
        refine ⟨1, ?_⟩
        have hq : tokNumVal (renderNum q) = q :=
          tokNumVal_renderNum q (by simpa [Renderable] using hr)
        simp [runT, toksOf, renderToks, hq]
      | string s =>
        refine ⟨1, ?_⟩
        simp [runT, toksOf, renderToks, (escapeStr_ok s).2]
      | array items =>
        cases items with
        | nil =>
          exact ⟨1, by simp [runT, toksOf, renderToks, renderToksItems]⟩
        | cons v0 vs =>
          have hsz2 : sizeOf (v0 :: vs) ≤ n := by
            have hs : sizeOf (JsonValue.array (v0 :: vs)) =
                1 + sizeOf (v0 :: vs) := by simp
            omega
          have hri : RenderableItems (v0 :: vs) = true := by
            simpa [Renderable] using hr
          obtain ⟨f2, hf2⟩ := ih2 (v0 :: vs) hsz2 hri (nofun) [] rest
          refine ⟨f2 + 1, ?_⟩
          have hshape : toksOf (renderToks (JsonValue.array (v0 :: vs))) ++
              rest = Tok.lbrack :: (toksOf (renderToksItems (v0 :: vs)) ++
                (Tok.rbrack :: rest)) := by
            simp [renderToks, toksOf, List.map_append]
          rw [hshape]
          obtain ⟨t0, w0, r0, hv0, hne1, -, -, -⟩ := renderToks_head v0
          obtain ⟨tl, htl⟩ := renderToksItems_shape v0 vs
          have hL : toksOf (renderToksItems (v0 :: vs)) ++
              (Tok.rbrack :: rest) =
                t0 :: (toksOf r0 ++ toksOf tl ++ (Tok.rbrack :: rest)) := by
            rw [htl, hv0]
            simp [toksOf, List.map_append]
          rw [hL] at hf2 ⊢
          simp only [runT]
          rw [if_neg hne1]
          exact hf2
      | object entries =>
        cases entries with
        | nil =>
          exact ⟨1, by simp [runT, toksOf, renderToks, renderToksEntries]⟩
        | cons p0 ps =>
          have hsz2 : sizeOf (p0 :: ps) ≤ n := by
            have hs : sizeOf (JsonValue.object (p0 :: ps)) =
                1 + sizeOf (p0 :: ps) := by simp
            omega
          have hre : RenderableEntries (p0 :: ps) = true ∧
              (keysOf (p0 :: ps)).Nodup := by
            rw [Renderable] at hr
            simpa [Bool.and_eq_true, decide_eq_true_eq] using hr
          have hrv : ∀ p ∈ p0 :: ps, Renderable p.2 = true :=
            fun p hp => (RenderableEntries_mem _ hre.1 p hp).2
          obtain ⟨f2, hf2⟩ := ih3 (p0 :: ps) hsz2 hrv (nofun) [] rest
          rw [foldl_insert_eq (p0 :: ps) []
            (fun k _ hk => by simp [keysOf] at hk) hre.2
            (fun p hp => (safeKey_ok p.1
              (RenderableEntries_mem _ hre.1 p hp).1).2)] at hf2
          rw [List.nil_append] at hf2
          refine ⟨f2 + 1, ?_⟩
          have hshape : toksOf (renderToks (JsonValue.object (p0 :: ps))) ++
              rest = Tok.lbrace :: (toksOf (renderToksEntries (p0 :: ps)) ++
                (Tok.rbrace :: rest)) := by
            simp [renderToks, toksOf, List.map_append]
          rw [hshape]
          obtain ⟨k0, v0⟩ := p0
          obtain ⟨tl, htl⟩ := renderToksEntries_shape k0 v0 ps
          have hL : toksOf (renderToksEntries ((k0, v0) :: ps)) ++
              (Tok.rbrace :: rest) =
                Tok.tstr k0 :: (Tok.colon :: toksOf (renderToks v0 ++ tl) ++
                  (Tok.rbrace :: rest)) := by
            rw [htl]
            simp [toksOf]
          rw [hL] at hf2 ⊢
          simp only [runT]
          rw [if_neg (nofun : ¬Tok.tstr k0 = Tok.rbrace)]
          exact hf2
    · intro items hsz hri hne acc rest
      cases items with
      | nil => exact absurd rfl hne
      | cons v0 vs =>
        have hv0r : Renderable v0 = true ∧ RenderableItems vs = true := by
          rw [RenderableItems] at hri
          simpa [Bool.and_eq_true] using hri
        have hszv : sizeOf v0 ≤ n := by
          have hs : sizeOf (v0 :: vs) = 1 + sizeOf v0 + sizeOf vs := by simp
          omega
        cases vs with
        | nil =>
          obtain ⟨f1, hf1⟩ := ih1 v0 hszv hv0r.1 (Tok.rbrack :: rest)
          refine ⟨f1 + 1, ?_⟩
          have hshape : toksOf (renderToksItems [v0]) ++ (Tok.rbrack :: rest) =
              toksOf (renderToks v0) ++ (Tok.rbrack :: rest) := by
            simp [renderToksItems]
          rw [hshape]
          simp only [runT]
          rw [hf1]
          rfl
        | cons v1 vs2 =>
          have hszvs : sizeOf (v1 :: vs2) ≤ n := by
            have hs : sizeOf (v0 :: v1 :: vs2) =
                1 + sizeOf v0 + sizeOf (v1 :: vs2) := by simp
            omega
          obtain ⟨f1, hf1⟩ := ih1 v0 hszv hv0r.1
            (Tok.comma :: (toksOf (renderToksItems (v1 :: vs2)) ++
              (Tok.rbrack :: rest)))
          obtain ⟨f2, hf2⟩ := ih2 (v1 :: vs2) hszvs hv0r.2 (nofun)
            (acc ++ [v0]) rest
          refine ⟨max f1 f2 + 1, ?_⟩
          have hshape : toksOf (renderToksItems (v0 :: v1 :: vs2)) ++
              (Tok.rbrack :: rest) = toksOf (renderToks v0) ++
                (Tok.comma :: (toksOf (renderToksItems (v1 :: vs2)) ++
                  (Tok.rbrack :: rest))) := by
            simp [renderToksItems, toksOf, List.map_append]
          rw [hshape]
          simp only [runT]
          rw [runT_mono f1 _ _ _ hf1 (max f1 f2) (le_max_left _ _)]
          simp only []
          obtain ⟨t0, w0, r0, hv1h, hne1, -, -, -⟩ := renderToks_head v1
          obtain ⟨tl, htl⟩ := renderToksItems_shape v1 vs2
          have hL : toksOf (renderToksItems (v1 :: vs2)) ++
              (Tok.rbrack :: rest) =
                t0 :: (toksOf r0 ++ toksOf tl ++ (Tok.rbrack :: rest)) := by
            rw [htl, hv1h]
            simp [toksOf, List.map_append]
          rw [hL] at hf2 ⊢
          rw [if_pos trivial]
          simp only []
          rw [if_neg hne1]
          have hacc : (acc ++ [v0]) ++ (v1 :: vs2) = acc ++ (v0 :: v1 :: vs2) := by
            simp
          rw [hacc] at hf2
          exact runT_mono f2 _ _ _ hf2 (max f1 f2) (le_max_right _ _)
    · intro ps hsz hrv hne acc rest
      cases ps with
      | nil => exact absurd rfl hne
      | cons p0 ps2 =>
        obtain ⟨k0, v0⟩ := p0
        have hszv : sizeOf v0 ≤ n := by
          have hs1 : sizeOf ((k0, v0) :: ps2) =
              1 + sizeOf (k0, v0) + sizeOf ps2 := by simp
          have hs2 : sizeOf (k0, v0) = 1 + sizeOf k0 + sizeOf v0 := by simp
          omega
        have hv0r : Renderable v0 = true := hrv (k0, v0) (by simp)
        cases ps2 with
        | nil =>
          obtain ⟨f1, hf1⟩ := ih1 v0 hszv hv0r (Tok.rbrace :: rest)
          refine ⟨f1 + 1, ?_⟩
          have hshape : toksOf (renderToksEntries [(k0, v0)]) ++
              (Tok.rbrace :: rest) = Tok.tstr k0 :: Tok.colon ::
                (toksOf (renderToks v0) ++ (Tok.rbrace :: rest)) := by
            simp [renderToksEntries, toksOf]
          rw [hshape]
          simp only [runT]
          rw [hf1]
          rfl
        | cons p1 ps3 =>
          have hsz3 : sizeOf (p1 :: ps3) ≤ n := by
            have hs1 : sizeOf ((k0, v0) :: p1 :: ps3) =
                1 + sizeOf (k0, v0) + sizeOf (p1 :: ps3) := by simp
            omega
          obtain ⟨f1, hf1⟩ := ih1 v0 hszv hv0r
            (Tok.comma :: (toksOf (renderToksEntries (p1 :: ps3)) ++
              (Tok.rbrace :: rest)))
          obtain ⟨f2, hf2⟩ := ih3 (p1 :: ps3) hsz3
            (fun p hp => hrv p (by simp [hp])) (nofun)
            (insertKV acc (strDecode k0) v0) rest
          refine ⟨max f1 f2 + 1, ?_⟩
          have hshape : toksOf (renderToksEntries ((k0, v0) :: p1 :: ps3)) ++
              (Tok.rbrace :: rest) = Tok.tstr k0 :: Tok.colon ::
                (toksOf (renderToks v0) ++
                  (Tok.comma :: (toksOf (renderToksEntries (p1 :: ps3)) ++
                    (Tok.rbrace :: rest)))) := by
            simp [renderToksEntries, toksOf, List.map_append]
          rw [hshape]
          simp only [runT]
          rw [runT_mono f1 _ _ _ hf1 (max f1 f2) (le_max_left _ _)]
          simp only []
          obtain ⟨k1, v1⟩ := p1
          obtain ⟨tl, htl⟩ := renderToksEntries_shape k1 v1 ps3
          have hL : toksOf (renderToksEntries ((k1, v1) :: ps3)) ++
              (Tok.rbrace :: rest) = Tok.tstr k1 ::
                (Tok.colon :: toksOf (renderToks v1 ++ tl) ++
                  (Tok.rbrace :: rest)) := by
            rw [htl]
            simp [toksOf]
          rw [hL] at hf2 ⊢
          rw [if_pos trivial]
          simp only []
          rw [if_neg (nofun : ¬Tok.tstr k1 = Tok.rbrace)]
          exact runT_mono f2 _ _ _ hf2 (max f1 f2) (le_max_right _ _)

/-! ## Well-formedness of rendered token streams -/

theorem nomerge_not_num (t t' : Tok) (h : ∀ cs, ¬t = Tok.tnum cs) :
    nomerge t t' = true := by
  cases t <;> first
  | rfl
  | exact absurd rfl (h _)

theorem nomerge_of_head (t1 t2 : Tok) (c : Char) (cs : List Char)
    (hc : tokChars t2 = c :: cs) (hnc : numCont c = false) :
    nomerge t1 t2 = true := by
  cases t1 <;> first
  | rfl
  | (rw [nomerge, hc]; simp [hnc])

theorem WfL_cons_intro (t : Tok) (w : List Char) (L : List (Tok × List Char))
    (ht : tokOk t = true) (hw : wsTok w = true) (hL : WfL L)
    (hn : w = [] → ∀ p r, L = p :: r → nomerge t p.1 = true) :
    WfL ((t, w) :: L) := by
  constructor
  · intro p hp
    rcases List.mem_cons.1 hp with rfl | hp
    · exact ⟨ht, hw⟩
    · exact hL.1 p hp
  · cases L with
    | nil => simp
    | cons q L2 =>
      rw [List.chain'_cons]
      exact ⟨fun hw0 => hn hw0 q L2 rfl, hL.2⟩

theorem WfL_append_safe (a b : List (Tok × List Char)) (ha : WfL a) (hb : WfL b)
    (hs : ∀ p r, b = p :: r → ∀ t1 : Tok, nomerge t1 p.1 = true) :
    WfL (a ++ b) := by
  constructor
  · intro p hp
    rcases List.mem_append.1 hp with hp | hp
    · exact ha.1 p hp
    · exact hb.1 p hp
  · refine List.chain'_append.2 ⟨ha.2, hb.2, ?_⟩
    intro x hx y hy hxw
    cases b with
    | nil => exact absurd hy (by simp)
    | cons q r =>
      have h' : (q :: r).head? = some y := hy
      simp only [List.head?_cons] at h'
      have h2 : q = y := Option.some.inj h'
      rw [← h2]
      exact hs q r rfl x.1

theorem WfL_single (t : Tok) (w : List Char) (ht : tokOk t = true)
    (hw : wsTok w = true) : WfL [(t, w)] :=
  WfL_cons_intro t w [] ht hw WfL_nil (fun _ q r h => List.noConfusion h)

theorem buildL_append (a b : List (Tok × List Char)) :
    buildL (a ++ b) = buildL a ++ buildL b := by
  induction a with
  | nil => rfl
  | cons p r ih =>
    obtain ⟨t, w⟩ := p
    show tokChars t ++ w ++ buildL (r ++ b) =
      (tokChars t ++ w ++ buildL r) ++ buildL b
    rw [ih, ← List.append_assoc]

theorem buildL_length (L : List (Tok × List Char)) (hL : WfL L) :
    L.length ≤ (buildL L).length := by
  induction L with
  | nil => simp [buildL]
  | cons p r ih =>
    obtain ⟨t, w⟩ := p
    obtain ⟨c, cs, hc, -⟩ := tokChars_head t (WfL_head_tokOk hL).1
    have hrec := ih (WfL_tail hL)
    rw [buildL, hc]
    simp only [List.length_cons, List.length_append]
    omega

theorem toksOf_length (L : List (Tok × List Char)) :
    (toksOf L).length = L.length := by
  rw [toksOf]
  exact List.length_map _ _

theorem runT_det (f1 f2 : Nat) (req : PReq) (toks : List Tok)
    (r1 r2 : Except String (JsonValue × List Tok))
    (h1 : runT f1 req toks = some r1) (h2 : runT f2 req toks = some r2) :
    r1 = r2 := by
  have m1 := runT_mono f1 req toks r1 h1 (max f1 f2) (le_max_left _ _)
  have m2 := runT_mono f2 req toks r2 h2 (max f1 f2) (le_max_right _ _)
  rw [m1] at m2
  exact Option.some.inj m2

theorem WfL_render_all : ∀ n : Nat,
    (∀ v : JsonValue, sizeOf v ≤ n → Renderable v = true →
      WfL (renderToks v)) ∧
    (∀ items : List JsonValue, sizeOf items ≤ n →
      RenderableItems items = true → WfL (renderToksItems items)) ∧
    (∀ ps : List (List Char × JsonValue), sizeOf ps ≤ n →
      (∀ p ∈ ps, strBodyOk p.1 = true ∧ Renderable p.2 = true) →
      WfL (renderToksEntries ps)) := by
  intro n
  induction n with
  | zero =>
    refine ⟨?_, ?_, ?_⟩
    · intro v hv
      exact absurd hv (by cases v <;> simp)
    · intro items hi
      exact absurd hi (by cases items <;> simp)
    · intro ps hp
      exact absurd hp (by cases ps <;> simp)
  | succ n ihn =>
    obtain ⟨ih1, ih2, ih3⟩ := ihn
    refine ⟨?_, ?_, ?_⟩
    · intro v hsz hr
      cases v with
      | null =>
        exact WfL_cons_intro Tok.tnull [] [] rfl rfl WfL_nil
          (fun _ p r h => List.noConfusion h)
      | boolean b =>
        cases b <;>
          exact WfL_cons_intro _ [] [] rfl rfl WfL_nil
            (fun _ p r h => List.noConfusion h)
      | number q =>
        refine WfL_cons_intro _ _ [] ?_ rfl WfL_nil
          (fun _ p r h => List.noConfusion h)
        exact (renderNum_val q (by simpa [Renderable] using hr)).1
      | string s =>
        refine WfL_cons_intro _ _ [] ?_ rfl WfL_nil
          (fun _ p r h => List.noConfusion h)
        exact (escapeStr_ok s).1
      | array items =>
        have hshape : renderToks (JsonValue.array items) =
            (Tok.lbrack, ([] : List Char)) ::
              (renderToksItems items ++ [(Tok.rbrack, [])]) := by
          simp [renderToks]
        rw [hshape]
        have hsz2 : sizeOf items ≤ n := by
          have hs : sizeOf (JsonValue.array items) = 1 + sizeOf items := by simp
          omega
        refine WfL_cons_intro _ _ _ rfl rfl ?_
          (fun _ p r _ => nomerge_not_num Tok.lbrack p.1 nofun)
        refine WfL_append_safe _ _ ?_ (WfL_single Tok.rbrack [] rfl rfl) ?_
        · exact ih2 items hsz2 (by simpa [Renderable] using hr)
        · intro p r hpr t1
          obtain ⟨rfl, -⟩ := List.cons.inj hpr
          exact nomerge_of_head t1 Tok.rbrack ']' [] rfl (by decide)
      | object entries =>
        have hshape : renderToks (JsonValue.object entries) =
            (Tok.lbrace, ([] : List Char)) ::
              (renderToksEntries entries ++ [(Tok.rbrace, [])]) := by
          simp [renderToks]
        rw [hshape]
        have hsz2 : sizeOf entries ≤ n := by
          have hs : sizeOf (JsonValue.object entries) = 1 + sizeOf entries := by
            simp
          omega
        have hre : RenderableEntries entries = true := by
          rw [Renderable] at hr
          rw [Bool.and_eq_true] at hr
          exact hr.1
        refine WfL_cons_intro _ _ _ rfl rfl ?_
          (fun _ p r _ => nomerge_not_num Tok.lbrace p.1 nofun)
        refine WfL_append_safe _ _ ?_ (WfL_single Tok.rbrace [] rfl rfl) ?_
        · refine ih3 entries hsz2 ?_
          intro p hp
          obtain ⟨hk, hv⟩ := RenderableEntries_mem entries hre p hp
          exact ⟨(safeKey_ok p.1 hk).1, hv⟩
        · intro p r hpr t1
          obtain ⟨rfl, -⟩ := List.cons.inj hpr
          exact nomerge_of_head t1 Tok.rbrace '}' [] rfl (by decide)
    · intro items hsz hri
      cases items with
      | nil => exact WfL_nil
      | cons v0 vs =>
        have hv0r : Renderable v0 = true ∧ RenderableItems vs = true := by
          rw [RenderableItems] at hri
          simpa [Bool.and_eq_true] using hri
        have hszv : sizeOf v0 ≤ n := by
          have hs : sizeOf (v0 :: vs) = 1 + sizeOf v0 + sizeOf vs := by simp
          omega
        have hszvs : sizeOf vs ≤ n := by
          have hs : sizeOf (v0 :: vs) = 1 + sizeOf v0 + sizeOf vs := by simp
          omega
        cases vs with
        | nil =>
          have hshape : renderToksItems [v0] = renderToks v0 := by
            simp [renderToksItems]
          rw [hshape]
          exact ih1 v0 hszv hv0r.1
        | cons v1 vs2 =>
          have hshape : renderToksItems (v0 :: v1 :: vs2) = renderToks v0 ++
              ((Tok.comma, [' ']) :: renderToksItems (v1 :: vs2)) := rfl
          rw [hshape]
          refine WfL_append_safe _ _ (ih1 v0 hszv hv0r.1) ?_ ?_
          · refine WfL_cons_intro _ _ _ rfl rfl
              (ih2 (v1 :: vs2) hszvs hv0r.2) ?_
            intro h
            exact absurd h (by simp)
          · intro p r hpr t1
            obtain ⟨rfl, -⟩ := List.cons.inj hpr
            exact nomerge_of_head t1 Tok.comma ',' [] rfl (by decide)
    · intro ps hsz hpv
      cases ps with
      | nil => exact WfL_nil
      | cons p0 ps2 =>
        obtain ⟨k0, v0⟩ := p0
        have hk0 := hpv (k0, v0) (by simp)
        have hszv : sizeOf v0 ≤ n := by
          have hs1 : sizeOf ((k0, v0) :: ps2) =
              1 + sizeOf (k0, v0) + sizeOf ps2 := by simp
          have hs2 : sizeOf (k0, v0) = 1 + sizeOf k0 + sizeOf v0 := by simp
          omega
        have hszps : sizeOf ps2 ≤ n := by
          have hs1 : sizeOf ((k0, v0) :: ps2) =
              1 + sizeOf (k0, v0) + sizeOf ps2 := by simp
          have hs2 : sizeOf (k0, v0) = 1 + sizeOf k0 + sizeOf v0 := by simp
          omega
        obtain ⟨tl, htl⟩ := renderToksEntries_shape k0 v0 ps2
        rw [htl]
        have htlW : WfL tl ∧ (∀ p r, tl = p :: r →
            ∀ t1 : Tok, nomerge t1 p.1 = true) := by
          cases ps2 with
          | nil =>
            have h3 : renderToksEntries [(k0, v0)] =
                (Tok.tstr k0, ([] : List Char)) :: (Tok.colon, [' ']) ::
                  renderToks v0 := by
              simp [renderToksEntries]
            rw [h3] at htl
            have h5 := (List.cons.inj (List.cons.inj htl).2).2
            have h6 : tl = [] := by
              have h7 : renderToks v0 ++ [] = renderToks v0 ++ tl := by
                rw [List.append_nil]
                exact h5
              exact (List.append_cancel_left h7).symm
            subst h6
            exact ⟨WfL_nil, fun p r h => absurd h (by simp)⟩
          | cons p1 ps3 =>
            have h3 : renderToksEntries ((k0, v0) :: p1 :: ps3) =
                (Tok.tstr k0, ([] : List Char)) :: (Tok.colon, [' ']) ::
                  (renderToks v0 ++
                    ((Tok.comma, [' ']) :: renderToksEntries (p1 :: ps3))) := by
              rfl
            rw [h3] at htl
            have h4 := List.cons.inj htl
            have h5 := List.cons.inj h4.2
            have h6 := List.append_cancel_left h5.2.symm
            constructor
            · rw [h6]
              refine WfL_cons_intro _ _ _ rfl rfl ?_ ?_
              · refine ih3 (p1 :: ps3) ?_ ?_
                · have hs1 : sizeOf ((k0, v0) :: p1 :: ps3) =
                      1 + sizeOf (k0, v0) + sizeOf (p1 :: ps3) := by simp
                  omega
                · intro p hp
                  exact hpv p (by simp [hp])
              · intro h
                exact absurd h (by simp)
            · intro p r hpr t1
              rw [h6] at hpr
              obtain ⟨rfl, -⟩ := List.cons.inj hpr
              exact nomerge_of_head t1 Tok.comma ',' [] rfl (by decide)
        refine WfL_cons_intro _ _ _ hk0.1 rfl ?_
          (fun _ p r h => nomerge_not_num (Tok.tstr k0) p.1 nofun)
        refine WfL_cons_intro _ _ _ rfl rfl ?_ ?_
        · exact WfL_append_safe _ _ (ih1 v0 hszv hk0.2) htlW.1 htlW.2
        · intro h
          exact absurd h (by simp)

/-! ## The characters of a rendered token stream are the rendered text -/

theorem joinComma_single (x : List Char) : joinComma [x] = x := by
  simp [joinComma, List.intercalate]

theorem joinComma_cons (x y : List Char) (r : List (List Char)) :
    joinComma (x :: y :: r) = x ++ [',', ' '] ++ joinComma (y :: r) := by
  simp [joinComma, List.intercalate, List.intersperse]

theorem buildL_render_all : ∀ n : Nat,
    (∀ v : JsonValue, sizeOf v ≤ n → buildL (renderToks v) = render v) ∧
    (∀ items : List JsonValue, sizeOf items ≤ n →
      buildL (renderToksItems items) = joinComma (renderItems items)) ∧
    (∀ ps : List (List Char × JsonValue), sizeOf ps ≤ n →
      buildL (renderToksEntries ps) = joinComma (renderEntries ps)) := by
  intro n
  induction n with
  | zero =>
    refine ⟨?_, ?_, ?_⟩
    · intro v hv
      exact absurd hv (by cases v <;> simp)
    · intro items hi
      exact absurd hi (by cases items <;> simp)
    · intro ps hp
      exact absurd hp (by cases ps <;> simp)
  | succ n ihn =>
    obtain ⟨ih1, ih2, ih3⟩ := ihn
    refine ⟨?_, ?_, ?_⟩
    · intro v hsz
      cases v with
      | null => rfl
      | boolean b => cases b <;> rfl
      | number q => simp [renderToks, buildL, tokChars, render]
      | string s => simp [renderToks, buildL, tokChars, render]
      | array items =>
        have hsz2 : sizeOf items ≤ n := by
          have hs : sizeOf (JsonValue.array items) = 1 + sizeOf items := by simp
          omega
        have hshape : renderToks (JsonValue.array items) =
            (Tok.lbrack, ([] : List Char)) ::
              (renderToksItems items ++ [(Tok.rbrack, [])]) := by
          simp [renderToks]
        rw [hshape, buildL, buildL_append, ih2 items hsz2]
        simp [render, tokChars, buildL]
      | object entries =>
        have hsz2 : sizeOf entries ≤ n := by
          have hs : sizeOf (JsonValue.object entries) = 1 + sizeOf entries := by
            simp
          omega
        have hshape : renderToks (JsonValue.object entries) =
            (Tok.lbrace, ([] : List Char)) ::
              (renderToksEntries entries ++ [(Tok.rbrace, [])]) := by
          simp [renderToks]
        rw [hshape, buildL, buildL_append, ih3 entries hsz2]
        simp [render, tokChars, buildL]
    · intro items hsz
      cases items with
      | nil => rfl
      | cons v0 vs =>
        have hszv : sizeOf v0 ≤ n := by
          have hs : sizeOf (v0 :: vs) = 1 + sizeOf v0 + sizeOf vs := by simp
          omega
        have hszvs : sizeOf vs ≤ n := by
          have hs : sizeOf (v0 :: vs) = 1 + sizeOf v0 + sizeOf vs := by simp
          omega
        cases vs with
        | nil =>
          have hshape : renderToksItems [v0] = renderToks v0 := by
            simp [renderToksItems]
          rw [hshape, ih1 v0 hszv]
          have hitems : renderItems [v0] = [render v0] := rfl
          rw [hitems, joinComma_single]
        | cons v1 vs2 =>
          have hshape : renderToksItems (v0 :: v1 :: vs2) = renderToks v0 ++
              ((Tok.comma, [' ']) :: renderToksItems (v1 :: vs2)) := rfl
          rw [hshape, buildL_append, ih1 v0 hszv, buildL,
            ih2 (v1 :: vs2) hszvs]
          have hitems : renderItems (v0 :: v1 :: vs2) =
              render v0 :: render v1 :: renderItems vs2 := rfl
          rw [hitems, joinComma_cons]
          have hitems2 : renderItems (v1 :: vs2) =
              render v1 :: renderItems vs2 := rfl
          rw [← hitems2]
          simp [tokChars]
    · intro ps hsz
      cases ps with
      | nil => rfl
      | cons p0 ps2 =>
        obtain ⟨k0, v0⟩ := p0
        have hszv : sizeOf v0 ≤ n := by
          have hs1 : sizeOf ((k0, v0) :: ps2) =
              1 + sizeOf (k0, v0) + sizeOf ps2 := by simp
          have hs2 : sizeOf (k0, v0) = 1 + sizeOf k0 + sizeOf v0 := by simp
          omega
        have hszps : sizeOf ps2 ≤ n := by
          have hs1 : sizeOf ((k0, v0) :: ps2) =
              1 + sizeOf (k0, v0) + sizeOf ps2 := by simp
          omega
        cases ps2 with
        | nil =>
          have hshape : renderToksEntries [(k0, v0)] =
              (Tok.tstr k0, ([] : List Char)) :: (Tok.colon, [' ']) ::
                renderToks v0 := by
            simp [renderToksEntries]
          rw [hshape, buildL, buildL, ih1 v0 hszv]
          have hent : renderEntries [(k0, v0)] =
              [('"' :: k0 ++ '"' :: ':' :: ' ' :: render v0)] := rfl
          rw [hent, joinComma_single]
          simp [tokChars]
        | cons p1 ps3 =>
          have hshape : renderToksEntries ((k0, v0) :: p1 :: ps3) =
              (Tok.tstr k0, ([] : List Char)) :: (Tok.colon, [' ']) ::
                (renderToks v0 ++
                  ((Tok.comma, [' ']) :: renderToksEntries (p1 :: ps3))) := rfl
          rw [hshape, buildL, buildL, buildL_append, ih1 v0 hszv, buildL,
            ih3 (p1 :: ps3) hszps]
          obtain ⟨k1, v1⟩ := p1
          have hent : renderEntries ((k0, v0) :: (k1, v1) :: ps3) =
              ('"' :: k0 ++ '"' :: ':' :: ' ' :: render v0) ::
                ('"' :: k1 ++ '"' :: ':' :: ' ' :: render v1) ::
                  renderEntries ps3 := rfl
          rw [hent, joinComma_cons]
          have hent2 : renderEntries ((k1, v1) :: ps3) =
              ('"' :: k1 ++ '"' :: ':' :: ' ' :: render v1) ::
                renderEntries ps3 := rfl
          rw [← hent2]
          simp [tokChars]

/-! ## Canonical object text and its token stream -/

theorem objTextToksEntries_eq (ps : List (List Char × JsonValue)) :
    objTextToks.objTextToksEntries ps =
      renderToksEntries (ps.map fun p => (escapeStr p.1, p.2)) := by
  induction ps with
  | nil => rfl
  | cons p0 ps2 ih =>
    obtain ⟨k0, v0⟩ := p0
    cases ps2 with
    | nil => rfl
    | cons p1 ps3 =>
      have h1 : objTextToks.objTextToksEntries ((k0, v0) :: p1 :: ps3) =
          (Tok.tstr (escapeStr k0), ([] : List Char)) :: (Tok.colon, [' ']) ::
            (renderToks v0 ++ ((Tok.comma, [' ']) ::
              objTextToks.objTextToksEntries (p1 :: ps3))) := rfl
      have h2 : renderToksEntries (((k0, v0) :: p1 :: ps3).map
          fun p => (escapeStr p.1, p.2)) =
          (Tok.tstr (escapeStr k0), ([] : List Char)) :: (Tok.colon, [' ']) ::
            (renderToks v0 ++ ((Tok.comma, [' ']) ::
              renderToksEntries ((p1 :: ps3).map
                fun p => (escapeStr p.1, p.2)))) := rfl
      rw [h1, h2, ih]

theorem renderEntries_map_escape (ps : List (List Char × JsonValue)) :
    renderEntries (ps.map fun p => (escapeStr p.1, p.2)) =
      ps.map fun p => '"' :: escapeStr p.1 ++ '"' :: ':' :: ' ' :: render p.2 := by
  induction ps with
  | nil => rfl
  | cons p0 ps2 ih =>
    obtain ⟨k0, v0⟩ := p0
    simp only [List.map_cons]
    rw [renderEntries, ih]

theorem buildL_objTextToks (entries : List (List Char × JsonValue)) :
    buildL (objTextToks entries) = objText entries := by
  rw [objTextToks, objText, buildL_append, buildL, objTextToksEntries_eq]
  rw [(buildL_render_all
    (sizeOf (entries.map fun p => (escapeStr p.1, p.2)))).2.2 _ le_rfl]
  rw [renderEntries_map_escape]
  simp [tokChars, buildL]

theorem WfL_objTextToks (entries : List (List Char × JsonValue))
    (h : ∀ p ∈ entries, Renderable p.2 = true) : WfL (objTextToks entries) := by
  rw [objTextToks, objTextToksEntries_eq]
  refine WfL_cons_intro _ _ _ rfl rfl ?_
    (fun _ p r _ => nomerge_not_num Tok.lbrace p.1 nofun)
  refine WfL_append_safe _ _ ?_ (WfL_single Tok.rbrace [] rfl rfl) ?_
  · refine (WfL_render_all
      (sizeOf (entries.map fun p => (escapeStr p.1, p.2)))).2.2 _ le_rfl ?_
    intro p hp
    obtain ⟨q, hq, rfl⟩ := List.mem_map.1 hp
    exact ⟨(escapeStr_ok q.1).1, h q hq⟩
  · intro p r hpr t1
    obtain ⟨rfl, -⟩ := List.cons.inj hpr
    exact nomerge_of_head t1 Tok.rbrace '}' [] rfl (by decide)

theorem foldl_map_escape (ps : List (List Char × JsonValue)) :
    ∀ acc, (ps.map fun p => (escapeStr p.1, p.2)).foldl
        (fun m p => insertKV m (strDecode p.1) p.2) acc =
      ps.foldl (fun m p => insertKV m p.1 p.2) acc := by
  induction ps with
  | nil => intro acc; rfl
  | cons p0 ps2 ih =>
    intro acc
    obtain ⟨k0, v0⟩ := p0
    simp only [List.map_cons, List.foldl_cons]
    rw [show strDecode (escapeStr k0) = k0 from (escapeStr_ok k0).2]
    exact ih _

theorem runT_objText (entries : List (List Char × JsonValue))
    (h : ∀ p ∈ entries, Renderable p.2 = true) :
    ∃ f, runT f PReq.val (toksOf (objTextToks entries)) =
      some (.ok (.object (objFold entries), [])) := by
  cases entries with
  | nil => exact ⟨1, rfl⟩
  | cons p0 ps =>
    obtain ⟨f2, hf2⟩ := (runT_render_all
      (sizeOf ((p0 :: ps).map fun p => (escapeStr p.1, p.2)))).2.2
      ((p0 :: ps).map fun p => (escapeStr p.1, p.2)) le_rfl
      (by
        intro p hp
        obtain ⟨q, hq, rfl⟩ := List.mem_map.1 hp
        exact h q hq)
      (by simp) [] []
    rw [foldl_map_escape (p0 :: ps) []] at hf2
    refine ⟨f2 + 1, ?_⟩
    have hshape : toksOf (objTextToks (p0 :: ps)) =
        Tok.lbrace :: (toksOf (renderToksEntries ((p0 :: ps).map
          fun p => (escapeStr p.1, p.2))) ++ [Tok.rbrace]) := by
      rw [objTextToks, objTextToksEntries_eq]
      simp [toksOf, List.map_append]
    rw [hshape]
    obtain ⟨k0, v0⟩ := p0
    have hmap : ((k0, v0) :: ps).map (fun p => (escapeStr p.1, p.2)) =
        (escapeStr k0, v0) :: (ps.map fun p => (escapeStr p.1, p.2)) := rfl
    obtain ⟨tl, htl⟩ := renderToksEntries_shape (escapeStr k0) v0
      (ps.map fun p => (escapeStr p.1, p.2))
    rw [hmap] at hf2 ⊢
    have hL : toksOf (renderToksEntries ((escapeStr k0, v0) ::
        (ps.map fun p => (escapeStr p.1, p.2)))) ++ [Tok.rbrace] =
          Tok.tstr (escapeStr k0) :: (Tok.colon ::
            toksOf (renderToks v0 ++ tl) ++ [Tok.rbrace]) := by
      rw [htl]
      simp [toksOf]
    rw [hL] at hf2 ⊢
    simp only [runT]
    rw [if_neg (nofun : ¬Tok.tstr (escapeStr k0) = Tok.rbrace)]
    exact hf2

/-! ## From the token-level parser to the public entry point -/

theorem rem_new (input : List Char) : rem (Parser.new input) = input := by
  simp [rem, Parser.new]

/-- The top-level fuel always suffices on a tokenizable input. -/
theorem runT_top (input : List Char) (w : List Char)
    (L : List (Tok × List Char)) (hw : wsTok w = true) (hL : WfL L)
    (hin : input = w ++ buildL L) :
    ∃ r, runT (topFuel (Parser.new input)) PReq.val (toksOf L) = some r := by
  cases hr : runT (topFuel (Parser.new input)) PReq.val (toksOf L) with
  | some r => exact ⟨r, rfl⟩
  | none =>
    exfalso
    refine runT_suff (topFuel (Parser.new input)) PReq.val (toksOf L) ?_ hr
    have h1 : (toksOf L).length = L.length := toksOf_length L
    have h2 : L.length ≤ (buildL L).length := buildL_length L hL
    have h3 : input.length = w.length + (buildL L).length := by
      rw [hin]
      simp
    have h4 : topFuel (Parser.new input) = 2 * input.length + 4 := rfl
    have h5 : needT PReq.val (toksOf L) = 2 * (toksOf L).length + 2 := rfl
    omega

/-- Master correspondence: the public `parse` on a whitespace/token
interleaving is fully determined by the token-level parser outcome. -/
theorem parse_sim (input : List Char) (w : List Char)
    (L : List (Tok × List Char)) (hw : wsTok w = true) (hL : WfL L)
    (hin : input = w ++ buildL L) (r : Except String (JsonValue × List Tok))
    (hr : runT (topFuel (Parser.new input)) PReq.val (toksOf L) = some r) :
    (∀ v, r = .ok (v, []) → parse input = .ok v) ∧
    (∀ v t rest, r = .ok (v, t :: rest) →
      ∃ e, parse input = .error e ∧
        e.message = "unexpected trailing characters") ∧
    (∀ m, r = .error m → ∃ e, parse input = .error e ∧ e.message = m) := by
  have hrem : rem (Parser.new input) = w ++ buildL L := by
    rw [rem_new, hin]
  have hrem0 : rem (skip_whitespace (Parser.new input)) = buildL L :=
    rem_skip_build _ w L hw hL hrem
  have hsim := runP_simT (topFuel (Parser.new input)) PReq.val
    (skip_whitespace (Parser.new input)) [] L rfl hL hrem0
    (fun a ha => PReq.noConfusion ha)
  rw [hr] at hsim
  refine ⟨?_, ?_, ?_⟩
  · intro v hv
    subst hv
    cases hp : runP (topFuel (Parser.new input)) PReq.val
        (skip_whitespace (Parser.new input)) with
    | none => rw [hp] at hsim; exact hsim.elim
    | some res =>
      rw [hp] at hsim
      cases res with
      | error e => exact hsim.elim
      | ok p =>
        obtain ⟨v1, s1⟩ := p
        obtain ⟨rfl, hal⟩ := hsim
        obtain ⟨w2, L2, hw2, hL2, hrem2, hto⟩ := hal
        have hL2nil : L2 = [] := by
          cases L2 with
          | nil => rfl
          | cons q r2 => exact absurd hto.symm (by simp [toksOf])
        subst hL2nil
        have hrem3 : rem (skip_whitespace s1) = [] := by
          rw [rem_skip, hrem2]
          refine List.dropWhile_eq_nil_iff.2 ?_
          intro x hx
          rcases List.mem_append.1 hx with hx | hx
          · have := (List.all_eq_true.1 hw2) x hx
            simpa using this
          · exact absurd hx (by simp [buildL])
        have hpeek : peek_char (skip_whitespace s1) = none := by
          rw [peek_eq_head, hrem3]
          rfl
        rw [parse, parseP]
        simp only [hp, hpeek]
  · intro v t rest hv
    subst hv
    cases hp : runP (topFuel (Parser.new input)) PReq.val
        (skip_whitespace (Parser.new input)) with
    | none => rw [hp] at hsim; exact hsim.elim
    | some res =>
      rw [hp] at hsim
      cases res with
      | error e => exact hsim.elim
      | ok p =>
        obtain ⟨v1, s1⟩ := p
        obtain ⟨rfl, hal⟩ := hsim
        obtain ⟨w2, L2, hw2, hL2, hrem2, hto⟩ := hal
        cases L2 with
        | nil => exact absurd hto (by simp [toksOf])
        | cons q L3 =>
          obtain ⟨t2, w3⟩ := q
          have hrem4 : rem (skip_whitespace s1) = buildL ((t2, w3) :: L3) :=
            rem_skip_build _ w2 _ hw2 hL2 hrem2
          obtain ⟨c2, cs2, hc2, -⟩ :=
            tokChars_head t2 (WfL_head_tokOk hL2).1
          have hpeek : peek_char (skip_whitespace s1) = some c2 :=
            peek_build _ _ _ _ _ _ hrem4 hc2
          refine ⟨mkError (skip_whitespace s1) "unexpected trailing characters",
            ?_, rfl⟩
          rw [parse, parseP]
          simp only [hp, hpeek]
  · intro m hm
    subst hm
    cases hp : runP (topFuel (Parser.new input)) PReq.val
        (skip_whitespace (Parser.new input)) with
    | none => rw [hp] at hsim; exact hsim.elim
    | some res =>
      rw [hp] at hsim
      cases res with
      | ok p => exact hsim.elim
      | error e =>
        refine ⟨e, ?_, hsim⟩
        rw [parse, parseP]
        simp only [hp]

/-- Round trip of the serializer and the parser on renderable values. -/
theorem parse_render (v : JsonValue) (h : Renderable v = true) :
    parse (render v) = .ok v := by
  have hB : buildL (renderToks v) = render v :=
    (buildL_render_all (sizeOf v)).1 v le_rfl
  have hW : WfL (renderToks v) := (WfL_render_all (sizeOf v)).1 v le_rfl h
  obtain ⟨f0, hf0⟩ := (runT_render_all (sizeOf v)).1 v le_rfl h []
  rw [List.append_nil] at hf0
  have hin : render v = [] ++ buildL (renderToks v) := by
    rw [List.nil_append, hB]
  obtain ⟨r, hr⟩ := runT_top (render v) [] (renderToks v) rfl hW hin
  have hdet := runT_det _ _ _ _ _ _ hf0 hr
  exact (parse_sim (render v) [] (renderToks v) rfl hW hin r hr).1 v hdet.symm

/-- Parsing canonical object text: success with last-write-wins entries,
duplicate keys allowed. -/
theorem parse_objText (entries : List (List Char × JsonValue))
    (h : ∀ p ∈ entries, Renderable p.2 = true) :
    parse (objText entries) = .ok (.object (objFold entries)) := by
  have hB := buildL_objTextToks entries
  have hW := WfL_objTextToks entries h
  obtain ⟨f0, hf0⟩ := runT_objText entries h
  have hin : objText entries = [] ++ buildL (objTextToks entries) := by
    rw [List.nil_append, hB]
  obtain ⟨r, hr⟩ := runT_top _ [] (objTextToks entries) rfl hW hin
  have hdet := runT_det _ _ _ _ _ _ hf0 hr
  exact (parse_sim _ [] _ rfl hW hin r hr).1 _ hdet.symm

/-- Whitespace invariance: two interleavings of the same token sequence
parse to the same value or fail with the same error message. -/
theorem parse_ws_invariance (L1 L2 : List (Tok × List Char))
    (w1 w2 : List Char) (hw1 : wsTok w1 = true) (hw2 : wsTok w2 = true)
    (hL1 : WfL L1) (hL2 : WfL L2) (htoks : toksOf L1 = toksOf L2) :
    (∃ v, parse (w1 ++ buildL L1) = .ok v ∧
      parse (w2 ++ buildL L2) = .ok v) ∨
    (∃ e1 e2, parse (w1 ++ buildL L1) = .error e1 ∧
      parse (w2 ++ buildL L2) = .error e2 ∧ e1.message = e2.message) := by
  obtain ⟨r1, hr1⟩ := runT_top _ w1 L1 hw1 hL1 rfl
  obtain ⟨r2, hr2⟩ := runT_top _ w2 L2 hw2 hL2 rfl
  rw [← htoks] at hr2
  have hdet : r1 = r2 := runT_det _ _ _ _ _ _ hr1 hr2
  subst hdet
  rw [htoks] at hr2
  have h1 := parse_sim _ w1 L1 hw1 hL1 rfl r1 hr1
  have h2 := parse_sim _ w2 L2 hw2 hL2 rfl r1 hr2
  obtain (m | ⟨v, rest⟩) := r1
  · obtain ⟨e1, he1, hm1⟩ := h1.2.2 m rfl
    obtain ⟨e2, he2, hm2⟩ := h2.2.2 m rfl
    exact Or.inr ⟨e1, e2, he1, he2, by rw [hm1, hm2]⟩
  · cases rest with
    | nil => exact Or.inl ⟨v, h1.1 v rfl, h2.1 v rfl⟩
    | cons t rest2 =>
      obtain ⟨e1, he1, hm1⟩ := h1.2.1 v t rest2 rfl
      obtain ⟨e2, he2, hm2⟩ := h2.2.1 v t rest2 rfl
      exact Or.inr ⟨e1, e2, he1, he2, by rw [hm1, hm2]⟩

/-- On success the input decomposes into whitespace (in Rust's
`char::is_whitespace` sense), the value span, and whitespace. -/
theorem parse_ok_decomp (input : List Char) (v : JsonValue)
    (h : parse input = .ok v) :
    ∃ n1 n2 core, n1 ≤ n2 ∧ n2 ≤ input.length ∧
      input = input.take n1 ++ core ++ input.drop n2 ∧
      (∀ c ∈ input.take n1, rustIsWhitespace c = true) ∧
      (∀ c ∈ input.drop n2, rustIsWhitespace c = true) ∧
      runP (topFuel (Parser.new input)) PReq.val ⟨input, n1⟩ =
        some (.ok (v, ⟨input, n2⟩)) := by
  rw [parse, parseP] at h
  cases hp : runP (topFuel (Parser.new input)) PReq.val
      (skip_whitespace (Parser.new input)) with
  | none => rw [hp] at h; exact Except.noConfusion h
  | some res =>
    rw [hp] at h
    cases res with
    | error e => exact Except.noConfusion h
    | ok p =>
      obtain ⟨v1, s1⟩ := p
      simp only [] at h
      cases hpeek : peek_char (skip_whitespace s1) with
      | some c => rw [hpeek] at h; exact Except.noConfusion h
      | none =>
        rw [hpeek] at h
        obtain rfl := Except.ok.inj h
        obtain ⟨hadv, -⟩ := runP_advances _ _ _ _ _ hp
        have hs0i : (skip_whitespace (Parser.new input)).input = input := rfl
        have hs1i : s1.input = input := by
          rw [advances_input hadv, hs0i]
        have hble : (skip_whitespace (Parser.new input)).position ≤
            input.length := by
          have := skip_pos_bound (Parser.new input) (by simp [Parser.new])
          simpa [Parser.new] using this
        have hmono := advances_mono hadv
        have hn2 : s1.position ≤ input.length := by
          have := advances_bound hadv (by simpa [hs0i] using hble)
          simpa [hs0i] using this
        refine ⟨(skip_whitespace (Parser.new input)).position, s1.position,
          (input.drop (skip_whitespace (Parser.new input)).position).take
            (s1.position - (skip_whitespace (Parser.new input)).position),
          hmono, hn2, ?_, ?_, ?_, ?_⟩
        · conv_lhs => rw [← List.take_append_drop
            ((skip_whitespace (Parser.new input)).position) input]
          rw [List.append_assoc]
          refine congrArg _ ?_
          conv_lhs => rw [← List.take_append_drop
            (s1.position - (skip_whitespace (Parser.new input)).position)
            (input.drop (skip_whitespace (Parser.new input)).position)]
          refine congrArg _ ?_
          rw [List.drop_drop]
          refine congrArg (fun n => input.drop n) ?_
          omega
        · intro c hc
          have htake : input.take
              ((skip_whitespace (Parser.new input)).position) =
                input.takeWhile rustIsWhitespace := by
            have hpre := List.takeWhile_prefix
              (l := input) rustIsWhitespace
            have := List.prefix_iff_eq_take.1 hpre
            rw [this]
            refine congrArg (fun n => input.take n) ?_
            have : (skip_whitespace (Parser.new input)).position =
                ((rem (Parser.new input)).takeWhile rustIsWhitespace).length := by
              simp [skip_whitespace, advanceBy, Parser.new]
            rw [this, rem_new]
          rw [htake] at hc
          exact List.mem_takeWhile_imp hc
        · intro c hc
          have hrs1 : rem s1 = input.drop s1.position := by
            rw [rem, hs1i]
          have hnil : (rem s1).dropWhile rustIsWhitespace = [] := by
            have := rem_skip s1
            rw [← this, ← List.isEmpty_iff]
            cases hh : rem (skip_whitespace s1) with
            | nil => rfl
            | cons a b =>
              have : peek_char (skip_whitespace s1) = some a := by
                rw [peek_eq_head, hh]
                rfl
              rw [this] at hpeek
              exact Option.noConfusion hpeek
          rw [← hrs1] at hc
          exact List.dropWhile_eq_nil_iff.1 hnil c hc
        · have h2 : s1 = (⟨input, s1.position⟩ : Parser) := by
            rw [← hs1i]
          rw [← h2]
          exact hp

/-- A non-whitespace remainder after the value is reported as
"unexpected trailing characters". -/
theorem parse_trailing_err (input : List Char) (v : JsonValue) (s1 : Parser)
    (c : Char)
    (hp : runP (topFuel (Parser.new input)) PReq.val
      (skip_whitespace (Parser.new input)) = some (.ok (v, s1)))
    (hpeek : peek_char (skip_whitespace s1) = some c) :
    rustIsWhitespace c = false ∧
      parse input = .error
        (mkError (skip_whitespace s1) "unexpected trailing characters") := by
  constructor
  · have hd := List.head?_dropWhile_not rustIsWhitespace (rem s1)
    have hh : ((rem s1).dropWhile rustIsWhitespace).head? = some c := by
      rw [← rem_skip, ← peek_eq_head]
      exact hpeek
    rw [hh] at hd
    exact hd
  · rw [parse, parseP]
    simp only [hp, hpeek]

theorem jsonWs_rust (c : Char) (h : jsonWs c = true) :
    rustIsWhitespace c = true := by
  simp only [jsonWs, Bool.or_eq_true, beq_iff_eq] at h
  rcases h with ((rfl | rfl) | rfl) | rfl <;> rfl

theorem wsTok_of_jsonWs (w : List Char) (h : w.all jsonWs = true) :
    wsTok w = true := by
  refine List.all_eq_true.2 ?_
  intro c hc
  have := (List.all_eq_true.1 h) c hc
  exact jsonWs_rust c (by simpa using this)

/-! ## The claims -/

/-- C1: `parse "{}"` returns the empty object, and parse of canonical
well-formed JSON object text succeeds, producing the object built from
the string keys and values with last-write-wins on duplicate keys.  (The
object rule is modelled from the specification: `Parser::parse_object`
is `todo!()` in the source snapshot.) -/
theorem claim_C1 : parse ['{', '}'] = .ok (JsonValue.object []) ∧
    ∀ entries : List (List Char × JsonValue),
      (∀ p ∈ entries, Renderable p.2 = true) →
      parse (objText entries) = .ok (JsonValue.object (objFold entries)) :=
  ⟨rfl, parse_objText⟩

theorem claim_C1_witness :
    (∀ p ∈ [(['a'], JsonValue.number 1), (['a'], JsonValue.number 2)],
      Renderable p.2 = true) ∧
    parse (objText [(['a'], JsonValue.number 1), (['a'], JsonValue.number 2)]) =
      .ok (JsonValue.object (objFold
        [(['a'], JsonValue.number 1), (['a'], JsonValue.number 2)])) :=
  ⟨by decide, claim_C1.2
    [(['a'], JsonValue.number 1), (['a'], JsonValue.number 2)] (by decide)⟩

/-- C2: round trip of the serializer and the parser, on the values for
which it can hold: numbers with finite decimal expansions (all `f64`
values qualify) and objects whose keys are distinct and contain no `"`
or `\` (the serializer emits keys verbatim, so such keys do not read
back). -/
theorem claim_C2 (v : JsonValue) (h : Renderable v = true) :
    parse (render v) = .ok v :=
  parse_render v h

theorem claim_C2_witness :
    Renderable (JsonValue.array [JsonValue.number (mkRat 1 2),
      JsonValue.object [(['a'], JsonValue.null)]]) = true ∧
    parse (render (JsonValue.array [JsonValue.number (mkRat 1 2),
      JsonValue.object [(['a'], JsonValue.null)]])) =
      .ok (JsonValue.array [JsonValue.number (mkRat 1 2),
        JsonValue.object [(['a'], JsonValue.null)]]) :=
  ⟨by decide, claim_C2 _ (by decide)⟩

/-- C2 counterexample: the unrestricted round-trip claim is false — an
object key containing `"` is rendered verbatim, and the rendered text
does not read back as the original value (the parser sees an empty key
and then fails expecting a colon). -/
theorem claim_C2_counterexample :
    ¬parse (render (JsonValue.object [(['"'], JsonValue.null)])) =
      .ok (JsonValue.object [(['"'], JsonValue.null)]) := by
  intro h
  rw [show parse (render (JsonValue.object [(['"'], JsonValue.null)])) =
    .error ⟨"expected colon in object, found " ++ quoted '"', 3⟩ from rfl] at h
  exact Except.noConfusion h

/-- C3: the specification requires `\u` escapes (with surrogate pairs)
to be accepted inside string literals, but the code rejects every `\u`
escape: on an eight-character input carrying the escape `\u0041`
(which the spec says decodes to `A`) the loop of `Parser::parse_string` hits
the `_` arm of its escape match and fails with "invalid escape
sequence". -/
theorem claim_C3 :
    parse ['"', '\\', 'u', '0', '0', '4', '1', '"'] =
      .error ⟨"invalid escape sequence: \\u", 3⟩ := rfl

/-- C4: on success every character outside the parsed value span is
whitespace in the sense of Rust's `char::is_whitespace` — the full
Unicode White_Space set, not only the four JSON whitespace characters
the specification names — and a non-whitespace remainder after the value
makes the parse fail with "unexpected trailing characters". -/
theorem claim_C4 :
    (∀ (input : List Char) (v : JsonValue), parse input = .ok v →
      ∃ n1 n2 core, n1 ≤ n2 ∧ n2 ≤ input.length ∧
        input = input.take n1 ++ core ++ input.drop n2 ∧
        (∀ c ∈ input.take n1, rustIsWhitespace c = true) ∧
        (∀ c ∈ input.drop n2, rustIsWhitespace c = true) ∧
        runP (topFuel (Parser.new input)) PReq.val ⟨input, n1⟩ =
          some (.ok (v, ⟨input, n2⟩))) ∧
    (∀ (input : List Char) (v : JsonValue) (s1 : Parser) (c : Char),
      runP (topFuel (Parser.new input)) PReq.val
          (skip_whitespace (Parser.new input)) = some (.ok (v, s1)) →
      peek_char (skip_whitespace s1) = some c →
      rustIsWhitespace c = false ∧
        parse input = .error
          (mkError (skip_whitespace s1) "unexpected trailing characters")) :=
  ⟨parse_ok_decomp, parse_trailing_err⟩

theorem claim_C4_witness :
    (parse [' ', '1'] = .ok (JsonValue.number 1)) ∧
    (∃ n1 n2 core, n1 ≤ n2 ∧ n2 ≤ ([' ', '1'] : List Char).length ∧
      ([' ', '1'] : List Char) = ([' ', '1'] : List Char).take n1 ++ core ++
        ([' ', '1'] : List Char).drop n2 ∧
      (∀ c ∈ ([' ', '1'] : List Char).take n1, rustIsWhitespace c = true) ∧
      (∀ c ∈ ([' ', '1'] : List Char).drop n2, rustIsWhitespace c = true) ∧
      runP (topFuel (Parser.new [' ', '1'])) PReq.val ⟨[' ', '1'], n1⟩ =
        some (.ok (JsonValue.number 1, ⟨[' ', '1'], n2⟩))) :=
  ⟨rfl, claim_C4.1 [' ', '1'] (JsonValue.number 1) rfl⟩

/-- C4 counterexample: the original four-character whitespace claim is
false — a line-tabulation character (U+000B) after a complete value is
skipped as whitespace by `Parser::skip_whitespace` and the parse
succeeds, although U+000B is not one of space, tab, newline, carriage
return. -/
theorem claim_C4_counterexample :
    parse ['1', Char.ofNat 11] = .ok (JsonValue.number 1) ∧
    rustIsWhitespace (Char.ofNat 11) = true ∧
    jsonWs (Char.ofNat 11) = false :=
  ⟨rfl, rfl, rfl⟩

/-- C5: `parse "[1,]"` fails on the trailing comma (with the source's
misspelled message), `parse "{\"a\":1,}"` fails on the object trailing
comma (object rule modelled from the specification), and
`parse "[1 2]"` fails expecting a comma or a closing bracket. -/
theorem claim_C5 :
    parse ['[', '1', ',', ']'] =
      .error ⟨"unexptected trailing comma in array", 3⟩ ∧
    parse ['{', '"', 'a', '"', ':', '1', ',', '}'] =
      .error ⟨"unexpected trailing comma in object", 7⟩ ∧
    parse ['[', '1', ' ', '2', ']'] =
      .error ⟨"expected " ++ quoted ',' ++ " or " ++ quoted ']' ++
        " in array, found " ++ quoted '2', 3⟩ :=
  ⟨rfl, rfl, rfl⟩

/-- C6: `parse "01"` is rejected: the number lexer consumes only the
lone `0`, and the remaining `1` triggers the trailing-characters error
at offset 1. -/
theorem claim_C6 :
    parse ['0', '1'] = .error ⟨"unexpected trailing characters", 1⟩ := rfl

/-- C7: the numeric boundary cases: `"0"`, `"-0.5"`, `"1e2"` and
`"1E-2"` parse to the numbers 0, −1/2, 100 and 1/100 respectively. -/
theorem claim_C7 :
    parse ['0'] = .ok (JsonValue.number 0) ∧
    parse ['-', '0', '.', '5'] = .ok (JsonValue.number (mkRat (-1) 2)) ∧
    parse ['1', 'e', '2'] = .ok (JsonValue.number 100) ∧
    parse ['1', 'E', '-', '2'] = .ok (JsonValue.number (mkRat 1 100)) ∧
    (mkRat (-1) 2 : ℚ) = -(1 / 2) ∧ (mkRat 1 100 : ℚ) = 1 / 100 :=
  ⟨rfl, rfl, rfl, rfl, by norm_num [Rat.mkRat_eq_div],
    by norm_num [Rat.mkRat_eq_div]⟩

/-- C8: whitespace invariance — two inputs made of the same lexical
token sequence interleaved with arbitrary blocks of JSON whitespace
(space, tab, CR, LF) parse to the same value, or both fail with the same
error message. -/
theorem claim_C8 (L1 L2 : List (Tok × List Char)) (w1 w2 : List Char)
    (hw1 : w1.all jsonWs = true) (hw2 : w2.all jsonWs = true)
    (hL1 : WfL L1) (hL2 : WfL L2) (htoks : toksOf L1 = toksOf L2) :
    (∃ v, parse (w1 ++ buildL L1) = .ok v ∧
      parse (w2 ++ buildL L2) = .ok v) ∨
    (∃ e1 e2, parse (w1 ++ buildL L1) = .error e1 ∧
      parse (w2 ++ buildL L2) = .error e2 ∧ e1.message = e2.message) :=
  parse_ws_invariance L1 L2 w1 w2 (wsTok_of_jsonWs w1 hw1)
    (wsTok_of_jsonWs w2 hw2) hL1 hL2 htoks

theorem claim_C8_witness :
    (∃ v, parse ([] ++ buildL [(Tok.tnum ['1'], [])]) = .ok v ∧
      parse ([' '] ++ buildL [(Tok.tnum ['1'], [' '])]) = .ok v) ∨
    (∃ e1 e2, parse ([] ++ buildL [(Tok.tnum ['1'], [])]) = .error e1 ∧
      parse ([' '] ++ buildL [(Tok.tnum ['1'], [' '])]) = .error e2 ∧
      e1.message = e2.message) :=
  claim_C8 [(Tok.tnum ['1'], [])] [(Tok.tnum ['1'], [' '])] [] [' ']
    rfl rfl (WfL_single (Tok.tnum ['1']) [] rfl rfl)
    (WfL_single (Tok.tnum ['1']) [' '] rfl rfl) rfl

/-- C9: the cursor invariant — skipping whitespace, reading a character,
matching a literal, lexing a string or a number, and every successful
run of the recursive core advance the cursor monotonically over the same
buffer; `Advances` entails that the offset never decreases and stays
within `[0, length]`. -/
theorem claim_C9 :
    (∀ s : Parser, Advances s (skip_whitespace s)) ∧
    (∀ s : Parser, Advances s (next_char s).2) ∧
    (∀ (s : Parser) (w : List Char) (s1 : Parser),
      consume_str s w = .ok s1 → Advances s s1) ∧
    (∀ (s : Parser) (v : JsonValue) (s1 : Parser),
      parse_string s = .ok (v, s1) → Advances s s1) ∧
    (∀ (s : Parser) (v : JsonValue) (s1 : Parser),
      parse_number s = .ok (v, s1) → Advances s s1) ∧
    (∀ (fuel : Nat) (req : PReq) (s : Parser) (v : JsonValue) (s1 : Parser),
      runP fuel req s = some (.ok (v, s1)) → Advances s s1) ∧
    (∀ s s1 : Parser, Advances s s1 → s1.input = s.input ∧
      s.position ≤ s1.position ∧
      (s.position ≤ s.input.length → s1.position ≤ s1.input.length)) := by
  refine ⟨skip_advances, ?_, ?_, ?_, ?_, ?_, ?_⟩
  · intro s
    cases hpeek : peek_char s with
    | some c =>
      simp only [next_char, hpeek]
      exact advance1_advances s hpeek
    | none =>
      simp only [next_char, hpeek]
      exact advances_refl s
  · intro s w s1 h
    exact consume_str_advances w s s1 h
  · intro s v s1 h
    exact (parse_string_advances s s1 v h).1
  · intro s v s1 h
    exact (parse_number_advances s v s1 h).1
  · intro fuel req s v s1 h
    exact (runP_advances fuel req s v s1 h).1
  · intro s s1 h
    refine ⟨advances_input h, advances_mono h, fun hb => ?_⟩
    rw [advances_input h]
    exact advances_bound h hb

theorem claim_C9_witness : Advances (Parser.new ['4', '2']) ⟨['4', '2'], 2⟩ :=
  claim_C9.2.2.2.2.2.1 (topFuel (Parser.new ['4', '2'])) PReq.val
    (Parser.new ['4', '2']) (JsonValue.number (mkRat 42 1)) ⟨['4', '2'], 2⟩ rfl

/-- C10: the serializer emits object keys verbatim between quotes,
without the escaping applied to string values: rendering an object
exposes the raw key text, and for the key `"` the rendered object text
differs character-for-character from what the escaped (string-value)
rendering would produce. -/
theorem claim_C10 :
    (∀ (k : List Char) (v : JsonValue)
      (rest : List (List Char × JsonValue)),
      render (JsonValue.object ((k, v) :: rest)) =
        '{' :: joinComma (('"' :: k ++ '"' :: ':' :: ' ' :: render v) ::
          renderEntries rest) ++ ['}']) ∧
    render (JsonValue.object [(['"'], JsonValue.null)]) =
      ['{', '"', '"', '"', ':', ' ', 'n', 'u', 'l', 'l', '}'] ∧
    render (JsonValue.string ['"']) = ['"', '\\', '"', '"'] ∧
    ¬escapeStr ['"'] = ['"'] :=
  ⟨fun k v rest => rfl, rfl, rfl, by decide⟩

end JsonParser
